import Mathlib

/-!
# Gravity: the particle model and the adaptive substep loop of `space.h`

A shallow embedding of `src/Header/space.h` (classes `particle<T, D>` and
`space<T, D>`).

Modelling conventions.

* The scalar type `T` is a linearly ordered field `K` (exact arithmetic); every
  definition is computable and runs on `ℚ`.
* `NAN` is `none`: `collision_time_with` returns `Option K`, and the two result
  slots of `solve_quadric_equation` are `Option K`.  A comparison with `NAN` is
  false, so every comparison on an `Option K` is false on `none`.
* `vec.h` and `advancedmath.h` are not among the sources.  The componentwise
  vector operations are modelled from the specification; the magnitude `mod`
  (a square root) and `solve_quadric_equation` are parameters, bundled in `Lib`.
* `std::vector<particle>` is a `List`; `std::map<u32, std::vector<u32>>` is a
  key-sorted association list.
* The subtraction from `remaining_time`, whose precision the loop of `space::forward`
  tests, is exact in `choose`, `substep`, `forward_loop`; the definitions ending in
  `_with` take it as a parameter, and `sub64` is the subtraction of `double`.
* The `while` loop of `space::forward` takes a fuel argument counting loop
  iterations; it returns `none` when the fuel runs out with time remaining.
-/

set_option linter.unusedSectionVars false

namespace Gravity

variable {K : Type} [LinearOrderedField K] {D : Nat}

/-! ## Vectors (`vec.h`) -/

/-- Modelled from the spec: `vec.h` is missing; `vec<T, D>` is a tuple of `D` scalars. -/
abbrev Vec (K : Type) (D : Nat) := Fin D → K

/-- Modelled from the spec: `vec.h` is missing; `a.dot(b)` is the dot product. -/
def dot (a b : Vec K D) : K := ∑ i, a i * b i

/-- Modelled from the spec: `vec.h` is missing; `a.sqr()` is the squared magnitude. -/
def sqr (a : Vec K D) : K := dot a a

/-- Modelled from the spec: `vec.h` is missing; `a * k` scales every component. -/
def scale (a : Vec K D) (k : K) : Vec K D := fun i => a i * k

/-- The supplied primitives that are not in the sources: the magnitude `mod` of `vec.h`
and `solve_quadric_equation` of `advancedmath.h`, which fills `res[0]`, `res[1]`
(`none` for `NAN`). -/
structure Lib (K : Type) (D : Nat) where
  mod : Vec K D → K
  solve_quadric_equation : K → K → K → Option K × Option K

/-- Modelled from the spec: `vec.h` is missing; `a.normalize()` divides every component by
the magnitude. -/
def normalize (L : Lib K D) (a : Vec K D) : Vec K D := fun i => a i / L.mod a

/-- The magnitude is the non-negative square root of the squared magnitude. -/
def IsNorm (L : Lib K D) : Prop := ∀ a : Vec K D, 0 ≤ L.mod a ∧ L.mod a * L.mod a = sqr a

/-- The solver returns exactly the roots of `a t² + b t + c` in its two slots. -/
def ExactRoots (res : Option K × Option K) (a b c : K) : Prop :=
  ∀ t : K, (res.1 = some t ∨ res.2 = some t) ↔ a * t * t + b * t + c = 0

/-! ## `particle<T, D>` -/

/-- The fields of `particle<T, D>`: position, velocity, pending velocity change, radius, mass. -/
structure particle (K : Type) (D : Nat) where
  p : Vec K D
  v : Vec K D
  dv : Vec K D
  r : K
  m : K

instance : DecidableEq (particle K D) := fun a b =>
  decidable_of_iff (a.p = b.p ∧ a.v = b.v ∧ a.dv = b.dv ∧ a.r = b.r ∧ a.m = b.m)
    (by cases a; cases b; simp)

/-- The constructor `particle(p, v, r, m)`: the pending delta starts at zero. -/
def particle.new (p v : Vec K D) (r m : K) : particle K D := ⟨p, v, 0, r, m⟩

/-- `particle::intersects`. -/
def particle.intersects (self o : particle K D) : Bool :=
  let mindist := self.r + o.r
  decide (sqr (o.p - self.p) < mindist * mindist)

/-- `std::min(x, y)`, which is `(y < x) ? y : x`. -/
def std_min (x y : K) : K := if y < x then y else x

/-- The root selection of `collision_time_with` (lines 70-80) on `res[0]`, `res[1]`; a
comparison `res[k] > 0` is false when `res[k]` is `NAN`. -/
def select_root : Option K → Option K → Option K
  | some r0, some r1 =>
    if r0 > 0 then (if r1 > 0 then some (std_min r0 r1) else some r0)
    else if r1 > 0 then some r1 else none
  | some r0, none => if r0 > 0 then some r0 else none
  | none, some r1 => if r1 > 0 then some r1 else none
  | none, none => none

/-- `particle::collision_time_with`. -/
def particle.collision_time_with (L : Lib K D) (self o : particle K D) : Option K :=
  let dp := self.p - o.p
  let dv := self.v - o.v
  let dpdotdv := dot dp dv
  if dpdotdv ≥ 0 then none
  else
    let d := self.r + o.r
    let a := sqr dv
    let b := dpdotdv * 2
    let c := sqr dp - d * d
    let res := L.solve_quadric_equation a b c
    select_root res.1 res.2

/-- `particle::forward`. -/
def particle.forward (self : particle K D) (time : K) : particle K D :=
  { self with p := self.p + scale self.v time }

/-- `particle::gravity`: returns the updated `(self, o)`. -/
def particle.gravity (L : Lib K D) (self o : particle K D) (time G : K) :
    particle K D × particle K D :=
  let dp := o.p - self.p
  let k := L.mod dp
  if k = 0 then (self, o)
  else
    let k := G * time / (k * k * k)
    ({ self with dv := self.dv + scale dp (o.m * k) },
     { o with dv := o.dv + scale dp (-self.m * k) })

/-- `particle::collide`: returns the updated `(self, o)`. -/
def particle.collide (L : Lib K D) (self o : particle K D) : particle K D × particle K D :=
  let dp := normalize L (o.p - self.p)
  let vad1 := dot self.v dp
  let vbd1 := dot o.v dp
  let sm := o.m + self.m
  let dm := o.m - self.m
  if sm = 0 then (self, o)
  else
    let vad2 := (o.m * vbd1 * 2 - dm * vad1) / sm
    let vbd2 := (self.m * vad1 * 2 + dm * vbd1) / sm
    ({ self with dv := self.dv + scale dp (vad2 - vad1) },
     { o with dv := o.dv + scale dp (vbd2 - vbd1) })

/-- The quotient `a / b` of the scalar type with the divisor tested: `none` when `b` is zero. -/
def checked_div (a b : K) : Option K := if b = 0 then none else some (a / b)

/-- `particle::gravity` with the division of line 93 tested: the updated `(self, o)`, or `none`
when a division with divisor zero is evaluated. -/
def particle.gravity_checked (L : Lib K D) (self o : particle K D) (time G : K) :
    Option (particle K D × particle K D) :=
  let dp := o.p - self.p
  let k := L.mod dp
  if k = 0 then some (self, o)
  else
    (checked_div (G * time) (k * k * k)).map (fun k =>
      ({ self with dv := self.dv + scale dp (o.m * k) },
       { o with dv := o.dv + scale dp (-self.m * k) }))

/-- `particle::collide` with the two divisions of line 104 tested: the updated `(self, o)`, or
`none` when a division with divisor zero is evaluated.  The call `normalize()` of line 100 is
taken as it is supplied: the arithmetic inside `vec.h` is not part of `space.h`. -/
def particle.collide_checked (L : Lib K D) (self o : particle K D) :
    Option (particle K D × particle K D) :=
  let dp := normalize L (o.p - self.p)
  let vad1 := dot self.v dp
  let vbd1 := dot o.v dp
  let sm := o.m + self.m
  let dm := o.m - self.m
  if sm = 0 then some (self, o)
  else
    (checked_div (o.m * vbd1 * 2 - dm * vad1) sm).bind (fun vad2 =>
      (checked_div (self.m * vad1 * 2 + dm * vbd1) sm).map (fun vbd2 =>
        ({ self with dv := self.dv + scale dp (vad2 - vad1) },
         { o with dv := o.dv + scale dp (vbd2 - vbd1) })))

/-- `particle::apply`. -/
def particle.apply (self : particle K D) : particle K D :=
  { self with v := self.v + self.dv, dv := 0 }

/-! ## `space<T, D>` -/

/-- The member list `p` of `space<T, D>`. -/
abbrev space (K : Type) (D : Nat) := List (particle K D)

/-- `space::add_particle(par)`: the returned flag and the member list afterwards. -/
def space.add_particle (ps : space K D) (par : particle K D) : Bool × space K D :=
  if ps.any (fun i => i.intersects par) then (false, ps) else (true, ps ++ [par])

/-- A sequence of `add_particle` calls on the space `ps`, one for each body of `pars` in
order; the returned flags are discarded. -/
def insert_all (ps : space K D) (pars : List (particle K D)) : space K D :=
  pars.foldl (fun acc par => (space.add_particle acc par).2) ps

/-- The collision map `std::map<u32, std::vector<u32>>`, kept sorted by key. -/
abbrev CollisionMap := List (Nat × List Nat)

/-- The statement `collisions[i].push_back(j)`. -/
def CollisionMap.push : CollisionMap → Nat → Nat → CollisionMap
  | [], i, j => [(i, [j])]
  | (k, js) :: rest, i, j =>
    if i < k then (i, [j]) :: (k, js) :: rest
    else if i = k then (k, js ++ [j]) :: rest
    else (k, js) :: CollisionMap.push rest i j

/-- The pairs `(_i, *j)` in the order in which the collision loop visits them. -/
def CollisionMap.pairs (c : CollisionMap) : List (Nat × Nat) :=
  c.flatMap (fun e => e.2.map (fun j => (e.1, j)))

/-- The quotient `mdps / |v|` of the cap loop.  With `|v| = 0` the quotient is `+inf`,
`-inf` or `NAN`, and for each of them the guard of the cap loop is false: that case is
`none`. -/
def step_time (mdps vmod : K) : Option K := if vmod = 0 then none else some (mdps / vmod)

/-- The first loop of a substep (lines 146-152): the displacement caps. -/
def cap_scan (L : Lib K D) (mdps remaining_time : K) : List (particle K D) → K → K
  | [], forward_time => forward_time
  | q :: rest, forward_time =>
    match step_time mdps (L.mod q.v) with
    | some s =>
      if s < forward_time ∧ remaining_time - s < remaining_time then
        cap_scan L mdps remaining_time rest s
      else cap_scan L mdps remaining_time rest forward_time
    | none => cap_scan L mdps remaining_time rest forward_time

/-- The variables the pair scan updates. -/
structure ScanState (K : Type) where
  forward_time : K
  collisions : CollisionMap

/-- The body of the pair scan (lines 156-167) for the pair `(i, j)` whose predicted contact
time is `collision_time`. -/
def scan_step (min_time remaining_time : K) (i j : Nat) (collision_time : Option K)
    (st : ScanState K) : ScanState K :=
  match collision_time with
  | none => st
  | some t =>
    if t < st.forward_time ∧ remaining_time - t < remaining_time then
      { forward_time := t
        collisions :=
          CollisionMap.push (if st.forward_time > t + min_time then [] else st.collisions) i j }
    else if t ≥ st.forward_time ∧ t ≤ st.forward_time + min_time then
      { st with collisions := CollisionMap.push st.collisions i j }
    else st

/-- The inner loop of the pair scan: `a` is `p[i]`, the list holds `p[j], p[j+1], ...`. -/
def scan_inner (L : Lib K D) (min_time remaining_time : K) (a : particle K D) (i : Nat) :
    Nat → List (particle K D) → ScanState K → ScanState K
  | _, [], st => st
  | j, b :: rest, st =>
    scan_inner L min_time remaining_time a i (j + 1) rest
      (scan_step min_time remaining_time i j (a.collision_time_with L b) st)

/-- The outer loop of the pair scan (lines 154-169): the list holds `p[i], p[i+1], ...`. -/
def scan_outer (L : Lib K D) (min_time remaining_time : K) :
    Nat → List (particle K D) → ScanState K → ScanState K
  | _, [], st => st
  | i, a :: rest, st =>
    scan_outer L min_time remaining_time (i + 1) rest
      (scan_inner L min_time remaining_time a i (i + 1) rest st)

/-- Applies a two-body update to `p[i]` and `p[j]` (`i ≠ j`, both in range). -/
def update_pair (f : particle K D → particle K D → particle K D × particle K D)
    (i j : Nat) (ps : space K D) : space K D :=
  match ps[i]?, ps[j]? with
  | some a, some b => ((ps.set i (f a b).1).set j (f a b).2)
  | _, _ => ps

/-- The index pairs `(i, j)`, `i < j < len`, in the order of the nested loops. -/
def index_pairs (len : Nat) : List (Nat × Nat) :=
  (List.range len).flatMap (fun i => (List.range' (i + 1) (len - (i + 1))).map (fun j => (i, j)))

/-- The collision loop (lines 175-182). -/
def resolve (L : Lib K D) (c : CollisionMap) (ps : space K D) : space K D :=
  c.pairs.foldl (fun acc ij => update_pair (fun a b => a.collide L b) ij.1 ij.2 acc) ps

/-- The gravity loop (lines 185-189). -/
def gravity_all (L : Lib K D) (forward_time G : K) (ps : space K D) : space K D :=
  (index_pairs ps.length).foldl
    (fun acc ij => update_pair (fun a b => a.gravity L b forward_time G) ij.1 ij.2 acc) ps

/-- The substep length and the collision group chosen by the two scans (lines 145-169). -/
def choose (L : Lib K D) (min_time mdps remaining_time : K) (ps : space K D) : ScanState K :=
  scan_outer L min_time remaining_time 0 ps
    { forward_time := cap_scan L mdps remaining_time ps remaining_time, collisions := [] }

/-- One iteration of the `while` loop (lines 145-193): the member list afterwards. -/
def substep (L : Lib K D) (min_time mdps G remaining_time : K) (ps : space K D) : space K D :=
  let st := choose L min_time mdps remaining_time ps
  let moved := ps.map (fun q => q.forward st.forward_time)
  let collided := resolve L st.collisions moved
  let pulled := gravity_all L st.forward_time G collided
  pulled.map (fun q => q.apply)

/-- The `while (remaining_time > 0)` loop; the first argument bounds the iterations. -/
def forward_loop (L : Lib K D) (min_time mdps G : K) : Nat → K → space K D → Option (space K D)
  | 0, remaining_time, ps => if remaining_time > 0 then none else some ps
  | fuel + 1, remaining_time, ps =>
    if remaining_time > 0 then
      forward_loop L min_time mdps G fuel
        (remaining_time - (choose L min_time mdps remaining_time ps).forward_time)
        (substep L min_time mdps G remaining_time ps)
    else some ps

/-- `space::forward(time, mdps, G)`. -/
def space.forward (L : Lib K D) (fuel : Nat) (ps : space K D) (time mdps G : K) :
    Option (space K D) :=
  forward_loop L (time * (1 / 1000)) mdps G fuel time ps

/-- The lengths of the substeps that the loop of `forward` takes, in order: the successive
values of `forward_time`.  `none` when the fuel runs out with time remaining. -/
def forward_lengths (L : Lib K D) (min_time mdps G : K) : Nat → K → space K D → Option (List K)
  | 0, remaining_time, _ => if remaining_time > 0 then none else some []
  | fuel + 1, remaining_time, ps =>
    if remaining_time > 0 then
      (forward_lengths L min_time mdps G fuel
        (remaining_time - (choose L min_time mdps remaining_time ps).forward_time)
        (substep L min_time mdps G remaining_time ps)).map
        (fun l => (choose L min_time mdps remaining_time ps).forward_time :: l)
    else some []

/-! ## The substep loop with the subtraction of `T` as a parameter

The guard `remaining_time - s < remaining_time` of lines 149 and 158 tests the precision of
the subtraction of `T`.  Over an exact field the guard only says `0 < s`; the definitions
below follow the same source lines with that subtraction, `sub`, as a parameter, so that the
guard can be read as the machine evaluates it.  With the exact subtraction they are the
definitions above. -/

/-- The first loop of a substep (lines 146-152), the subtraction of `T` being `sub`. -/
def cap_scan_with (sub : K → K → K) (L : Lib K D) (mdps remaining_time : K) :
    List (particle K D) → K → K
  | [], forward_time => forward_time
  | q :: rest, forward_time =>
    match step_time mdps (L.mod q.v) with
    | some s =>
      if s < forward_time ∧ sub remaining_time s < remaining_time then
        cap_scan_with sub L mdps remaining_time rest s
      else cap_scan_with sub L mdps remaining_time rest forward_time
    | none => cap_scan_with sub L mdps remaining_time rest forward_time

/-- The body of the pair scan (lines 156-167), the subtraction of `T` being `sub`. -/
def scan_step_with (sub : K → K → K) (min_time remaining_time : K) (i j : Nat)
    (collision_time : Option K) (st : ScanState K) : ScanState K :=
  match collision_time with
  | none => st
  | some t =>
    if t < st.forward_time ∧ sub remaining_time t < remaining_time then
      { forward_time := t
        collisions :=
          CollisionMap.push (if st.forward_time > t + min_time then [] else st.collisions) i j }
    else if t ≥ st.forward_time ∧ t ≤ st.forward_time + min_time then
      { st with collisions := CollisionMap.push st.collisions i j }
    else st

/-- The inner loop of the pair scan, the subtraction of `T` being `sub`. -/
def scan_inner_with (sub : K → K → K) (L : Lib K D) (min_time remaining_time : K)
    (a : particle K D) (i : Nat) : Nat → List (particle K D) → ScanState K → ScanState K
  | _, [], st => st
  | j, b :: rest, st =>
    scan_inner_with sub L min_time remaining_time a i (j + 1) rest
      (scan_step_with sub min_time remaining_time i j (a.collision_time_with L b) st)

/-- The outer loop of the pair scan (lines 154-169), the subtraction of `T` being `sub`. -/
def scan_outer_with (sub : K → K → K) (L : Lib K D) (min_time remaining_time : K) :
    Nat → List (particle K D) → ScanState K → ScanState K
  | _, [], st => st
  | i, a :: rest, st =>
    scan_outer_with sub L min_time remaining_time (i + 1) rest
      (scan_inner_with sub L min_time remaining_time a i (i + 1) rest st)

/-- The substep length and the collision group chosen by the two scans (lines 145-169), the
subtraction of `T` being `sub`. -/
def choose_with (sub : K → K → K) (L : Lib K D) (min_time mdps remaining_time : K)
    (ps : space K D) : ScanState K :=
  scan_outer_with sub L min_time remaining_time 0 ps
    { forward_time := cap_scan_with sub L mdps remaining_time ps remaining_time,
      collisions := [] }

/-- One iteration of the `while` loop (lines 145-193), the subtraction of `T` being `sub`. -/
def substep_with (sub : K → K → K) (L : Lib K D) (min_time mdps G remaining_time : K)
    (ps : space K D) : space K D :=
  let st := choose_with sub L min_time mdps remaining_time ps
  let moved := ps.map (fun q => q.forward st.forward_time)
  let collided := resolve L st.collisions moved
  let pulled := gravity_all L st.forward_time G collided
  pulled.map (fun q => q.apply)

/-- The `while (remaining_time > 0)` loop, the subtraction of `T` being `sub`, also in
`remaining_time -= forward_time` (line 194); the first argument bounds the iterations. -/
def forward_loop_with (sub : K → K → K) (L : Lib K D) (min_time mdps G : K) :
    Nat → K → space K D → Option (space K D)
  | 0, remaining_time, ps => if remaining_time > 0 then none else some ps
  | fuel + 1, remaining_time, ps =>
    if remaining_time > 0 then
      forward_loop_with sub L min_time mdps G fuel
        (sub remaining_time (choose_with sub L min_time mdps remaining_time ps).forward_time)
        (substep_with sub L min_time mdps G remaining_time ps)
    else some ps

/-- `space::forward(time, mdps, G)`, the subtraction of `T` being `sub`. -/
def space.forward_with (sub : K → K → K) (L : Lib K D) (fuel : Nat) (ps : space K D)
    (time mdps G : K) : Option (space K D) :=
  forward_loop_with sub L (time * (1 / 1000)) mdps G fuel time ps

/-! ## Specification-side notions -/

/-- The two spheres, extrapolated by their current velocities, touch at time `t`:
`|dp + dv·t|² = (r_self + r_other)²`. -/
def touching_at (self o : particle K D) (t : K) : Prop :=
  sqr ((self.p - o.p) + scale (self.v - o.v) t) = (self.r + o.r) * (self.r + o.r)

/-- The time `f` is the minimum of the remaining time `R`, the caps `mdps / |v|` over the
bodies with non-zero velocity, and the finite predicted contact times over the pairs
`i < j`: it is one of these candidates and none of them is smaller. -/
def is_earliest_event (L : Lib K D) (mdps R : K) (ps : space K D) (f : K) : Prop :=
  (f = R ∨ (∃ q ∈ ps, q.v ≠ 0 ∧ f = mdps / L.mod q.v) ∨
    ∃ (i j : Nat) (a b : particle K D), i < j ∧ ps[i]? = some a ∧ ps[j]? = some b ∧
      a.collision_time_with L b = some f) ∧
  f ≤ R ∧ (∀ q ∈ ps, q.v ≠ 0 → f ≤ mdps / L.mod q.v) ∧
  ∀ (i j : Nat) (a b : particle K D) (t : K), i < j → ps[i]? = some a → ps[j]? = some b →
    a.collision_time_with L b = some t → f ≤ t

/-- The time `f` is the minimum of the remaining time `R` and of those candidates that pass
the precision guard `sub R s < R`: the caps `mdps / |v|` over the bodies with non-zero
velocity and the finite predicted contact times over the pairs `i < j`.  It is `R` or one of
the passing candidates, and no passing candidate is smaller. -/
def is_earliest_passing (sub : K → K → K) (L : Lib K D) (mdps R : K) (ps : space K D) (f : K) :
    Prop :=
  (f = R ∨ (∃ q ∈ ps, q.v ≠ 0 ∧ sub R (mdps / L.mod q.v) < R ∧ f = mdps / L.mod q.v) ∨
    ∃ (i j : Nat) (a b : particle K D), i < j ∧ ps[i]? = some a ∧ ps[j]? = some b ∧
      a.collision_time_with L b = some f ∧ sub R f < R) ∧
  f ≤ R ∧
  (∀ q ∈ ps, q.v ≠ 0 → sub R (mdps / L.mod q.v) < R → f ≤ mdps / L.mod q.v) ∧
  ∀ (i j : Nat) (a b : particle K D) (t : K), i < j → ps[i]? = some a → ps[j]? = some b →
    a.collision_time_with L b = some t → sub R t < R → f ≤ t

/-- The first body of the tunneling scenario: at `p0`, radius 0.1, mass `m`, moving with
speed 1000 along the unit vector `u` towards the second body. -/
def tunnel_fst (p0 u : Vec K D) (m : K) : particle K D :=
  particle.new p0 (scale u 1000) (1 / 10) m

/-- The second body of the tunneling scenario: at `p0 + u` (center distance 1), radius 0.1,
mass `m`, moving with speed 1000 against `u`. -/
def tunnel_snd (p0 u : Vec K D) (m : K) : particle K D :=
  particle.new (p0 + u) (scale u (-1000)) (1 / 10) m

/-- The predicted contact time of the pair `(i, j)` of the member list; `none` also when an
index is out of range. -/
def pair_time (L : Lib K D) (ps : space K D) (i j : Nat) : Option K :=
  match ps[i]?, ps[j]? with
  | some a, some b => a.collision_time_with L b
  | _, _ => none

/-- The invariant of the pair scan, for the contact times `T`, the tolerance `eps` and the
set `S` of pairs scanned so far: every grouped pair has been scanned and has a finite contact
time not below the running substep length, and every scanned pair whose contact time is at
most the running substep length plus `eps` is grouped. -/
def scan_inv (T : Nat → Nat → Option K) (eps : K) (S : Nat → Nat → Prop) (st : ScanState K) :
    Prop :=
  (∀ p ∈ st.collisions.pairs, S p.1 p.2 ∧ ∃ t, T p.1 p.2 = some t ∧ st.forward_time ≤ t) ∧
  (∀ (i j : Nat) (t : K), S i j → T i j = some t → t ≤ st.forward_time + eps →
    (i, j) ∈ st.collisions.pairs)

/-- One staged interaction of a substep: `collide` (`gravity = false`) or `gravity` on the
pair `(i, j)`. -/
structure Stage where
  gravity : Bool
  i : Nat
  j : Nat

/-- The two-body update of a stage: `a.gravity(b, forward_time, G)` or `a.collide(b)`. -/
def stage_fn (L : Lib K D) (forward_time G : K) (s : Stage) (a b : particle K D) :
    particle K D × particle K D :=
  if s.gravity then a.gravity L b forward_time G else a.collide L b

/-- Runs one stage on the member list. -/
def run_stage (L : Lib K D) (forward_time G : K) (ps : space K D) (s : Stage) : space K D :=
  update_pair (stage_fn L forward_time G s) s.i s.j ps

/-- The contribution of the stage `s` to the pending delta of body `n`, computed from the
positions, velocities and masses in `ps`. -/
def stage_delta (L : Lib K D) (forward_time G : K) (ps : space K D) (s : Stage) (n : Nat) :
    Vec K D :=
  match ps[s.i]?, ps[s.j]? with
  | some a, some b =>
    if n = s.i then (stage_fn L forward_time G s a b).1.dv - a.dv
    else if n = s.j then (stage_fn L forward_time G s a b).2.dv - b.dv
    else 0
  | _, _ => 0

/-- The stages of a substep in the order of the source: the grouped collisions (lines
175-182), then the gravity pairs (lines 185-189). -/
def substep_stages (c : CollisionMap) (len : Nat) : List Stage :=
  c.pairs.map (fun ij => { gravity := false, i := ij.1, j := ij.2 }) ++
    (index_pairs len).map (fun ij => { gravity := true, i := ij.1, j := ij.2 })

/-! ## A one-dimensional instance over `ℚ` -/

/-- Bitwise integer square root: the bits of the root are tried from bit `b` downwards. -/
def isqrt_bits (n : Nat) : Nat → Nat → Nat
  | 0, r => r
  | b + 1, r => if (r + 2 ^ b) * (r + 2 ^ b) ≤ n then isqrt_bits n b (r + 2 ^ b)
    else isqrt_bits n b r

/-- The integer square root (rounded down) of a number below `2 ^ 128`. -/
def isqrt (n : Nat) : Nat := isqrt_bits n 64 0

/-- The square root of a rational that is a perfect square, `none` otherwise. -/
def sqrtQ (x : ℚ) : Option ℚ :=
  if x < 0 then none
  else if ((isqrt x.num.natAbs * isqrt x.num.natAbs : Nat) : ℤ) = x.num ∧
      isqrt x.den * isqrt x.den = x.den then
    some ((isqrt x.num.natAbs : ℚ) / (isqrt x.den : ℚ))
  else none

/-- A quadratic solver on `ℚ`: both roots when the discriminant is the square of a rational
(with numerator and denominator below `2 ^ 128`), no root otherwise. -/
def solveQ (a b c : ℚ) : Option ℚ × Option ℚ :=
  match sqrtQ (b * b - 4 * a * c) with
  | some s => (some ((-b - s) / (2 * a)), some ((-b + s) / (2 * a)))
  | none => (none, none)

/-- The primitives on the rational line: the magnitude is the absolute value. -/
def lineQ : Lib ℚ 1 := { mod := fun a => |a 0|, solve_quadric_equation := solveQ }

/-- A body on the rational line. -/
def bodyQ (p v r m : ℚ) : particle ℚ 1 := particle.new (fun _ => p) (fun _ => v) r m

/-! ## The subtraction of `double`

`main.cpp` instantiates `space<double, 3>`: the scalar type of the program is `double`. -/

/-- The quotient `n / d` of two naturals (`d > 0`) rounded to the nearest natural, a tie
going to the even neighbour. -/
def round_half_even (n d : Nat) : Nat :=
  if 2 * (n % d) < d then n / d
  else if d < 2 * (n % d) then n / d + 1
  else if (n / d) % 2 = 0 then n / d else n / d + 1

/-- The binary logarithm of `n`, rounded down, by halving at most `fuel` times; 0 for 0. -/
def ilog2_halve : Nat → Nat → Nat
  | 0, _ => 0
  | fuel + 1, n => if n < 2 then 0 else ilog2_halve fuel (n / 2) + 1

/-- The binary logarithm (rounded down) of a number below `2 ^ 2048`; 0 for 0. -/
def ilog2 (n : Nat) : Nat := ilog2_halve 2048 n

/-- Rounding of a rational to the nearest number with a significand of 53 binary digits, a
tie going to the even significand: the rounding of `double` (IEEE 754 binary64, round to
nearest even) on the range of normal numbers; the limits of the exponent are not modelled.
With `k` and `l` the binary logarithms of numerator and denominator, the exponent of `x` is
`k - l - c`, and the significand is `|x| * 2 ^ (52 + l + c - k)` rounded. -/
def round53 (x : ℚ) : ℚ :=
  let n := x.num.natAbs
  let d := x.den
  let k := ilog2 n
  let l := ilog2 d
  let c := if 2 ^ k * d ≤ n * 2 ^ l then 0 else 1
  let m := round_half_even (n * 2 ^ (52 + l + c)) (d * 2 ^ k)
  let y : ℚ := ((m * 2 ^ k : Nat) : ℚ) / ((2 ^ (52 + l + c) : Nat) : ℚ)
  if x < 0 then -y else y

/-- The subtraction `a - b` of `double` on two numbers of `double`: the exact difference,
rounded. -/
def sub64 (a b : ℚ) : ℚ := round53 (a - b)

/-! ## Vector algebra -/

theorem sqr_nonneg (a : Vec K D) : 0 ≤ sqr a := by
  simp only [sqr, dot]; exact Finset.sum_nonneg (fun i _ => mul_self_nonneg _)

theorem sqr_add_scale (dp dv : Vec K D) (t : K) :
    sqr (dp + scale dv t) = sqr dv * t * t + dot dp dv * 2 * t + sqr dp := by
  simp only [sqr, dot, scale, Pi.add_apply, Finset.sum_mul, ← Finset.sum_add_distrib]
  exact Finset.sum_congr rfl (fun i _ => by ring)

/-! ## Insertion and the zero-time call -/

/-- C2: `add_particle(par)` returns false and leaves the member list unchanged if and only
if some existing member intersects `par`; otherwise it returns true and the new member list
is the old list with `par` appended at the end. -/
theorem add_particle_spec (ps : space K D) (par : particle K D) :
    (((space.add_particle ps par).1 = false ∧ (space.add_particle ps par).2 = ps) ↔
        ∃ q ∈ ps, q.intersects par = true) ∧
    (((∃ q ∈ ps, q.intersects par = true) ∧ space.add_particle ps par = (false, ps)) ∨
      ((¬ ∃ q ∈ ps, q.intersects par = true) ∧
        space.add_particle ps par = (true, ps ++ [par]))) := by
  by_cases h : ∃ q ∈ ps, q.intersects par = true
  · have h1 : ps.any (fun i => i.intersects par) = true := by
      simpa [List.any_eq_true] using h
    simp [space.add_particle, h1, h]
  · have h1 : ps.any (fun i => i.intersects par) = false := by
      simpa [List.any_eq_false] using h
    simp [space.add_particle, h1, h]

/-- C10: `forward(0, mdps, G)` returns at once, whatever the fuel, and leaves every member
(position, velocity, pending delta, radius, mass) unchanged. -/
theorem forward_zero_time (L : Lib K D) (fuel : Nat) (ps : space K D) (mdps G : K) :
    space.forward L fuel ps 0 mdps G = some ps := by
  cases fuel <;> simp [space.forward, forward_loop]


/-! ## The predicted contact time -/

theorem select_root_some (x y : Option K) (t : K) (h : select_root x y = some t) :
    0 < t ∧ (x = some t ∨ y = some t) ∧
      ∀ s, 0 < s → (x = some s ∨ y = some s) → t ≤ s := by
  rcases x with _ | r0 <;> rcases y with _ | r1 <;> simp only [select_root, std_min] at h
  · exact absurd h (by simp)
  · split_ifs at h with h1
    cases h
    refine ⟨h1, Or.inr rfl, ?_⟩
    rintro s _ (e | e) <;> cases e
    exact le_refl _
  · split_ifs at h with h0
    cases h
    refine ⟨h0, Or.inl rfl, ?_⟩
    rintro s _ (e | e) <;> cases e
    exact le_refl _
  · split_ifs at h with h0 h1 hlt h1 <;> cases h
    · refine ⟨h1, Or.inr rfl, ?_⟩
      rintro s _ (e | e) <;> cases e
      · exact le_of_lt hlt
      · exact le_refl _
    · refine ⟨h0, Or.inl rfl, ?_⟩
      rintro s _ (e | e) <;> cases e
      · exact le_refl _
      · exact not_lt.mp hlt
    · refine ⟨h0, Or.inl rfl, ?_⟩
      rintro s hs (e | e) <;> cases e
      · exact le_refl _
      · exact absurd hs h1
    · refine ⟨h1, Or.inr rfl, ?_⟩
      rintro s hs (e | e) <;> cases e
      · exact absurd hs h0
      · exact le_refl _

theorem select_root_none (x y : Option K) (h : select_root x y = none) (s : K) (hs : 0 < s) :
    ¬ (x = some s ∨ y = some s) := by
  rcases x with _ | r0 <;> rcases y with _ | r1 <;> simp only [select_root, std_min] at h
  · rintro (e | e) <;> cases e
  · split_ifs at h with h1
    rintro (e | e) <;> cases e
    exact h1 hs
  · split_ifs at h with h0
    rintro (e | e) <;> cases e
    exact h0 hs
  · split_ifs at h
    rintro (e | e) <;> cases e <;> exact absurd hs (by assumption)


theorem collision_time_with_pos (L : Lib K D) (self o : particle K D) (t : K)
    (h : self.collision_time_with L o = some t) : 0 < t := by
  simp only [particle.collision_time_with] at h
  split_ifs at h
  exact (select_root_some _ _ t h).1

theorem collision_time_with_approaching (L : Lib K D) (self o : particle K D) (t : K)
    (h : self.collision_time_with L o = some t) : dot (self.p - o.p) (self.v - o.v) < 0 := by
  simp only [particle.collision_time_with] at h
  split_ifs at h with h0
  exact not_le.mp h0

/-- C3: with a solver that returns the exact roots of the contact quadratic,
`collision_time_with` is `none` when `dp·dv ≥ 0`; when `dp·dv < 0` it is the smallest `t > 0`
with `|dp + dv·t|² = (r_self + r_other)²` if such a `t` exists and `none` if no positive `t`
satisfies the equation.  Every finite result is strictly positive and a contact time. -/
theorem collision_time_with_spec (L : Lib K D) (self o : particle K D)
    (hsolve : ExactRoots
      (L.solve_quadric_equation (sqr (self.v - o.v)) (dot (self.p - o.p) (self.v - o.v) * 2)
        (sqr (self.p - o.p) - (self.r + o.r) * (self.r + o.r)))
      (sqr (self.v - o.v)) (dot (self.p - o.p) (self.v - o.v) * 2)
      (sqr (self.p - o.p) - (self.r + o.r) * (self.r + o.r))) :
    (0 ≤ dot (self.p - o.p) (self.v - o.v) → self.collision_time_with L o = none) ∧
    (dot (self.p - o.p) (self.v - o.v) < 0 →
      (∀ t, self.collision_time_with L o = some t ↔
        (0 < t ∧ touching_at self o t ∧ ∀ s, 0 < s → touching_at self o s → t ≤ s)) ∧
      (self.collision_time_with L o = none ↔ ¬ ∃ s, 0 < s ∧ touching_at self o s)) := by
  have hroot : ∀ t, touching_at self o t ↔
      sqr (self.v - o.v) * t * t + dot (self.p - o.p) (self.v - o.v) * 2 * t +
        (sqr (self.p - o.p) - (self.r + o.r) * (self.r + o.r)) = 0 := by
    intro t
    unfold touching_at
    rw [sqr_add_scale]
    constructor <;> intro h <;> linarith
  refine ⟨fun h => by simp [particle.collision_time_with, h], fun hneg => ?_⟩
  have hct : self.collision_time_with L o = select_root
      (L.solve_quadric_equation (sqr (self.v - o.v)) (dot (self.p - o.p) (self.v - o.v) * 2)
        (sqr (self.p - o.p) - (self.r + o.r) * (self.r + o.r))).1
      (L.solve_quadric_equation (sqr (self.v - o.v)) (dot (self.p - o.p) (self.v - o.v) * 2)
        (sqr (self.p - o.p) - (self.r + o.r) * (self.r + o.r))).2 := by
    simp [particle.collision_time_with, not_le.mpr hneg]
  rw [hct]
  generalize L.solve_quadric_equation (sqr (self.v - o.v))
    (dot (self.p - o.p) (self.v - o.v) * 2)
    (sqr (self.p - o.p) - (self.r + o.r) * (self.r + o.r)) = res at hsolve
  have hA : ∀ t, select_root res.1 res.2 = some t →
      (0 < t ∧ touching_at self o t ∧ ∀ s, 0 < s → touching_at self o s → t ≤ s) := by
    intro t ht
    obtain ⟨hpos, hin, hmin⟩ := select_root_some _ _ t ht
    exact ⟨hpos, (hroot t).mpr ((hsolve t).mp hin),
      fun s hs hts => hmin s hs ((hsolve s).mpr ((hroot s).mp hts))⟩
  have hB : select_root res.1 res.2 = none → ¬ ∃ s, 0 < s ∧ touching_at self o s := by
    rintro hn ⟨s, hs, hts⟩
    exact select_root_none _ _ hn s hs ((hsolve s).mpr ((hroot s).mp hts))
  refine ⟨fun t => ⟨hA t, ?_⟩, ⟨hB, ?_⟩⟩
  · rintro ⟨hpos, htouch, hmin⟩
    cases hr : select_root res.1 res.2 with
    | none => exact absurd ⟨t, hpos, htouch⟩ (hB hr)
    | some u =>
      obtain ⟨upos, utouch, umin⟩ := hA u hr
      exact congrArg some (le_antisymm (umin t hpos htouch) (hmin u upos utouch))
  · intro hno
    cases hr : select_root res.1 res.2 with
    | none => rfl
    | some u =>
      obtain ⟨upos, utouch, _⟩ := hA u hr
      exact absurd ⟨u, upos, utouch⟩ hno


/-! ## The rational line -/

theorem lineQ_isNorm : IsNorm lineQ := by
  intro a
  refine ⟨abs_nonneg _, ?_⟩
  simp [lineQ, sqr, dot]

theorem exactRoots_pair (a b c r0 r1 : K) (ha : a ≠ 0) (hb : b = -(a * (r0 + r1)))
    (hc : c = a * r0 * r1) : ExactRoots (some r0, some r1) a b c := by
  intro t
  have hfac : a * t * t + b * t + c = a * ((t - r0) * (t - r1)) := by
    subst hb hc; ring
  rw [hfac]
  constructor
  · rintro (h | h) <;> simp only [Option.some.injEq] at h <;> subst h <;> simp
  · intro h
    rcases mul_eq_zero.mp h with h | h
    · exact absurd h ha
    · rcases mul_eq_zero.mp h with h | h
      · exact Or.inl (congrArg some (sub_eq_zero.mp h).symm)
      · exact Or.inr (congrArg some (sub_eq_zero.mp h).symm)

/-- C3 (witness): on the rational line a unit sphere at 0 moving with velocity 1 towards a
unit sphere at rest at 5 has the contact quadratic `t² - 10 t + 21` with roots 3 and 7; the
predicted contact time is 3, the first of the two. -/
theorem collision_time_with_spec_witness :
    ExactRoots
      (lineQ.solve_quadric_equation (sqr ((bodyQ 0 1 1 1).v - (bodyQ 5 0 1 1).v))
        (dot ((bodyQ 0 1 1 1).p - (bodyQ 5 0 1 1).p) ((bodyQ 0 1 1 1).v - (bodyQ 5 0 1 1).v) * 2)
        (sqr ((bodyQ 0 1 1 1).p - (bodyQ 5 0 1 1).p) -
          ((bodyQ 0 1 1 1).r + (bodyQ 5 0 1 1).r) * ((bodyQ 0 1 1 1).r + (bodyQ 5 0 1 1).r)))
      (sqr ((bodyQ 0 1 1 1).v - (bodyQ 5 0 1 1).v))
      (dot ((bodyQ 0 1 1 1).p - (bodyQ 5 0 1 1).p) ((bodyQ 0 1 1 1).v - (bodyQ 5 0 1 1).v) * 2)
      (sqr ((bodyQ 0 1 1 1).p - (bodyQ 5 0 1 1).p) -
        ((bodyQ 0 1 1 1).r + (bodyQ 5 0 1 1).r) * ((bodyQ 0 1 1 1).r + (bodyQ 5 0 1 1).r)) ∧
    dot ((bodyQ 0 1 1 1).p - (bodyQ 5 0 1 1).p) ((bodyQ 0 1 1 1).v - (bodyQ 5 0 1 1).v) < 0 ∧
    (bodyQ 0 1 1 1).collision_time_with lineQ (bodyQ 5 0 1 1) = some 3 ∧
    (0 < (3 : ℚ) ∧ touching_at (bodyQ 0 1 1 1) (bodyQ 5 0 1 1) 3 ∧
      ∀ s, 0 < s → touching_at (bodyQ 0 1 1 1) (bodyQ 5 0 1 1) s → 3 ≤ s) := by
  have ha : sqr ((bodyQ 0 1 1 1).v - (bodyQ 5 0 1 1).v) = 1 := by decide!
  have hb : dot ((bodyQ 0 1 1 1).p - (bodyQ 5 0 1 1).p)
      ((bodyQ 0 1 1 1).v - (bodyQ 5 0 1 1).v) * 2 = -10 := by decide!
  have hc : sqr ((bodyQ 0 1 1 1).p - (bodyQ 5 0 1 1).p) -
      ((bodyQ 0 1 1 1).r + (bodyQ 5 0 1 1).r) * ((bodyQ 0 1 1 1).r + (bodyQ 5 0 1 1).r) = 21 := by
    decide!
  have hs : lineQ.solve_quadric_equation 1 (-10) 21 = (some 3, some 7) := by decide!
  have hex : ExactRoots
      (lineQ.solve_quadric_equation (sqr ((bodyQ 0 1 1 1).v - (bodyQ 5 0 1 1).v))
        (dot ((bodyQ 0 1 1 1).p - (bodyQ 5 0 1 1).p) ((bodyQ 0 1 1 1).v - (bodyQ 5 0 1 1).v) * 2)
        (sqr ((bodyQ 0 1 1 1).p - (bodyQ 5 0 1 1).p) -
          ((bodyQ 0 1 1 1).r + (bodyQ 5 0 1 1).r) * ((bodyQ 0 1 1 1).r + (bodyQ 5 0 1 1).r)))
      (sqr ((bodyQ 0 1 1 1).v - (bodyQ 5 0 1 1).v))
      (dot ((bodyQ 0 1 1 1).p - (bodyQ 5 0 1 1).p) ((bodyQ 0 1 1 1).v - (bodyQ 5 0 1 1).v) * 2)
      (sqr ((bodyQ 0 1 1 1).p - (bodyQ 5 0 1 1).p) -
        ((bodyQ 0 1 1 1).r + (bodyQ 5 0 1 1).r) * ((bodyQ 0 1 1 1).r + (bodyQ 5 0 1 1).r)) := by
    rw [ha, hb, hc, hs]
    exact exactRoots_pair 1 (-10) 21 3 7 (by norm_num) (by norm_num) (by norm_num)
  have hneg : dot ((bodyQ 0 1 1 1).p - (bodyQ 5 0 1 1).p)
      ((bodyQ 0 1 1 1).v - (bodyQ 5 0 1 1).v) < 0 := by decide!
  have hct : (bodyQ 0 1 1 1).collision_time_with lineQ (bodyQ 5 0 1 1) = some 3 := by decide!
  exact ⟨hex, hneg, hct,
    (((collision_time_with_spec lineQ (bodyQ 0 1 1 1) (bodyQ 5 0 1 1) hex).2 hneg).1 3).mp hct⟩

/-- C1 (failing input): a unit sphere at 0 with velocity 1 touches a unit sphere at rest
at 2 (squared distance 4 = (1 + 1)², no pending delta).  The contact quadratic `t² - 4 t` has
the roots 0 and 4; the root 0 is discarded, the predicted contact time is 4, and
`forward(1, 10, 0)` moves the first sphere to 1 in a single substep: the call returns with
the two spheres overlapping (squared distance 1 < 4). -/
theorem forward_touching_bodies_overlap :
    IsNorm lineQ ∧
    ExactRoots (lineQ.solve_quadric_equation 1 (-4) 0) 1 (-4) 0 ∧
    (bodyQ 0 1 1 1).intersects (bodyQ 2 0 1 1) = false ∧
    (bodyQ 2 0 1 1).intersects (bodyQ 0 1 1 1) = false ∧
    (bodyQ 0 1 1 1).dv = 0 ∧ (bodyQ 2 0 1 1).dv = 0 ∧
    (bodyQ 0 1 1 1).collision_time_with lineQ (bodyQ 2 0 1 1) = some 4 ∧
    (space.forward lineQ 1 [bodyQ 0 1 1 1, bodyQ 2 0 1 1] 1 10 0).map
        (fun ps => ps.map (fun q => (q.p 0, q.v 0, q.dv 0, q.r, q.m))) =
      some [(1, 1, 0, 1, 1), (2, 0, 0, 1, 1)] ∧
    (space.forward lineQ 1 [bodyQ 0 1 1 1, bodyQ 2 0 1 1] 1 10 0).map
        (fun ps => ps.map (fun a => ps.map (fun b => a.intersects b))) =
      some [[true, true], [true, true]] := by
  refine ⟨lineQ_isNorm, ?_, by decide!, by decide!, rfl, rfl, by decide!, by decide!, by decide!⟩
  have hs : lineQ.solve_quadric_equation 1 (-4) 0 = (some 0, some 4) := by decide!
  rw [hs]
  exact exactRoots_pair 1 (-4) 0 0 4 (by norm_num) (by norm_num) (by norm_num)


/-! ## The two-body updates `collide`, `gravity` and `apply` -/

theorem sqr_eq_zero_iff (a : Vec K D) : sqr a = 0 ↔ a = 0 := by
  simp only [sqr, dot]
  rw [Finset.sum_eq_zero_iff_of_nonneg (fun i _ => mul_self_nonneg _)]
  constructor
  · intro h
    funext i
    exact mul_self_eq_zero.mp (h i (Finset.mem_univ i))
  · intro h i _
    simp [h]

theorem mod_ne_zero (L : Lib K D) (hL : IsNorm L) (a : Vec K D) (ha : a ≠ 0) :
    L.mod a ≠ 0 := by
  intro h
  have h2 := (hL a).2
  rw [h, mul_zero] at h2
  exact ha ((sqr_eq_zero_iff a).mp h2.symm)

theorem dot_scale_normalize (L : Lib K D) (hL : IsNorm L) (d : Vec K D) (hd : d ≠ 0) (k : K) :
    dot (scale d k) (normalize L d) = k * L.mod d := by
  have hn := mod_ne_zero L hL d hd
  have h2 : sqr d = L.mod d * L.mod d := (hL d).2.symm
  have h1 : dot (scale d k) (normalize L d) = k / L.mod d * sqr d := by
    simp only [dot, scale, normalize, sqr, Finset.mul_sum]
    exact Finset.sum_congr rfl (fun i _ => by ring)
  rw [h1, h2]
  field_simp
  ring

theorem collide_fields (L : Lib K D) (x y : particle K D) :
    (x.collide L y).1.p = x.p ∧ (x.collide L y).1.v = x.v ∧ (x.collide L y).1.r = x.r ∧
    (x.collide L y).1.m = x.m ∧
    (x.collide L y).2.p = y.p ∧ (x.collide L y).2.v = y.v ∧ (x.collide L y).2.r = y.r ∧
    (x.collide L y).2.m = y.m := by
  simp only [particle.collide]
  split_ifs <;> simp

theorem gravity_fields (L : Lib K D) (x y : particle K D) (t G : K) :
    (x.gravity L y t G).1.p = x.p ∧ (x.gravity L y t G).1.v = x.v ∧
    (x.gravity L y t G).1.r = x.r ∧ (x.gravity L y t G).1.m = x.m ∧
    (x.gravity L y t G).2.p = y.p ∧ (x.gravity L y t G).2.v = y.v ∧
    (x.gravity L y t G).2.r = y.r ∧ (x.gravity L y t G).2.m = y.m := by
  simp only [particle.gravity]
  split_ifs <;> simp

/-- The velocity changes staged by `collide` carry no net momentum. -/
theorem collide_staged_momentum (L : Lib K D) (x y : particle K D) :
    scale (x.collide L y).1.dv x.m + scale (x.collide L y).2.dv y.m =
      scale x.dv x.m + scale y.dv y.m := by
  simp only [particle.collide]
  split_ifs with hsm
  · rfl
  · funext i
    simp only [scale, Pi.add_apply]
    field_simp
    ring

/-- The velocity changes staged by `gravity` carry no net momentum. -/
theorem gravity_staged_momentum (L : Lib K D) (x y : particle K D) (t G : K) :
    scale (x.gravity L y t G).1.dv x.m + scale (x.gravity L y t G).2.dv y.m =
      scale x.dv x.m + scale y.dv y.m := by
  simp only [particle.gravity]
  split_ifs with hk
  · rfl
  · funext i
    simp only [scale, Pi.add_apply]
    ring

/-- C6: for two bodies with distinct centers, equal non-zero masses, zero pending delta and
velocities colinear with the line through the centers, `collide` followed by `apply` on both
bodies exchanges the two velocities and changes nothing else. -/
theorem collide_equal_mass_head_on (L : Lib K D) (hL : IsNorm L) (self o : particle K D)
    (hp : self.p ≠ o.p) (hm : self.m = o.m) (hm0 : self.m ≠ 0)
    (hdv : self.dv = 0) (hdvo : o.dv = 0) (α β : K)
    (hv : self.v = scale (o.p - self.p) α) (hvo : o.v = scale (o.p - self.p) β) :
    (self.collide L o).1.apply = { self with v := o.v } ∧
    (self.collide L o).2.apply = { o with v := self.v } := by
  have hd : o.p - self.p ≠ 0 := fun h => hp (sub_eq_zero.mp h).symm
  have hn := mod_ne_zero L hL _ hd
  have hsm : ¬ (o.m + self.m = 0) := by
    rw [← hm]
    intro h
    exact hm0 (by linarith)
  have ha := dot_scale_normalize L hL _ hd α
  have hb := dot_scale_normalize L hL _ hd β
  rw [← hv] at ha
  rw [← hvo] at hb
  have hm2 : o.m + o.m ≠ 0 := by
    intro h
    exact hm0 (by rw [hm]; linarith)
  simp only [particle.collide, if_neg hsm, particle.apply, ha, hb, hdv, hdvo, zero_add]
  constructor
  · congr 1
    rw [hv, hvo, hm]
    funext i
    simp only [scale, normalize, Pi.add_apply, sub_self, zero_mul, sub_zero]
    field_simp
    ring
  · congr 1
    rw [hv, hvo, hm]
    funext i
    simp only [scale, normalize, Pi.add_apply, sub_self, zero_mul, add_zero]
    field_simp
    ring

/-- C6 (witness): on the rational line, bodies of mass 2 at 0 and 5 with velocities 3 and -1
exchange their velocities. -/
theorem collide_equal_mass_head_on_witness :
    (bodyQ 0 3 1 2).p ≠ (bodyQ 5 (-1) 1 2).p ∧ (bodyQ 0 3 1 2).m = (bodyQ 5 (-1) 1 2).m ∧
    (bodyQ 0 3 1 2).m ≠ 0 ∧ (bodyQ 0 3 1 2).dv = 0 ∧ (bodyQ 5 (-1) 1 2).dv = 0 ∧
    (bodyQ 0 3 1 2).v = scale ((bodyQ 5 (-1) 1 2).p - (bodyQ 0 3 1 2).p) (3 / 5) ∧
    (bodyQ 5 (-1) 1 2).v = scale ((bodyQ 5 (-1) 1 2).p - (bodyQ 0 3 1 2).p) (-1 / 5) ∧
    ((bodyQ 0 3 1 2).collide lineQ (bodyQ 5 (-1) 1 2)).1.apply =
      { bodyQ 0 3 1 2 with v := (bodyQ 5 (-1) 1 2).v } ∧
    ((bodyQ 0 3 1 2).collide lineQ (bodyQ 5 (-1) 1 2)).2.apply =
      { bodyQ 5 (-1) 1 2 with v := (bodyQ 0 3 1 2).v } :=
  have hp : (bodyQ 0 3 1 2).p ≠ (bodyQ 5 (-1) 1 2).p := by decide!
  have hm : (bodyQ 0 3 1 2).m = (bodyQ 5 (-1) 1 2).m := rfl
  have hm0 : (bodyQ 0 3 1 2).m ≠ 0 := by decide!
  have hv : (bodyQ 0 3 1 2).v = scale ((bodyQ 5 (-1) 1 2).p - (bodyQ 0 3 1 2).p) (3 / 5) := by
    decide!
  have hvo : (bodyQ 5 (-1) 1 2).v =
      scale ((bodyQ 5 (-1) 1 2).p - (bodyQ 0 3 1 2).p) (-1 / 5) := by decide!
  ⟨hp, hm, hm0, rfl, rfl, hv, hvo,
    collide_equal_mass_head_on lineQ lineQ_isNorm (bodyQ 0 3 1 2) (bodyQ 5 (-1) 1 2)
      hp hm hm0 rfl rfl (3 / 5) (-1 / 5) hv hvo⟩


/-! ## Two-body ensembles -/

theorem choose_two_collisions (L : Lib K D) (min_time mdps R : K) (a b : particle K D) :
    (choose L min_time mdps R [a, b]).collisions = [] ∨
      (choose L min_time mdps R [a, b]).collisions = [(0, [1])] := by
  simp only [choose, scan_outer, scan_inner, scan_step]
  cases a.collision_time_with L b with
  | none => exact Or.inl rfl
  | some t =>
    simp only
    split_ifs <;> simp [CollisionMap.push]

theorem resolve_nil (L : Lib K D) (ps : space K D) : resolve L [] ps = ps := rfl

theorem resolve_two (L : Lib K D) (x y : particle K D) :
    resolve L [(0, [1])] [x, y] = [(x.collide L y).1, (x.collide L y).2] := by
  simp [resolve, CollisionMap.pairs, update_pair]

theorem gravity_all_two (L : Lib K D) (t G : K) (x y : particle K D) :
    gravity_all L t G [x, y] = [(x.gravity L y t G).1, (x.gravity L y t G).2] := by
  simp [gravity_all, index_pairs, update_pair, List.range_succ]

/-- One substep of a two-body ensemble keeps the masses, leaves no pending delta behind and
conserves the total momentum. -/
theorem substep_two_momentum (L : Lib K D) (min_time mdps G R : K) (a b : particle K D)
    (ha : a.dv = 0) (hb : b.dv = 0) :
    ∃ a1 b1, substep L min_time mdps G R [a, b] = [a1, b1] ∧ a1.dv = 0 ∧ b1.dv = 0 ∧
      a1.m = a.m ∧ b1.m = b.m ∧
      scale a1.v a1.m + scale b1.v b1.m = scale a.v a.m + scale b.v b.m := by
  simp only [substep, List.map_cons, List.map_nil]
  generalize (choose L min_time mdps R [a, b]).forward_time = ft
  have key : ∀ x y : particle K D, x.v = a.v → y.v = b.v → x.m = a.m → y.m = b.m →
      scale x.dv x.m + scale y.dv y.m = 0 →
      ∃ a1 b1, List.map (fun q => q.apply) (gravity_all L ft G [x, y]) = [a1, b1] ∧
        a1.dv = 0 ∧ b1.dv = 0 ∧ a1.m = a.m ∧ b1.m = b.m ∧
        scale a1.v a1.m + scale b1.v b1.m = scale a.v a.m + scale b.v b.m := by
    intro x y hxv hyv hxm hym hzero
    rw [gravity_all_two]
    obtain ⟨-, g1v, -, g1m, -, g2v, -, g2m⟩ := gravity_fields L x y ft G
    have hg := gravity_staged_momentum L x y ft G
    refine ⟨_, _, rfl, rfl, rfl, by simp [particle.apply, g1m, hxm],
      by simp [particle.apply, g2m, hym], ?_⟩
    simp only [particle.apply, g1v, g2v, g1m, g2m, hxv, hyv, hxm, hym]
    rw [hxm, hym] at hg hzero
    rw [hzero] at hg
    funext i
    have hgi := congrFun hg i
    simp only [scale, Pi.add_apply, Pi.zero_apply] at hgi ⊢
    linarith
  rcases choose_two_collisions L min_time mdps R a b with hc | hc <;> rw [hc]
  · rw [resolve_nil]
    refine key _ _ rfl rfl rfl rfl ?_
    funext i
    simp [particle.forward, ha, hb, scale]
  · rw [resolve_two]
    obtain ⟨-, c1v, -, c1m, -, c2v, -, c2m⟩ := collide_fields L (a.forward ft) (b.forward ft)
    have hcm := collide_staged_momentum L (a.forward ft) (b.forward ft)
    refine key _ _ c1v c2v c1m c2m ?_
    rw [c1m, c2m]
    simp only [particle.forward, ha, hb] at hcm ⊢
    rw [hcm]
    funext i
    simp [scale]

theorem forward_loop_two_momentum (L : Lib K D) (min_time mdps G : K) (fuel : Nat) :
    ∀ (R : K) (a b : particle K D) (ps1 : space K D), a.dv = 0 → b.dv = 0 →
      forward_loop L min_time mdps G fuel R [a, b] = some ps1 →
      ∃ a1 b1, ps1 = [a1, b1] ∧ a1.dv = 0 ∧ b1.dv = 0 ∧ a1.m = a.m ∧ b1.m = b.m ∧
        scale a1.v a1.m + scale b1.v b1.m = scale a.v a.m + scale b.v b.m := by
  induction fuel with
  | zero =>
    intro R a b ps1 ha hb h
    simp only [forward_loop] at h
    split_ifs at h
    cases h
    exact ⟨a, b, rfl, ha, hb, rfl, rfl, rfl⟩
  | succ n ih =>
    intro R a b ps1 ha hb h
    simp only [forward_loop] at h
    split_ifs at h
    · obtain ⟨a1, b1, hs, ha1, hb1, hm1, hm2, hmom⟩ :=
        substep_two_momentum L min_time mdps G R a b ha hb
      rw [hs] at h
      obtain ⟨a2, b2, hps, ha2, hb2, hm3, hm4, hmom2⟩ := ih _ a1 b1 ps1 ha1 hb1 h
      exact ⟨a2, b2, hps, ha2, hb2, hm3.trans hm1, hm4.trans hm2, hmom2.trans hmom⟩
    · cases h
      exact ⟨a, b, rfl, ha, hb, rfl, rfl, rfl⟩

/-- C7: for every two-body ensemble with zero pending deltas, every `forward(time, mdps, G)`
call that returns leaves a two-body ensemble with the same masses and the same total momentum
`m1·v1 + m2·v2`.  (The velocity changes staged by `collide` are also equal and opposite in
momentum, so the conclusion does not need the call to be free of collisions.) -/
theorem forward_two_body_momentum (L : Lib K D) (fuel : Nat) (a b : particle K D)
    (time mdps G : K) (ps1 : space K D) (ha : a.dv = 0) (hb : b.dv = 0)
    (h : space.forward L fuel [a, b] time mdps G = some ps1) :
    ∃ a1 b1, ps1 = [a1, b1] ∧ a1.m = a.m ∧ b1.m = b.m ∧
      scale a1.v a1.m + scale b1.v b1.m = scale a.v a.m + scale b.v b.m := by
  obtain ⟨a1, b1, hps, -, -, hm1, hm2, hmom⟩ :=
    forward_loop_two_momentum L _ mdps G fuel time a b ps1 ha hb h
  exact ⟨a1, b1, hps, hm1, hm2, hmom⟩

/-- C7 (witness): two bodies at rest at 0 and 4 with masses 1 and 3; `forward(1, 1, 1)` is a
single substep in which gravity gives them the velocities 3/16 and -1/16. -/
theorem forward_two_body_momentum_witness :
    (bodyQ 0 0 1 1).dv = 0 ∧ (bodyQ 4 0 1 3).dv = 0 ∧
    space.forward lineQ 1 [bodyQ 0 0 1 1, bodyQ 4 0 1 3] 1 1 1 =
      some [bodyQ 0 (3 / 16) 1 1, bodyQ 4 (-1 / 16) 1 3] ∧
    ∃ a1 b1, [bodyQ 0 (3 / 16) 1 1, bodyQ 4 (-1 / 16) 1 3] = [a1, b1] ∧
      a1.m = (bodyQ 0 0 1 1).m ∧ b1.m = (bodyQ 4 0 1 3).m ∧
      scale a1.v a1.m + scale b1.v b1.m =
        scale (bodyQ 0 0 1 1).v (bodyQ 0 0 1 1).m + scale (bodyQ 4 0 1 3).v (bodyQ 4 0 1 3).m :=
  ⟨rfl, rfl, by decide!,
    forward_two_body_momentum lineQ 1 (bodyQ 0 0 1 1) (bodyQ 4 0 1 3) 1 1 1 _ rfl rfl
      (by decide!)⟩


/-! ## The choice of the substep length -/

theorem cap_scan_le_init (L : Lib K D) (mdps R : K) (ps : List (particle K D)) :
    ∀ ft, cap_scan L mdps R ps ft ≤ ft := by
  induction ps with
  | nil => intro ft; exact le_refl _
  | cons q rest ih =>
    intro ft
    simp only [cap_scan, step_time]
    split_ifs with h0
    · exact ih ft
    · simp only
      split_ifs with h1
      · exact le_trans (ih _) (le_of_lt h1.1)
      · exact ih ft

theorem cap_scan_le_cap (L : Lib K D) (hmod : ∀ a, 0 ≤ L.mod a) (mdps R : K)
    (hmdps : 0 < mdps) (ps : List (particle K D)) :
    ∀ ft, ∀ q ∈ ps, L.mod q.v ≠ 0 → cap_scan L mdps R ps ft ≤ mdps / L.mod q.v := by
  induction ps with
  | nil => intro ft q hq; cases hq
  | cons x rest ih =>
    intro ft q hq hq0
    have hrest : ∀ ft2, ft2 ≤ mdps / L.mod x.v → L.mod x.v ≠ 0 →
        q = x → cap_scan L mdps R rest ft2 ≤ mdps / L.mod q.v := by
      intro ft2 h2 _ hqx
      rw [hqx]
      exact le_trans (cap_scan_le_init L mdps R rest ft2) h2
    simp only [cap_scan, step_time]
    rcases List.mem_cons.mp hq with hqx | hqr
    · have hx0 : L.mod x.v ≠ 0 := hqx ▸ hq0
      have hpos : 0 < mdps / L.mod x.v :=
        div_pos hmdps (lt_of_le_of_ne (hmod _) (Ne.symm hx0))
      rw [if_neg hx0]
      simp only
      split_ifs with h1
      · exact hrest _ (le_refl _) hx0 hqx
      · have hnot : ¬ (mdps / L.mod x.v < ft) := fun hlt => h1 ⟨hlt, by linarith⟩
        exact hrest _ (not_lt.mp hnot) hx0 hqx
    · split_ifs with h0
      · exact ih ft q hqr hq0
      · simp only
        split_ifs with h1
        · exact ih _ q hqr hq0
        · exact ih ft q hqr hq0

theorem cap_scan_pos (L : Lib K D) (mdps R : K) (ps : List (particle K D)) :
    ∀ ft, 0 < ft → 0 < cap_scan L mdps R ps ft := by
  induction ps with
  | nil => intro ft h; exact h
  | cons x rest ih =>
    intro ft hft
    simp only [cap_scan, step_time]
    split_ifs with h0
    · exact ih ft hft
    · simp only
      split_ifs with h1
      · exact ih _ (by linarith [h1.2])
      · exact ih ft hft

theorem scan_step_forward_time (min_time R : K) (i j : Nat) (ct : Option K) (st : ScanState K) :
    (scan_step min_time R i j ct st).forward_time =
      match ct with
      | none => st.forward_time
      | some t => if t < st.forward_time ∧ R - t < R then t else st.forward_time := by
  cases ct with
  | none => rfl
  | some t =>
    simp only [scan_step]
    split_ifs <;> rfl

theorem scan_step_le (min_time R : K) (i j : Nat) (ct : Option K) (st : ScanState K) :
    (scan_step min_time R i j ct st).forward_time ≤ st.forward_time := by
  rw [scan_step_forward_time]
  cases ct with
  | none => exact le_refl _
  | some t =>
    simp only
    split_ifs with h
    · exact le_of_lt h.1
    · exact le_refl _

theorem scan_step_le_time (min_time R : K) (i j : Nat) (t : K) (ht : 0 < t)
    (st : ScanState K) : (scan_step min_time R i j (some t) st).forward_time ≤ t := by
  rw [scan_step_forward_time]
  simp only
  split_ifs with h
  · exact le_refl _
  · exact not_lt.mp (fun hlt => h ⟨hlt, by linarith⟩)

theorem scan_step_mem (min_time R : K) (i j : Nat) (ct : Option K) (st : ScanState K) :
    (scan_step min_time R i j ct st).forward_time = st.forward_time ∨
      ct = some (scan_step min_time R i j ct st).forward_time := by
  rw [scan_step_forward_time]
  cases ct with
  | none => exact Or.inl rfl
  | some t =>
    simp only
    split_ifs with h
    · exact Or.inr rfl
    · exact Or.inl rfl

theorem scan_inner_le (L : Lib K D) (min_time R : K) (a : particle K D) (i : Nat)
    (rest : List (particle K D)) :
    ∀ j st, (scan_inner L min_time R a i j rest st).forward_time ≤ st.forward_time := by
  induction rest with
  | nil => intro j st; exact le_refl _
  | cons b rest ih =>
    intro j st
    simp only [scan_inner]
    exact le_trans (ih _ _) (scan_step_le _ _ _ _ _ _)

theorem scan_inner_le_time (L : Lib K D) (min_time R : K) (a : particle K D) (i : Nat)
    (rest : List (particle K D)) :
    ∀ j st, ∀ b ∈ rest, ∀ t, a.collision_time_with L b = some t →
      (scan_inner L min_time R a i j rest st).forward_time ≤ t := by
  induction rest with
  | nil => intro j st b hb; cases hb
  | cons x rest ih =>
    intro j st b hb t ht
    simp only [scan_inner]
    rcases List.mem_cons.mp hb with hbx | hbr
    · subst hbx
      rw [ht]
      exact le_trans (scan_inner_le L min_time R a i rest _ _)
        (scan_step_le_time min_time R i j t (collision_time_with_pos L a b t ht) st)
    · exact ih _ _ b hbr t ht

theorem scan_inner_mem (L : Lib K D) (min_time R : K) (a : particle K D) (i : Nat)
    (rest : List (particle K D)) :
    ∀ j st, (scan_inner L min_time R a i j rest st).forward_time = st.forward_time ∨
      ∃ b ∈ rest, a.collision_time_with L b =
        some (scan_inner L min_time R a i j rest st).forward_time := by
  induction rest with
  | nil => intro j st; exact Or.inl rfl
  | cons x rest ih =>
    intro j st
    simp only [scan_inner]
    rcases ih (j + 1) (scan_step min_time R i j (a.collision_time_with L x) st) with h | ⟨b, hb, h⟩
    · rcases scan_step_mem min_time R i j (a.collision_time_with L x) st with h2 | h2
      · exact Or.inl (h.trans h2)
      · exact Or.inr ⟨x, List.mem_cons_self _ _, by rw [h]; exact h2⟩
    · exact Or.inr ⟨b, List.mem_cons_of_mem _ hb, h⟩

theorem scan_outer_le (L : Lib K D) (min_time R : K) (ps : List (particle K D)) :
    ∀ i st, (scan_outer L min_time R i ps st).forward_time ≤ st.forward_time := by
  induction ps with
  | nil => intro i st; exact le_refl _
  | cons a rest ih =>
    intro i st
    simp only [scan_outer]
    exact le_trans (ih _ _) (scan_inner_le L min_time R a i rest _ _)

theorem scan_outer_le_time (L : Lib K D) (min_time R : K) (ps : List (particle K D)) :
    ∀ (i : Nat) (st : ScanState K) (m n : Nat) (a b : particle K D) (t : K), m < n →
      ps[m]? = some a → ps[n]? = some b → a.collision_time_with L b = some t →
      (scan_outer L min_time R i ps st).forward_time ≤ t := by
  induction ps with
  | nil => intro i st m n a b t _ hm; simp at hm
  | cons x rest ih =>
    intro i st m n a b t hmn hm hn ht
    simp only [scan_outer]
    obtain ⟨n1, rfl⟩ : ∃ n1, n = n1 + 1 := ⟨n - 1, by omega⟩
    rw [List.getElem?_cons_succ] at hn
    cases m with
    | zero =>
      rw [List.getElem?_cons_zero] at hm
      simp only [Option.some.injEq] at hm
      subst hm
      exact le_trans (scan_outer_le L min_time R rest _ _)
        (scan_inner_le_time L min_time R x i rest _ st b (List.getElem?_mem hn) t ht)
    | succ m1 =>
      rw [List.getElem?_cons_succ] at hm
      exact ih _ _ m1 n1 a b t (by omega) hm hn ht

theorem scan_outer_mem (L : Lib K D) (min_time R : K) (ps : List (particle K D)) :
    ∀ i st, (scan_outer L min_time R i ps st).forward_time = st.forward_time ∨
      ∃ (m n : Nat) (a b : particle K D), m < n ∧ ps[m]? = some a ∧ ps[n]? = some b ∧
        a.collision_time_with L b = some (scan_outer L min_time R i ps st).forward_time := by
  induction ps with
  | nil => intro i st; exact Or.inl rfl
  | cons x rest ih =>
    intro i st
    simp only [scan_outer]
    rcases ih (i + 1) (scan_inner L min_time R x i (i + 1) rest st) with h | ⟨m, n, a, b, hmn, hm, hn, h⟩
    · rcases scan_inner_mem L min_time R x i rest (i + 1) st with h2 | ⟨b, hb, h2⟩
      · exact Or.inl (h.trans h2)
      · obtain ⟨n, hn⟩ := List.getElem?_of_mem hb
        exact Or.inr ⟨0, n + 1, x, b, by omega, by simp, by simpa using hn, by rw [h]; exact h2⟩
    · exact Or.inr ⟨m + 1, n + 1, a, b, by omega, by simpa using hm, by simpa using hn, h⟩

/-! ## Fields that the staging phases leave alone -/

theorem set_same {α : Type} (l : List α) :
    ∀ (i : Nat) (a : α), l[i]? = some a → l.set i a = l := by
  induction l with
  | nil => intro i a h; simp at h
  | cons x rest ih =>
    intro i a h
    cases i with
    | zero =>
      simp only [List.getElem?_cons_zero, Option.some.injEq] at h
      simp [h]
    | succ n =>
      simp only [List.getElem?_cons_succ] at h
      simp [ih n a h]

theorem update_pair_map {β : Type} (f : particle K D → particle K D → particle K D × particle K D)
    (g : particle K D → β) (hf : ∀ a b, g (f a b).1 = g a ∧ g (f a b).2 = g b)
    (i j : Nat) (ps : space K D) : (update_pair f i j ps).map g = ps.map g := by
  unfold update_pair
  split
  · rename_i a b ha hb
    rw [List.map_set, List.map_set, (hf a b).1, (hf a b).2]
    have h1 : (List.map g ps).set i (g a) = List.map g ps :=
      set_same _ i (g a) (by simp [ha])
    rw [h1]
    exact set_same _ j (g b) (by simp [hb])
  · rfl

theorem foldl_update_pair_map {β : Type}
    (f : particle K D → particle K D → particle K D × particle K D)
    (g : particle K D → β) (hf : ∀ a b, g (f a b).1 = g a ∧ g (f a b).2 = g b)
    (l : List (Nat × Nat)) :
    ∀ ps : space K D,
      (l.foldl (fun acc ij => update_pair f ij.1 ij.2 acc) ps).map g = ps.map g := by
  induction l with
  | nil => intro ps; rfl
  | cons ij rest ih =>
    intro ps
    simp only [List.foldl_cons]
    rw [ih, update_pair_map f g hf]

theorem resolve_map {β : Type} (L : Lib K D) (g : particle K D → β)
    (hg : ∀ a b : particle K D, g (a.collide L b).1 = g a ∧ g (a.collide L b).2 = g b)
    (c : CollisionMap) (ps : space K D) : (resolve L c ps).map g = ps.map g :=
  foldl_update_pair_map _ g hg _ ps

theorem gravity_all_map {β : Type} (L : Lib K D) (t G : K) (g : particle K D → β)
    (hg : ∀ a b : particle K D, g (a.gravity L b t G).1 = g a ∧ g (a.gravity L b t G).2 = g b)
    (ps : space K D) : (gravity_all L t G ps).map g = ps.map g :=
  foldl_update_pair_map _ g hg _ ps

/-- A substep moves every body by its pre-substep velocity times the chosen substep
length; radii and masses stay. -/
theorem substep_positions (L : Lib K D) (min_time mdps G R : K) (ps : space K D) :
    (substep L min_time mdps G R ps).map (fun q => (q.p, q.r, q.m)) =
      ps.map (fun q =>
        (q.p + scale q.v (choose L min_time mdps R ps).forward_time, q.r, q.m)) := by
  simp only [substep, List.map_map]
  have h1 : ((fun q : particle K D => (q.p, q.r, q.m)) ∘ fun q => q.apply) =
      fun q : particle K D => (q.p, q.r, q.m) := rfl
  rw [h1, gravity_all_map L _ G (fun q : particle K D => (q.p, q.r, q.m))
      (fun a b => by
        obtain ⟨h1, -, h3, h4, h5, -, h7, h8⟩ := gravity_fields L a b
          (choose L min_time mdps R ps).forward_time G
        simp [h1, h3, h4, h5, h7, h8]),
    resolve_map L (fun q : particle K D => (q.p, q.r, q.m))
      (fun a b => by
        obtain ⟨h1, -, h3, h4, h5, -, h7, h8⟩ := collide_fields L a b
        simp [h1, h3, h4, h5, h7, h8]),
    List.map_map]
  rfl


/-! ## Earliest-event selection and the displacement bound -/

theorem mod_eq_zero_iff (L : Lib K D) (hL : IsNorm L) (a : Vec K D) : L.mod a = 0 ↔ a = 0 := by
  constructor
  · intro h
    by_contra ha
    exact mod_ne_zero L hL a ha h
  · intro h
    have h2 := (hL a).2
    rw [h, (sqr_eq_zero_iff (0 : Vec K D)).mpr rfl] at h2
    rw [h]
    exact mul_self_eq_zero.mp h2

theorem mod_scale (L : Lib K D) (hL : IsNorm L) (a : Vec K D) (k : K) (hk : 0 ≤ k) :
    L.mod (scale a k) = L.mod a * k := by
  have h1 : sqr (scale a k) = k * k * sqr a := by
    simp only [sqr, dot, scale, Finset.mul_sum]
    exact Finset.sum_congr rfl (fun i _ => by ring)
  have h2 : L.mod (scale a k) * L.mod (scale a k) = (L.mod a * k) * (L.mod a * k) := by
    rw [(hL _).2, h1, ← (hL a).2]; ring
  rcases mul_self_eq_mul_self_iff.mp h2 with h | h
  · exact h
  · have h3 := (hL (scale a k)).1
    have h4 : 0 ≤ L.mod a * k := mul_nonneg (hL a).1 hk
    have h5 : L.mod a * k = 0 := by linarith
    rw [h, h5, neg_zero]

theorem choose_pos (L : Lib K D) (min_time mdps R : K) (ps : space K D) (hR : 0 < R) :
    0 < (choose L min_time mdps R ps).forward_time := by
  have h0 : 0 < cap_scan L mdps R ps R := cap_scan_pos L mdps R ps R hR
  rcases scan_outer_mem L min_time R ps 0
      { forward_time := cap_scan L mdps R ps R, collisions := [] } with h | ⟨m, n, a, b, -, -, -, h⟩
  · simp only [choose]
    rw [h]
    exact h0
  · exact collision_time_with_pos L a b _ h


/-! ## The scans with the subtraction of `T` as a parameter -/

theorem cap_scan_with_exact (L : Lib K D) (mdps R : K) (ps : List (particle K D)) :
    ∀ ft, cap_scan_with (fun a b => a - b) L mdps R ps ft = cap_scan L mdps R ps ft := by
  induction ps with
  | nil => intro ft; rfl
  | cons q rest ih =>
    intro ft
    simp only [cap_scan_with, cap_scan, step_time]
    split_ifs with h0
    · exact ih ft
    · simp only
      split_ifs with h1
      · exact ih _
      · exact ih ft

theorem scan_step_with_exact (min_time R : K) (i j : Nat) (ct : Option K) (st : ScanState K) :
    scan_step_with (fun a b => a - b) min_time R i j ct st = scan_step min_time R i j ct st := by
  cases ct <;> rfl

theorem scan_inner_with_exact (L : Lib K D) (min_time R : K) (a : particle K D) (i : Nat)
    (rest : List (particle K D)) :
    ∀ j st, scan_inner_with (fun a b => a - b) L min_time R a i j rest st =
      scan_inner L min_time R a i j rest st := by
  induction rest with
  | nil => intro j st; rfl
  | cons b rest ih =>
    intro j st
    simp only [scan_inner_with, scan_inner, scan_step_with_exact]
    exact ih _ _

theorem scan_outer_with_exact (L : Lib K D) (min_time R : K) (ps : List (particle K D)) :
    ∀ i st, scan_outer_with (fun a b => a - b) L min_time R i ps st =
      scan_outer L min_time R i ps st := by
  induction ps with
  | nil => intro i st; rfl
  | cons a rest ih =>
    intro i st
    simp only [scan_outer_with, scan_outer, scan_inner_with_exact]
    exact ih _ _

/-- With the exact subtraction the parametrised scans choose what `choose` chooses. -/
theorem choose_with_exact (L : Lib K D) (min_time mdps R : K) (ps : space K D) :
    choose_with (fun a b => a - b) L min_time mdps R ps = choose L min_time mdps R ps := by
  simp only [choose_with, choose, cap_scan_with_exact, scan_outer_with_exact]

theorem substep_with_exact (L : Lib K D) (min_time mdps G R : K) (ps : space K D) :
    substep_with (fun a b => a - b) L min_time mdps G R ps = substep L min_time mdps G R ps := by
  simp only [substep_with, substep, choose_with_exact]

/-- With the exact subtraction the parametrised loop is the loop `forward_loop`. -/
theorem forward_loop_with_exact (L : Lib K D) (min_time mdps G : K) :
    ∀ (fuel : Nat) (R : K) (ps : space K D),
      forward_loop_with (fun a b => a - b) L min_time mdps G fuel R ps =
        forward_loop L min_time mdps G fuel R ps := by
  intro fuel
  induction fuel with
  | zero => intro R ps; rfl
  | succ n ih =>
    intro R ps
    simp only [forward_loop_with, forward_loop, choose_with_exact, substep_with_exact, ih]

theorem cap_scan_with_le_init (sub : K → K → K) (L : Lib K D) (mdps R : K)
    (ps : List (particle K D)) : ∀ ft, cap_scan_with sub L mdps R ps ft ≤ ft := by
  induction ps with
  | nil => intro ft; exact le_refl _
  | cons q rest ih =>
    intro ft
    simp only [cap_scan_with, step_time]
    split_ifs with h0
    · exact ih ft
    · simp only
      split_ifs with h1
      · exact le_trans (ih _) (le_of_lt h1.1)
      · exact ih ft

theorem cap_scan_with_le_passing (sub : K → K → K) (L : Lib K D) (mdps R : K)
    (ps : List (particle K D)) :
    ∀ ft, ∀ q ∈ ps, L.mod q.v ≠ 0 → sub R (mdps / L.mod q.v) < R →
      cap_scan_with sub L mdps R ps ft ≤ mdps / L.mod q.v := by
  induction ps with
  | nil => intro ft q hq; cases hq
  | cons x rest ih =>
    intro ft q hq hq0 hg
    simp only [cap_scan_with, step_time]
    rcases List.mem_cons.mp hq with hqx | hqr
    · subst hqx
      rw [if_neg hq0]
      simp only
      split_ifs with h1
      · exact cap_scan_with_le_init sub L mdps R rest _
      · have hnot : ¬ (mdps / L.mod q.v < ft) := fun hlt => h1 ⟨hlt, hg⟩
        exact le_trans (cap_scan_with_le_init sub L mdps R rest ft) (not_lt.mp hnot)
    · split_ifs with h0
      · exact ih ft q hqr hq0 hg
      · simp only
        split_ifs with h1
        · exact ih _ q hqr hq0 hg
        · exact ih ft q hqr hq0 hg

theorem cap_scan_with_mem (sub : K → K → K) (L : Lib K D) (mdps R : K)
    (ps : List (particle K D)) :
    ∀ ft, cap_scan_with sub L mdps R ps ft = ft ∨
      ∃ q ∈ ps, L.mod q.v ≠ 0 ∧ sub R (mdps / L.mod q.v) < R ∧
        cap_scan_with sub L mdps R ps ft = mdps / L.mod q.v := by
  induction ps with
  | nil => intro ft; exact Or.inl rfl
  | cons x rest ih =>
    intro ft
    have lift : ∀ ft2, (cap_scan_with sub L mdps R rest ft2 = ft2 ∨
        ∃ q ∈ rest, L.mod q.v ≠ 0 ∧ sub R (mdps / L.mod q.v) < R ∧
          cap_scan_with sub L mdps R rest ft2 = mdps / L.mod q.v) →
        (cap_scan_with sub L mdps R rest ft2 = ft2 ∨
          ∃ q ∈ x :: rest, L.mod q.v ≠ 0 ∧ sub R (mdps / L.mod q.v) < R ∧
            cap_scan_with sub L mdps R rest ft2 = mdps / L.mod q.v) := by
      rintro ft2 (h | ⟨q, hq, h⟩)
      · exact Or.inl h
      · exact Or.inr ⟨q, List.mem_cons_of_mem _ hq, h⟩
    simp only [cap_scan_with, step_time]
    split_ifs with h0
    · exact lift ft (ih ft)
    · simp only
      split_ifs with h1
      · rcases lift _ (ih (mdps / L.mod x.v)) with h | h
        · exact Or.inr ⟨x, List.mem_cons_self _ _, h0, h1.2, h⟩
        · exact Or.inr h
      · exact lift ft (ih ft)

theorem scan_step_with_forward_time (sub : K → K → K) (min_time R : K) (i j : Nat)
    (ct : Option K) (st : ScanState K) :
    (scan_step_with sub min_time R i j ct st).forward_time =
      match ct with
      | none => st.forward_time
      | some t => if t < st.forward_time ∧ sub R t < R then t else st.forward_time := by
  cases ct with
  | none => rfl
  | some t =>
    simp only [scan_step_with]
    split_ifs <;> rfl

theorem scan_step_with_le (sub : K → K → K) (min_time R : K) (i j : Nat) (ct : Option K)
    (st : ScanState K) :
    (scan_step_with sub min_time R i j ct st).forward_time ≤ st.forward_time := by
  rw [scan_step_with_forward_time]
  cases ct with
  | none => exact le_refl _
  | some t =>
    simp only
    split_ifs with h
    · exact le_of_lt h.1
    · exact le_refl _

theorem scan_step_with_le_passing (sub : K → K → K) (min_time R : K) (i j : Nat) (t : K)
    (hg : sub R t < R) (st : ScanState K) :
    (scan_step_with sub min_time R i j (some t) st).forward_time ≤ t := by
  rw [scan_step_with_forward_time]
  simp only
  split_ifs with h
  · exact le_refl _
  · exact not_lt.mp (fun hlt => h ⟨hlt, hg⟩)

theorem scan_step_with_mem (sub : K → K → K) (min_time R : K) (i j : Nat) (ct : Option K)
    (st : ScanState K) :
    (scan_step_with sub min_time R i j ct st).forward_time = st.forward_time ∨
      (ct = some (scan_step_with sub min_time R i j ct st).forward_time ∧
        sub R (scan_step_with sub min_time R i j ct st).forward_time < R) := by
  rw [scan_step_with_forward_time]
  cases ct with
  | none => exact Or.inl rfl
  | some t =>
    simp only
    split_ifs with h
    · exact Or.inr ⟨rfl, h.2⟩
    · exact Or.inl rfl

theorem scan_inner_with_le (sub : K → K → K) (L : Lib K D) (min_time R : K) (a : particle K D)
    (i : Nat) (rest : List (particle K D)) :
    ∀ j st, (scan_inner_with sub L min_time R a i j rest st).forward_time ≤ st.forward_time := by
  induction rest with
  | nil => intro j st; exact le_refl _
  | cons b rest ih =>
    intro j st
    simp only [scan_inner_with]
    exact le_trans (ih _ _) (scan_step_with_le _ _ _ _ _ _ _)

theorem scan_inner_with_le_passing (sub : K → K → K) (L : Lib K D) (min_time R : K)
    (a : particle K D) (i : Nat) (rest : List (particle K D)) :
    ∀ j st, ∀ b ∈ rest, ∀ t, a.collision_time_with L b = some t → sub R t < R →
      (scan_inner_with sub L min_time R a i j rest st).forward_time ≤ t := by
  induction rest with
  | nil => intro j st b hb; cases hb
  | cons x rest ih =>
    intro j st b hb t ht hg
    simp only [scan_inner_with]
    rcases List.mem_cons.mp hb with hbx | hbr
    · subst hbx
      rw [ht]
      exact le_trans (scan_inner_with_le sub L min_time R a i rest _ _)
        (scan_step_with_le_passing sub min_time R i j t hg st)
    · exact ih _ _ b hbr t ht hg

theorem scan_inner_with_mem (sub : K → K → K) (L : Lib K D) (min_time R : K)
    (a : particle K D) (i : Nat) (rest : List (particle K D)) :
    ∀ j st, (scan_inner_with sub L min_time R a i j rest st).forward_time = st.forward_time ∨
      ∃ b ∈ rest, a.collision_time_with L b =
          some (scan_inner_with sub L min_time R a i j rest st).forward_time ∧
        sub R (scan_inner_with sub L min_time R a i j rest st).forward_time < R := by
  induction rest with
  | nil => intro j st; exact Or.inl rfl
  | cons x rest ih =>
    intro j st
    simp only [scan_inner_with]
    rcases ih (j + 1) (scan_step_with sub min_time R i j (a.collision_time_with L x) st) with
      h | ⟨b, hb, h⟩
    · rcases scan_step_with_mem sub min_time R i j (a.collision_time_with L x) st with h2 | h2
      · exact Or.inl (h.trans h2)
      · exact Or.inr ⟨x, List.mem_cons_self _ _, by rw [h]; exact h2⟩
    · exact Or.inr ⟨b, List.mem_cons_of_mem _ hb, h⟩

theorem scan_outer_with_le (sub : K → K → K) (L : Lib K D) (min_time R : K)
    (ps : List (particle K D)) :
    ∀ i st, (scan_outer_with sub L min_time R i ps st).forward_time ≤ st.forward_time := by
  induction ps with
  | nil => intro i st; exact le_refl _
  | cons a rest ih =>
    intro i st
    simp only [scan_outer_with]
    exact le_trans (ih _ _) (scan_inner_with_le sub L min_time R a i rest _ _)

theorem scan_outer_with_le_passing (sub : K → K → K) (L : Lib K D) (min_time R : K)
    (ps : List (particle K D)) :
    ∀ (i : Nat) (st : ScanState K) (m n : Nat) (a b : particle K D) (t : K), m < n →
      ps[m]? = some a → ps[n]? = some b → a.collision_time_with L b = some t → sub R t < R →
      (scan_outer_with sub L min_time R i ps st).forward_time ≤ t := by
  induction ps with
  | nil => intro i st m n a b t _ hm; simp at hm
  | cons x rest ih =>
    intro i st m n a b t hmn hm hn ht hg
    simp only [scan_outer_with]
    obtain ⟨n1, rfl⟩ : ∃ n1, n = n1 + 1 := ⟨n - 1, by omega⟩
    rw [List.getElem?_cons_succ] at hn
    cases m with
    | zero =>
      rw [List.getElem?_cons_zero] at hm
      simp only [Option.some.injEq] at hm
      subst hm
      exact le_trans (scan_outer_with_le sub L min_time R rest _ _)
        (scan_inner_with_le_passing sub L min_time R x i rest _ st b (List.getElem?_mem hn)
          t ht hg)
    | succ m1 =>
      rw [List.getElem?_cons_succ] at hm
      exact ih _ _ m1 n1 a b t (by omega) hm hn ht hg

theorem scan_outer_with_mem (sub : K → K → K) (L : Lib K D) (min_time R : K)
    (ps : List (particle K D)) :
    ∀ i st, (scan_outer_with sub L min_time R i ps st).forward_time = st.forward_time ∨
      ∃ (m n : Nat) (a b : particle K D), m < n ∧ ps[m]? = some a ∧ ps[n]? = some b ∧
        a.collision_time_with L b =
          some (scan_outer_with sub L min_time R i ps st).forward_time ∧
        sub R (scan_outer_with sub L min_time R i ps st).forward_time < R := by
  induction ps with
  | nil => intro i st; exact Or.inl rfl
  | cons x rest ih =>
    intro i st
    simp only [scan_outer_with]
    rcases ih (i + 1) (scan_inner_with sub L min_time R x i (i + 1) rest st) with
      h | ⟨m, n, a, b, hmn, hm, hn, h⟩
    · rcases scan_inner_with_mem sub L min_time R x i rest (i + 1) st with h2 | ⟨b, hb, h2⟩
      · exact Or.inl (h.trans h2)
      · obtain ⟨n, hn⟩ := List.getElem?_of_mem hb
        exact Or.inr ⟨0, n + 1, x, b, by omega, by simp, by simpa using hn, by rw [h]; exact h2⟩
    · exact Or.inr ⟨m + 1, n + 1, a, b, by omega, by simpa using hm, by simpa using hn, h⟩

/-- The substep length chosen with any subtraction is positive when the remaining time and
`mdps` are. -/
theorem choose_with_pos (sub : K → K → K) (L : Lib K D) (hmod : ∀ a, 0 ≤ L.mod a)
    (min_time mdps R : K) (ps : space K D) (hR : 0 < R) (hmdps : 0 < mdps) :
    0 < (choose_with sub L min_time mdps R ps).forward_time := by
  have h0 : 0 < cap_scan_with sub L mdps R ps R := by
    rcases cap_scan_with_mem sub L mdps R ps R with h | ⟨q, -, hq0, -, h⟩
    · rw [h]; exact hR
    · rw [h]; exact div_pos hmdps (lt_of_le_of_ne (hmod _) (Ne.symm hq0))
  rcases scan_outer_with_mem sub L min_time R ps 0
      { forward_time := cap_scan_with sub L mdps R ps R, collisions := [] } with
    h | ⟨m, n, a, b, -, -, -, h, -⟩
  · simp only [choose_with]
    rw [h]
    exact h0
  · exact collision_time_with_pos L a b _ h

/-- A substep with any subtraction moves every body by its pre-substep velocity times the
chosen substep length; radii and masses stay. -/
theorem substep_with_positions (sub : K → K → K) (L : Lib K D) (min_time mdps G R : K)
    (ps : space K D) :
    (substep_with sub L min_time mdps G R ps).map (fun q => (q.p, q.r, q.m)) =
      ps.map (fun q =>
        (q.p + scale q.v (choose_with sub L min_time mdps R ps).forward_time, q.r, q.m)) := by
  simp only [substep_with, List.map_map]
  have h1 : ((fun q : particle K D => (q.p, q.r, q.m)) ∘ fun q => q.apply) =
      fun q : particle K D => (q.p, q.r, q.m) := rfl
  rw [h1, gravity_all_map L _ G (fun q : particle K D => (q.p, q.r, q.m))
      (fun a b => by
        obtain ⟨h1, -, h3, h4, h5, -, h7, h8⟩ := gravity_fields L a b
          (choose_with sub L min_time mdps R ps).forward_time G
        simp [h1, h3, h4, h5, h7, h8]),
    resolve_map L (fun q : particle K D => (q.p, q.r, q.m))
      (fun a b => by
        obtain ⟨h1, -, h3, h4, h5, -, h7, h8⟩ := collide_fields L a b
        simp [h1, h3, h4, h5, h7, h8]),
    List.map_map]
  rfl

/-- Over the exact subtraction and for `mdps > 0` every candidate passes the precision
guard: the minimum over the passing candidates is the minimum over all candidates. -/
theorem is_earliest_passing_exact (L : Lib K D) (hL : IsNorm L) (mdps R : K) (ps : space K D)
    (f : K) (hmdps : 0 < mdps) :
    is_earliest_passing (fun a b => a - b) L mdps R ps f ↔ is_earliest_event L mdps R ps f := by
  have hcap : ∀ q : particle K D, q.v ≠ 0 → R - mdps / L.mod q.v < R := by
    intro q hq
    have h0 : L.mod q.v ≠ 0 := fun h => hq ((mod_eq_zero_iff L hL q.v).mp h)
    have hpos : 0 < mdps / L.mod q.v := div_pos hmdps (lt_of_le_of_ne (hL _).1 (Ne.symm h0))
    linarith
  have htime : ∀ (a b : particle K D) (t : K), a.collision_time_with L b = some t → R - t < R := by
    intro a b t ht
    have := collision_time_with_pos L a b t ht
    linarith
  constructor
  · rintro ⟨h1, h2, h3, h4⟩
    refine ⟨?_, h2, fun q hq hq0 => h3 q hq hq0 (hcap q hq0),
      fun i j a b t hij ha hb ht => h4 i j a b t hij ha hb ht (htime a b t ht)⟩
    rcases h1 with h | ⟨q, hq, hq0, -, h⟩ | ⟨i, j, a, b, hij, ha, hb, h, -⟩
    · exact Or.inl h
    · exact Or.inr (Or.inl ⟨q, hq, hq0, h⟩)
    · exact Or.inr (Or.inr ⟨i, j, a, b, hij, ha, hb, h⟩)
  · rintro ⟨h1, h2, h3, h4⟩
    refine ⟨?_, h2, fun q hq hq0 _ => h3 q hq hq0,
      fun i j a b t hij ha hb ht _ => h4 i j a b t hij ha hb ht⟩
    rcases h1 with h | ⟨q, hq, hq0, h⟩ | ⟨i, j, a, b, hij, ha, hb, h⟩
    · exact Or.inl h
    · exact Or.inr (Or.inl ⟨q, hq, hq0, hcap q hq0, h⟩)
    · exact Or.inr (Or.inr ⟨i, j, a, b, hij, ha, hb, h, htime a b f h⟩)

/-! ## Earliest-event selection and the displacement bound under the precision guard -/

/-- The rounding of `double` on sample values: 1/10 and 1/3 round to the well-known
significands, a tie goes to the even significand, a number of `double` is left as it is, and
`1 - 2^-70` rounds to 1. -/
theorem round53_samples :
    round53 (1 / 10) = 3602879701896397 / 36028797018963968 ∧
    round53 (1 / 3) = 6004799503160661 / 18014398509481984 ∧
    round53 9007199254740993 = 9007199254740992 ∧
    round53 9007199254740995 = 9007199254740996 ∧
    round53 (-(3 / 8)) = -(3 / 8) ∧
    round53 (1 / 1180591620717411303424) = 1 / 1180591620717411303424 ∧
    round53 (1 - 1 / 1180591620717411303424) = 1 :=
  ⟨by decide!, by decide!, by decide!, by decide!, by decide!, by decide!, by decide!⟩

/-- C4 (counterexample): one body with velocity 1 on the rational line, remaining time 1 and
`mdps = 2^-70`, the subtraction being that of `double`.  The cap `mdps / |v| = 2^-70` is
below the remaining time, but `1 - 2^-70` rounds to 1, so the guard of line 149 fails and the
cap is ignored: the substep length is 1, which is not the minimum of the candidates.  The
remaining time, the velocity and the cap are numbers of `double` and the quotient is exact;
with a single body nothing reads the tolerance `min_time`. -/
theorem precision_guard_drops_cap :
    (0 : ℚ) < 1 ∧ (0 : ℚ) < 1 / 1180591620717411303424 ∧
    (bodyQ 0 1 1 1).v ≠ 0 ∧
    (1 / 1180591620717411303424) / lineQ.mod (bodyQ 0 1 1 1).v = 1 / 1180591620717411303424 ∧
    sub64 1 (1 / 1180591620717411303424) = 1 ∧
    (choose_with sub64 lineQ (1 * (1 / 1000)) (1 / 1180591620717411303424) 1
      [bodyQ 0 1 1 1]).forward_time = 1 ∧
    ¬ is_earliest_event lineQ (1 / 1180591620717411303424) 1 [bodyQ 0 1 1 1]
      (choose_with sub64 lineQ (1 * (1 / 1000)) (1 / 1180591620717411303424) 1
        [bodyQ 0 1 1 1]).forward_time := by
  have hv : (bodyQ 0 1 1 1).v ≠ 0 := fun h => absurd (congrFun h 0) (by decide!)
  have hc : (1 / 1180591620717411303424) / lineQ.mod (bodyQ 0 1 1 1).v =
      1 / 1180591620717411303424 := by decide!
  have hf : (choose_with sub64 lineQ (1 * (1 / 1000)) (1 / 1180591620717411303424) 1
      [bodyQ 0 1 1 1]).forward_time = 1 := by decide!
  refine ⟨by norm_num, by norm_num, hv, hc, by decide!, hf, ?_⟩
  rw [hf]
  intro h
  have h2 := h.2.2.1 (bodyQ 0 1 1 1) (List.mem_cons_self _ _) hv
  rw [hc] at h2
  norm_num at h2

/-- C4 (amended): in a substep with remaining time `R > 0`, whatever the subtraction of `T`
computes, the substep length chosen by the two scans is the minimum of `R` and of those
candidates that pass the precision guard `R - s < R` (the caps `mdps / |v_i|` of the bodies
with non-zero velocity and the finite predicted contact times of the pairs `i < j`); a
candidate that fails the guard does not shorten the substep.  The chosen length is the one by
which every position is advanced and by which the remaining time is reduced. -/
theorem choose_earliest_passing (sub : K → K → K) (L : Lib K D) (hL : IsNorm L)
    (min_time mdps G R : K) (ps : space K D) (fuel : Nat) (hR : 0 < R) :
    is_earliest_passing sub L mdps R ps (choose_with sub L min_time mdps R ps).forward_time ∧
    (substep_with sub L min_time mdps G R ps).map (fun q => q.p) =
      ps.map (fun q => q.p + scale q.v (choose_with sub L min_time mdps R ps).forward_time) ∧
    forward_loop_with sub L min_time mdps G (fuel + 1) R ps =
      forward_loop_with sub L min_time mdps G fuel
        (sub R (choose_with sub L min_time mdps R ps).forward_time)
        (substep_with sub L min_time mdps G R ps) := by
  have hne : ∀ q : particle K D, q.v ≠ 0 ↔ L.mod q.v ≠ 0 :=
    fun q => not_congr (mod_eq_zero_iff L hL q.v).symm
  refine ⟨⟨?_, ?_, ?_, ?_⟩, ?_, ?_⟩
  · rcases scan_outer_with_mem sub L min_time R ps 0
        { forward_time := cap_scan_with sub L mdps R ps R, collisions := [] } with
      h | ⟨m, n, a, b, hmn, hm, hn, h, hg⟩
    · rcases cap_scan_with_mem sub L mdps R ps R with h2 | ⟨q, hq, hq0, hg, h2⟩
      · exact Or.inl (h.trans h2)
      · exact Or.inr (Or.inl ⟨q, hq, (hne q).mpr hq0, hg, h.trans h2⟩)
    · exact Or.inr (Or.inr ⟨m, n, a, b, hmn, hm, hn, h, hg⟩)
  · exact le_trans (scan_outer_with_le sub L min_time R ps 0 _)
      (cap_scan_with_le_init sub L mdps R ps R)
  · intro q hq hq0 hg
    exact le_trans (scan_outer_with_le sub L min_time R ps 0 _)
      (cap_scan_with_le_passing sub L mdps R ps R q hq ((hne q).mp hq0) hg)
  · intro i j a b t hij ha hb ht hg
    exact scan_outer_with_le_passing sub L min_time R ps 0 _ i j a b t hij ha hb ht hg
  · have h := congrArg (List.map Prod.fst) (substep_with_positions sub L min_time mdps G R ps)
    simpa [List.map_map, Function.comp_def] using h
  · simp [forward_loop_with, hR]

/-- C4 (witness): on the rational line a unit sphere at 0 with velocity 1 and a unit sphere
at rest at 5, with remaining time 10, `mdps = 2^-70` and the subtraction of `double`: the cap
`2^-70` fails the guard, the contact time 3 passes it, and the chosen substep length is 3. -/
theorem choose_earliest_passing_witness :
    IsNorm lineQ ∧ (0 : ℚ) < 10 ∧
    (choose_with sub64 lineQ (1 / 100) (1 / 1180591620717411303424) 10
      [bodyQ 0 1 1 1, bodyQ 5 0 1 1]).forward_time = 3 ∧
    is_earliest_passing sub64 lineQ (1 / 1180591620717411303424) 10
      [bodyQ 0 1 1 1, bodyQ 5 0 1 1] 3 :=
  have hf : (choose_with sub64 lineQ (1 / 100) (1 / 1180591620717411303424) 10
      [bodyQ 0 1 1 1, bodyQ 5 0 1 1]).forward_time = 3 := by decide!
  ⟨lineQ_isNorm, by norm_num, hf,
    hf ▸ (choose_earliest_passing sub64 lineQ lineQ_isNorm (1 / 100)
      (1 / 1180591620717411303424) 0 10 [bodyQ 0 1 1 1, bodyQ 5 0 1 1] 0 (by norm_num)).1⟩

/-- C5 (counterexample): one body at 0 with velocity 1 on the rational line and the call
`forward(1, 2^-70, 0)`, the subtraction being that of `double`.  The cap `2^-70` fails the
guard of line 149 because `1 - 2^-70` rounds to 1; the call returns after a single substep of
length 1, in which the body moves by 1, more than `mdps = 2^-70`. -/
theorem precision_guard_exceeds_mdps :
    (0 : ℚ) < 1 / 1180591620717411303424 ∧
    lineQ.mod (bodyQ 0 1 1 1).v = 1 ∧
    (choose_with sub64 lineQ (1 * (1 / 1000)) (1 / 1180591620717411303424) 1
      [bodyQ 0 1 1 1]).forward_time = 1 ∧
    space.forward_with sub64 lineQ 1 [bodyQ 0 1 1 1] 1 (1 / 1180591620717411303424) 0 =
      some [bodyQ 1 1 1 1] ∧
    ¬ (lineQ.mod (bodyQ 0 1 1 1).v *
        (choose_with sub64 lineQ (1 * (1 / 1000)) (1 / 1180591620717411303424) 1
          [bodyQ 0 1 1 1]).forward_time ≤ 1 / 1180591620717411303424) := by
  have hm : lineQ.mod (bodyQ 0 1 1 1).v = 1 := by decide!
  have hf : (choose_with sub64 lineQ (1 * (1 / 1000)) (1 / 1180591620717411303424) 1
      [bodyQ 0 1 1 1]).forward_time = 1 := by decide!
  refine ⟨by norm_num, hm, hf, by decide!, ?_⟩
  rw [hm, hf]
  norm_num

/-- C5 (amended): for `mdps > 0`, in a substep with remaining time `R > 0`, whatever the
subtraction of `T` computes, every body moves by a vector of magnitude `|v_i|·forward_time`,
and that is at most `mdps` for every body whose velocity is zero, whose cap `mdps / |v_i|`
passes the precision guard `R - cap < R`, or whose cap is not below `R`; a body with zero
velocity leaves the running substep length of the cap loop as it is. -/
theorem displacement_bound_passing (sub : K → K → K) (L : Lib K D) (hL : IsNorm L)
    (min_time mdps G R : K) (ps : space K D) (hR : 0 < R) (hmdps : 0 < mdps) :
    (∀ q ∈ ps,
      (L.mod q.v = 0 ∨ sub R (mdps / L.mod q.v) < R ∨ R ≤ mdps / L.mod q.v) →
      L.mod q.v * (choose_with sub L min_time mdps R ps).forward_time ≤ mdps) ∧
    (∀ (i : Nat) (q q1 : particle K D), ps[i]? = some q →
      (substep_with sub L min_time mdps G R ps)[i]? = some q1 →
      q1.p - q.p = scale q.v (choose_with sub L min_time mdps R ps).forward_time ∧
        L.mod (q1.p - q.p) =
          L.mod q.v * (choose_with sub L min_time mdps R ps).forward_time ∧
        ((L.mod q.v = 0 ∨ sub R (mdps / L.mod q.v) < R ∨ R ≤ mdps / L.mod q.v) →
          L.mod (q1.p - q.p) ≤ mdps)) ∧
    (∀ (q : particle K D) (rest : List (particle K D)) (ft : K), q.v = 0 →
      cap_scan_with sub L mdps R (q :: rest) ft = cap_scan_with sub L mdps R rest ft) := by
  have hpos := choose_with_pos sub L (fun a => (hL a).1) min_time mdps R ps hR hmdps
  have hcap : (choose_with sub L min_time mdps R ps).forward_time ≤
      cap_scan_with sub L mdps R ps R :=
    scan_outer_with_le sub L min_time R ps 0
      { forward_time := cap_scan_with sub L mdps R ps R, collisions := [] }
  have hfst : ∀ q ∈ ps,
      (L.mod q.v = 0 ∨ sub R (mdps / L.mod q.v) < R ∨ R ≤ mdps / L.mod q.v) →
      L.mod q.v * (choose_with sub L min_time mdps R ps).forward_time ≤ mdps := by
    intro q hq hc
    by_cases h0 : L.mod q.v = 0
    · rw [h0, zero_mul]
      exact le_of_lt hmdps
    · have hlt : 0 < L.mod q.v := lt_of_le_of_ne (hL _).1 (Ne.symm h0)
      have hle : (choose_with sub L min_time mdps R ps).forward_time ≤ mdps / L.mod q.v := by
        rcases hc with h | h | h
        · exact absurd h h0
        · exact le_trans hcap (cap_scan_with_le_passing sub L mdps R ps R q hq h0 h)
        · exact le_trans hcap (le_trans (cap_scan_with_le_init sub L mdps R ps R) h)
      have h2 := (le_div_iff₀ hlt).mp hle
      linarith
  refine ⟨hfst, ?_, ?_⟩
  · intro i q q1 hq hq1
    have h := congrArg (List.map Prod.fst) (substep_with_positions sub L min_time mdps G R ps)
    simp only [List.map_map, Function.comp_def] at h
    have h2 := congrArg (fun l => l[i]?) h
    simp only [List.getElem?_map, hq, hq1, Option.map_some', Option.some.injEq] at h2
    have h3 : q1.p - q.p = scale q.v (choose_with sub L min_time mdps R ps).forward_time := by
      rw [h2]; simp
    refine ⟨h3, ?_, ?_⟩
    · rw [h3]
      exact mod_scale L hL _ _ (le_of_lt hpos)
    · intro hc
      rw [h3, mod_scale L hL _ _ (le_of_lt hpos)]
      exact hfst q (List.getElem?_mem hq) hc
  · intro q rest ft hq
    have h0 : L.mod q.v = 0 := (mod_eq_zero_iff L hL q.v).mpr hq
    simp [cap_scan_with, step_time, h0]

/-- C5 (witness): on the rational line a sphere with velocity 4 far from a sphere at rest,
with remaining time 10, `mdps = 2` and the subtraction of `double`: the cap 1/2 passes the
guard, the substep length is 1/2 and the moving sphere covers exactly `mdps`. -/
theorem displacement_bound_passing_witness :
    IsNorm lineQ ∧ (0 : ℚ) < 10 ∧ (0 : ℚ) < 2 ∧
    sub64 10 (2 / lineQ.mod (bodyQ 0 4 1 1).v) < 10 ∧
    (choose_with sub64 lineQ (1 / 100) 2 10 [bodyQ 0 4 1 1, bodyQ 50 0 1 1]).forward_time =
      1 / 2 ∧
    lineQ.mod (bodyQ 0 4 1 1).v *
      (choose_with sub64 lineQ (1 / 100) 2 10 [bodyQ 0 4 1 1, bodyQ 50 0 1 1]).forward_time ≤ 2 :=
  have hg : sub64 10 (2 / lineQ.mod (bodyQ 0 4 1 1).v) < 10 := by decide!
  ⟨lineQ_isNorm, by norm_num, by norm_num, hg, by decide!,
    (displacement_bound_passing sub64 lineQ lineQ_isNorm (1 / 100) 2 0 10
      [bodyQ 0 4 1 1, bodyQ 50 0 1 1] (by norm_num) (by norm_num)).1 (bodyQ 0 4 1 1)
      (List.mem_cons_self _ _) (Or.inr (Or.inl hg))⟩


/-! ## Simultaneous collisions -/

theorem gravity_zero_G (L : Lib K D) (x y : particle K D) (t : K) :
    x.gravity L y t 0 = (x, y) := by
  simp only [particle.gravity]
  split_ifs
  · rfl
  · have hz : ∀ d : Vec K D, scale d 0 = 0 := by
      intro d
      funext i
      simp [scale]
    simp [hz]

theorem update_pair_id (f : particle K D → particle K D → particle K D × particle K D)
    (hf : ∀ a b, f a b = (a, b)) (i j : Nat) (ps : space K D) : update_pair f i j ps = ps := by
  unfold update_pair
  split
  · rename_i a b ha hb
    rw [hf a b]
    simp only
    rw [set_same ps i a ha, set_same ps j b hb]
  · rfl

theorem gravity_all_zero_G (L : Lib K D) (t : K) (ps : space K D) :
    gravity_all L t 0 ps = ps := by
  unfold gravity_all
  generalize index_pairs ps.length = l
  induction l generalizing ps with
  | nil => rfl
  | cons ij rest ih =>
    simp only [List.foldl_cons]
    rw [update_pair_id _ (fun a b => gravity_zero_G L a b t)]
    exact ih ps

theorem dot_add_scale_left (dp dv : Vec K D) (f : K) :
    dot (dp + scale dv f) dv = dot dp dv + f * sqr dv := by
  simp only [sqr, dot, scale, Pi.add_apply, Finset.mul_sum, ← Finset.sum_add_distrib]
  exact Finset.sum_congr rfl (fun i _ => by ring)

theorem collision_time_with_separating (L : Lib K D) (a b : particle K D)
    (h : 0 ≤ dot (a.p - b.p) (a.v - b.v)) : a.collision_time_with L b = none := by
  simp [particle.collision_time_with, h]

theorem choose_two_free (L : Lib K D) (min_time mdps R s : K) (a b : particle K D)
    (hs : s ≠ 0) (hcap : 0 < mdps / s) (hva : L.mod a.v = s) (hvb : L.mod b.v = s)
    (hct : a.collision_time_with L b = none) :
    (choose L min_time mdps R [a, b]).forward_time = (if mdps / s < R then mdps / s else R) ∧
    (choose L min_time mdps R [a, b]).collisions = [] := by
  have hguard : R - mdps / s < R := by linarith
  by_cases h : mdps / s < R
  · simp [choose, cap_scan, step_time, scan_outer, scan_inner, scan_step, hva, hvb, hct, hs, h,
      hguard]
  · simp [choose, cap_scan, step_time, scan_outer, scan_inner, scan_step, hva, hvb, hct, hs, h]

theorem substep_two_free (L : Lib K D) (min_time mdps R s : K) (a b : particle K D)
    (hs : s ≠ 0) (hcap : 0 < mdps / s) (hva : L.mod a.v = s) (hvb : L.mod b.v = s)
    (hct : a.collision_time_with L b = none) (hda : a.dv = 0) (hdb : b.dv = 0) :
    substep L min_time mdps 0 R [a, b] =
      [{ a with p := a.p + scale a.v (if mdps / s < R then mdps / s else R) },
       { b with p := b.p + scale b.v (if mdps / s < R then mdps / s else R) }] := by
  obtain ⟨hf, hc⟩ := choose_two_free L min_time mdps R s a b hs hcap hva hvb hct
  simp only [substep, hf, hc, resolve_nil, gravity_all_zero_G, List.map_cons, List.map_nil,
    particle.apply, particle.forward, hda, hdb, add_zero]

/-- With `G = 0`, two bodies of equal speed `s` that are not approaching fly freely: the loop
returns within `n` substeps when the remaining time is at most `n` caps, and each body has
moved by its velocity times the remaining time. -/
theorem free_flight (L : Lib K D) (min_time mdps s : K) (hs : s ≠ 0) (hcap : 0 < mdps / s) :
    ∀ (n : Nat) (R : K) (a b : particle K D), 0 ≤ R → R ≤ n * (mdps / s) →
      L.mod a.v = s → L.mod b.v = s → a.dv = 0 → b.dv = 0 →
      0 ≤ dot (a.p - b.p) (a.v - b.v) →
      forward_loop L min_time mdps 0 n R [a, b] =
        some [{ a with p := a.p + scale a.v R }, { b with p := b.p + scale b.v R }] := by
  have hstay : ∀ q : particle K D, ({ q with p := q.p + scale q.v 0 } : particle K D) = q := by
    intro q
    have h0 : q.p + scale q.v 0 = q.p := by
      funext i; simp [scale]
    rw [h0]
  intro n
  induction n with
  | zero =>
    intro R a b hR hle _ _ _ _ _
    have hR0 : R = 0 := le_antisymm (by simpa using hle) hR
    subst hR0
    simp [forward_loop, hstay]
  | succ n ih =>
    intro R a b hR hle hva hvb hda hdb hsep
    rcases eq_or_lt_of_le hR with hR0 | hRpos
    · subst hR0
      simp [forward_loop, hstay]
    · have hct := collision_time_with_separating L a b hsep
      obtain ⟨hf, -⟩ := choose_two_free L min_time mdps R s a b hs hcap hva hvb hct
      have hsub := substep_two_free L min_time mdps R s a b hs hcap hva hvb hct hda hdb
      simp only [forward_loop, if_pos hRpos, hf, hsub]
      generalize hfdef : (if mdps / s < R then mdps / s else R) = f
      have hfpos : 0 < f := by
        rw [← hfdef]; split_ifs <;> assumption
      have hfle : f ≤ R := by
        rw [← hfdef]; split_ifs with h
        · exact le_of_lt h
        · exact le_refl _
      have hrem : R - f ≤ n * (mdps / s) := by
        rw [← hfdef]
        split_ifs with h
        · push_cast at hle
          linarith
        · have : 0 ≤ (n : K) * (mdps / s) :=
            mul_nonneg (Nat.cast_nonneg n) (le_of_lt hcap)
          linarith
      have hsep2 : 0 ≤ dot ((a.p + scale a.v f) - (b.p + scale b.v f)) (a.v - b.v) := by
        have e : (a.p + scale a.v f) - (b.p + scale b.v f) =
            (a.p - b.p) + scale (a.v - b.v) f := by
          funext i; simp [scale]; ring
        rw [e, dot_add_scale_left]
        have := mul_nonneg (le_of_lt hfpos) (sqr_nonneg (a.v - b.v))
        linarith
      rw [ih (R - f) { a with p := a.p + scale a.v f } { b with p := b.p + scale b.v f }
        (by linarith) hrem hva hvb hda hdb hsep2]
      have e1 : ∀ q : particle K D, q.p + scale q.v f + scale q.v (R - f) = q.p + scale q.v R := by
        intro q
        funext i; simp [scale]; ring
      simp [e1]


/-! ## The tunneling scenario -/

theorem sqr_scale (u : Vec K D) (k : K) : sqr (scale u k) = k * k * sqr u := by
  simp only [sqr, dot, scale, Finset.mul_sum]
  exact Finset.sum_congr rfl (fun i _ => by ring)

theorem dot_scale_scale (u w : Vec K D) (k l : K) :
    dot (scale u k) (scale w l) = k * l * dot u w := by
  simp only [dot, scale, Finset.mul_sum]
  exact Finset.sum_congr rfl (fun i _ => by ring)

theorem dot_scale_left (u w : Vec K D) (k : K) : dot (scale u k) w = k * dot u w := by
  simp only [dot, scale, Finset.mul_sum]
  exact Finset.sum_congr rfl (fun i _ => by ring)

theorem mod_of_sqr (L : Lib K D) (hL : IsNorm L) (a : Vec K D) (c : K) (hc : 0 ≤ c)
    (h : sqr a = c * c) : L.mod a = c := by
  have h2 : L.mod a * L.mod a = c * c := by rw [(hL a).2, h]
  rcases mul_self_eq_mul_self_iff.mp h2 with h3 | h3
  · exact h3
  · have h4 := (hL a).1
    have h5 : c = 0 := by linarith
    rw [h3, h5, neg_zero]

theorem select_root_first (res : Option K × Option K) (a b c t : K)
    (hres : ExactRoots res a b c) (ht : 0 < t) (hroot : a * t * t + b * t + c = 0)
    (hmin : ∀ s, 0 < s → a * s * s + b * s + c = 0 → t ≤ s) :
    select_root res.1 res.2 = some t := by
  cases hr : select_root res.1 res.2 with
  | none => exact absurd ((hres t).mpr hroot) (select_root_none _ _ hr t ht)
  | some s =>
    obtain ⟨spos, sin, smin⟩ := select_root_some _ _ s hr
    exact congrArg some
      (le_antisymm (smin t ht ((hres t).mpr hroot)) (hmin s spos ((hres s).mp sin)))

/-- Two bodies of equal non-zero mass whose centers and velocities lie on the line of the
unit vector `u` exchange their velocities in `collide` followed by `apply`. -/
theorem collide_swap_on_axis (L : Lib K D) (hL : IsNorm L) (u : Vec K D) (hu : sqr u = 1)
    (x y : particle K D) (k α β : K) (hk : 0 < k) (hp : y.p - x.p = scale u k)
    (hm : x.m = y.m) (hm0 : x.m ≠ 0) (hdx : x.dv = 0) (hdy : y.dv = 0)
    (hvx : x.v = scale u α) (hvy : y.v = scale u β) :
    (x.collide L y).1.apply = { x with v := y.v } ∧
    (x.collide L y).2.apply = { y with v := x.v } := by
  have hmodk : L.mod (scale u k) = k :=
    mod_of_sqr L hL _ k (le_of_lt hk) (by rw [sqr_scale, hu, mul_one])
  have hn : normalize L (scale u k) = u := by
    funext i
    simp only [normalize, hmodk, scale]
    field_simp
  have hm2 : y.m + y.m ≠ 0 := by
    intro h
    exact hm0 (by rw [hm]; linarith)
  have hdu : ∀ c : K, dot (scale u c) u = c := by
    intro c
    rw [dot_scale_left]
    have : dot u u = 1 := hu
    rw [this, mul_one]
  have hym : y.m ≠ 0 := hm ▸ hm0
  have e1 : (y.m * β * 2 - (y.m - y.m) * α) / (y.m + y.m) - α = β - α := by
    field_simp
    ring
  have e2 : (y.m * α * 2 + (y.m - y.m) * β) / (y.m + y.m) - β = α - β := by
    field_simp
    ring
  have e3 : ∀ c d : K, scale u c + scale u (d - c) = scale u d := by
    intro c d
    funext i
    simp only [scale, Pi.add_apply]
    ring
  simp only [particle.collide, hm, if_neg hm2, particle.apply, hp, hn, hvx, hvy, hdu, hdx, hdy,
    zero_add, e1, e2, e3]
  exact ⟨trivial, trivial⟩

/-- The predicted contact time at the start of the tunneling scenario is 1/2500. -/
theorem tunnel_contact_time (L : Lib K D) (p0 u : Vec K D) (hu : sqr u = 1) (m : K)
    (hsolve : ExactRoots (L.solve_quadric_equation 4000000 (-4000) (24 / 25))
      4000000 (-4000) (24 / 25)) :
    (tunnel_fst p0 u m).collision_time_with L (tunnel_snd p0 u m) = some (1 / 2500) := by
  have hdp : (tunnel_fst p0 u m).p - (tunnel_snd p0 u m).p = scale u (-1) := by
    funext i
    simp [tunnel_fst, tunnel_snd, particle.new, scale]
  have hdv : (tunnel_fst p0 u m).v - (tunnel_snd p0 u m).v = scale u 2000 := by
    funext i
    simp only [tunnel_fst, tunnel_snd, particle.new, scale, Pi.sub_apply]
    ring
  have hdu : dot u u = 1 := hu
  have ha : sqr ((tunnel_fst p0 u m).v - (tunnel_snd p0 u m).v) = 4000000 := by
    rw [hdv, sqr_scale, hu]; norm_num
  have hb : dot ((tunnel_fst p0 u m).p - (tunnel_snd p0 u m).p)
      ((tunnel_fst p0 u m).v - (tunnel_snd p0 u m).v) = -2000 := by
    rw [hdp, hdv, dot_scale_scale, hdu]; norm_num
  have hc : sqr ((tunnel_fst p0 u m).p - (tunnel_snd p0 u m).p) -
      ((tunnel_fst p0 u m).r + (tunnel_snd p0 u m).r) *
        ((tunnel_fst p0 u m).r + (tunnel_snd p0 u m).r) = 24 / 25 := by
    rw [hdp, sqr_scale, hu]
    simp only [tunnel_fst, tunnel_snd, particle.new]
    norm_num
  have hsel : (tunnel_fst p0 u m).collision_time_with L (tunnel_snd p0 u m) =
      select_root (L.solve_quadric_equation 4000000 (-4000) (24 / 25)).1
        (L.solve_quadric_equation 4000000 (-4000) (24 / 25)).2 := by
    have hneg : ¬ ((-2000 : K) ≥ 0) := by norm_num
    have h2 : (-2000 : K) * 2 = -4000 := by norm_num
    simp only [particle.collision_time_with, ha, hb, hc, if_neg hneg, h2]
  rw [hsel]
  refine select_root_first _ _ _ _ _ hsolve (by norm_num) (by norm_num) ?_
  intro s _ hroot
  have hfac : (4000000 : K) * ((s - 1 / 2500) * (s - 3 / 5000)) = 0 := by
    rw [← hroot]; ring
  rcases mul_eq_zero.mp hfac with h | h
  · norm_num at h
  · rcases mul_eq_zero.mp h with h | h
    · linarith
    · have : s = 3 / 5000 := by linarith
      rw [this]; norm_num

/-- The first substep of the tunneling scenario: the cap 1/20000 is the substep length, and
the pair is grouped because its contact time 1/2500 is within epsilon = 1/1000 of it. -/
theorem tunnel_choose (L : Lib K D) (hL : IsNorm L) (p0 u : Vec K D) (hu : sqr u = 1) (m : K)
    (hsolve : ExactRoots (L.solve_quadric_equation 4000000 (-4000) (24 / 25))
      4000000 (-4000) (24 / 25)) :
    (choose L (1 * (1 / 1000)) (1 / 20) 1 [tunnel_fst p0 u m, tunnel_snd p0 u m]).forward_time =
      1 / 20000 ∧
    (choose L (1 * (1 / 1000)) (1 / 20) 1 [tunnel_fst p0 u m, tunnel_snd p0 u m]).collisions =
      [(0, [1])] := by
  have hct := tunnel_contact_time L p0 u hu m hsolve
  have hma : L.mod (tunnel_fst p0 u m).v = 1000 :=
    mod_of_sqr L hL _ 1000 (by norm_num) (by
      simp only [tunnel_fst, particle.new]; rw [sqr_scale, hu]; norm_num)
  have hmb : L.mod (tunnel_snd p0 u m).v = 1000 :=
    mod_of_sqr L hL _ 1000 (by norm_num) (by
      simp only [tunnel_snd, particle.new]; rw [sqr_scale, hu]; norm_num)
  simp only [choose, cap_scan, step_time, scan_outer, scan_inner, scan_step, hma, hmb, hct]
  norm_num [CollisionMap.push]

/-- The first substep of the tunneling scenario moves both bodies by 0.05 and exchanges their
velocities. -/
theorem tunnel_first_substep (L : Lib K D) (hL : IsNorm L) (p0 u : Vec K D) (hu : sqr u = 1)
    (m : K) (hm : m ≠ 0)
    (hsolve : ExactRoots (L.solve_quadric_equation 4000000 (-4000) (24 / 25))
      4000000 (-4000) (24 / 25)) :
    substep L (1 * (1 / 1000)) (1 / 20) 0 1 [tunnel_fst p0 u m, tunnel_snd p0 u m] =
      [{ tunnel_fst p0 u m with p := p0 + scale u (1 / 20), v := scale u (-1000) },
       { tunnel_snd p0 u m with p := p0 + u + scale u (-1 / 20), v := scale u 1000 }] := by
  obtain ⟨hf, hc⟩ := tunnel_choose L hL p0 u hu m hsolve
  have hpa : ((tunnel_fst p0 u m).forward (1 / 20000)).p = p0 + scale u (1 / 20) := by
    funext i
    simp only [particle.forward, tunnel_fst, particle.new, scale, Pi.add_apply]
    ring
  have hpb : ((tunnel_snd p0 u m).forward (1 / 20000)).p = p0 + u + scale u (-1 / 20) := by
    funext i
    simp only [particle.forward, tunnel_snd, particle.new, scale, Pi.add_apply]
    ring
  have hp : ((tunnel_snd p0 u m).forward (1 / 20000)).p -
      ((tunnel_fst p0 u m).forward (1 / 20000)).p = scale u (9 / 10) := by
    rw [hpa, hpb]
    funext i
    simp only [scale, Pi.add_apply, Pi.sub_apply]
    ring
  obtain ⟨h1, h2⟩ := collide_swap_on_axis L hL u hu ((tunnel_fst p0 u m).forward (1 / 20000))
    ((tunnel_snd p0 u m).forward (1 / 20000)) (9 / 10) 1000 (-1000) (by norm_num) hp rfl hm
    rfl rfl rfl rfl
  simp only [substep, hf, hc, resolve_two, gravity_all_zero_G, List.map_cons, List.map_nil,
    h1, h2]
  simp only [particle.forward, tunnel_fst, tunnel_snd, particle.new] at hpa hpb ⊢
  rw [hpa, hpb]

/-- C8 (amended): two bodies of equal non-zero mass and radius 0.1 whose centers are 1.0
apart (`p0` and `p0 + u`, `u` a unit vector), moving head-on with speed 1000.  With at least
20000 loop iterations available, `forward(1.0, 0.05, 0)` returns; the velocities are
exchanged and the second body is still on the `u` side of the first one. -/
theorem tunneling_prevented (L : Lib K D) (hL : IsNorm L) (p0 u : Vec K D) (hu : sqr u = 1)
    (m : K) (hm : m ≠ 0)
    (hsolve : ExactRoots (L.solve_quadric_equation 4000000 (-4000) (24 / 25))
      4000000 (-4000) (24 / 25))
    (fuel : Nat) (hfuel : 20000 ≤ fuel) :
    ∃ a1 b1, space.forward L fuel [tunnel_fst p0 u m, tunnel_snd p0 u m] 1 (1 / 20) 0 =
        some [a1, b1] ∧
      a1.v = (tunnel_snd p0 u m).v ∧ b1.v = (tunnel_fst p0 u m).v ∧
      0 < dot ((tunnel_snd p0 u m).p - (tunnel_fst p0 u m).p) u ∧ 0 < dot (b1.p - a1.p) u := by
  obtain ⟨n, rfl⟩ : ∃ n, fuel = n + 1 := ⟨fuel - 1, by omega⟩
  have hn : (19999 : K) ≤ (n : K) := by
    have : 19999 ≤ n := by omega
    exact_mod_cast this
  obtain ⟨hf, -⟩ := tunnel_choose L hL p0 u hu m hsolve
  have hsub := tunnel_first_substep L hL p0 u hu m hm hsolve
  have hdu : dot u u = 1 := hu
  have hfly := free_flight L (1 * (1 / 1000)) (1 / 20) 1000 (by norm_num) (by norm_num) n
    (1 - 1 / 20000)
    { tunnel_fst p0 u m with p := p0 + scale u (1 / 20), v := scale u (-1000) }
    { tunnel_snd p0 u m with p := p0 + u + scale u (-1 / 20), v := scale u 1000 }
    (by norm_num)
    (by
      have h0 : (0 : K) ≤ 19999 := by norm_num
      have h1 : (1 : K) - 1 / 20000 = 19999 * (1 / 20 / 1000) := by norm_num
      have h2 : (0 : K) ≤ 1 / 20 / 1000 := by norm_num
      rw [h1]
      exact mul_le_mul_of_nonneg_right hn h2)
    (mod_of_sqr L hL _ 1000 (by norm_num) (by rw [sqr_scale, hu]; norm_num))
    (mod_of_sqr L hL _ 1000 (by norm_num) (by rw [sqr_scale, hu]; norm_num))
    rfl rfl
    (by
      have e1 : (p0 + scale u (1 / 20)) - (p0 + u + scale u (-1 / 20)) = scale u (-9 / 10) := by
        funext i
        simp only [scale, Pi.add_apply, Pi.sub_apply]
        ring
      have e2 : scale u (-1000) - scale u 1000 = scale u (-2000) := by
        funext i
        simp only [scale, Pi.sub_apply]
        ring
      simp only [e1, e2, dot_scale_scale, hdu]
      norm_num)
  refine ⟨{ tunnel_fst p0 u m with
      p := p0 + scale u (1 / 20) + scale (scale u (-1000)) (1 - 1 / 20000),
      v := scale u (-1000) },
    { tunnel_snd p0 u m with
      p := p0 + u + scale u (-1 / 20) + scale (scale u 1000) (1 - 1 / 20000),
      v := scale u 1000 }, ?_, rfl, rfl, ?_, ?_⟩
  · simp only [space.forward, forward_loop, hf, hsub]
    rw [if_pos (by norm_num : (1 : K) > 0)]
    exact hfly
  · have e : (tunnel_snd p0 u m).p - (tunnel_fst p0 u m).p = u := by
      funext i
      simp [tunnel_fst, tunnel_snd, particle.new]
    rw [e, hdu]
    exact one_pos
  · have e : (p0 + u + scale u (-1 / 20) + scale (scale u 1000) (1 - 1 / 20000)) -
        (p0 + scale u (1 / 20) + scale (scale u (-1000)) (1 - 1 / 20000)) =
        scale u (10004 / 5) := by
      funext i
      simp only [scale, Pi.add_apply, Pi.sub_apply]
      ring
    simp only [e, dot_scale_left, hdu]
    norm_num


/-! ## The tunneling scenario with massless bodies -/

theorem forward_loop_step (L : Lib K D) (min_time mdps G R : K) (n : Nat) (ps ps1 : space K D)
    (R1 : K) (hR : 0 < R)
    (h : (choose L min_time mdps R ps).forward_time = R - R1 ∧
      substep L min_time mdps G R ps = ps1) :
    forward_loop L min_time mdps G (n + 1) R ps = forward_loop L min_time mdps G n R1 ps1 := by
  simp only [forward_loop, if_pos hR, h.1, h.2, sub_sub_cancel]

/-- The first ten substeps of the massless tunneling scenario on the rational line: every
substep has length 1/20000, `collide` is skipped because the combined mass is zero, and the
two centers meet at 1/2. -/
theorem massless_approach (n : Nat) :
    forward_loop lineQ (1 * (1 / 1000)) (1 / 20) 0 (n + 1 + 1 + 1 + 1 + 1 + 1 + 1 + 1 + 1 + 1) 1
        [bodyQ 0 1000 (1 / 10) 0, bodyQ 1 (-1000) (1 / 10) 0] =
      forward_loop lineQ (1 * (1 / 1000)) (1 / 20) 0 n (1999 / 2000)
        [bodyQ (1 / 2) 1000 (1 / 10) 0, bodyQ (1 / 2) (-1000) (1 / 10) 0] := by
  rw [forward_loop_step lineQ (1 * (1 / 1000)) (1 / 20) 0 1 _
    [bodyQ 0 1000 (1 / 10) 0, bodyQ 1 (-1000) (1 / 10) 0]
    [bodyQ (1 / 20) 1000 (1 / 10) 0, bodyQ (19 / 20) (-1000) (1 / 10) 0]
    (19999 / 20000) (by norm_num) (by decide!)]
  rw [forward_loop_step lineQ (1 * (1 / 1000)) (1 / 20) 0 (19999 / 20000) _
    [bodyQ (1 / 20) 1000 (1 / 10) 0, bodyQ (19 / 20) (-1000) (1 / 10) 0]
    [bodyQ (1 / 10) 1000 (1 / 10) 0, bodyQ (9 / 10) (-1000) (1 / 10) 0]
    (9999 / 10000) (by norm_num) (by decide!)]
  rw [forward_loop_step lineQ (1 * (1 / 1000)) (1 / 20) 0 (9999 / 10000) _
    [bodyQ (1 / 10) 1000 (1 / 10) 0, bodyQ (9 / 10) (-1000) (1 / 10) 0]
    [bodyQ (3 / 20) 1000 (1 / 10) 0, bodyQ (17 / 20) (-1000) (1 / 10) 0]
    (19997 / 20000) (by norm_num) (by decide!)]
  rw [forward_loop_step lineQ (1 * (1 / 1000)) (1 / 20) 0 (19997 / 20000) _
    [bodyQ (3 / 20) 1000 (1 / 10) 0, bodyQ (17 / 20) (-1000) (1 / 10) 0]
    [bodyQ (1 / 5) 1000 (1 / 10) 0, bodyQ (4 / 5) (-1000) (1 / 10) 0]
    (4999 / 5000) (by norm_num) (by decide!)]
  rw [forward_loop_step lineQ (1 * (1 / 1000)) (1 / 20) 0 (4999 / 5000) _
    [bodyQ (1 / 5) 1000 (1 / 10) 0, bodyQ (4 / 5) (-1000) (1 / 10) 0]
    [bodyQ (1 / 4) 1000 (1 / 10) 0, bodyQ (3 / 4) (-1000) (1 / 10) 0]
    (3999 / 4000) (by norm_num) (by decide!)]
  rw [forward_loop_step lineQ (1 * (1 / 1000)) (1 / 20) 0 (3999 / 4000) _
    [bodyQ (1 / 4) 1000 (1 / 10) 0, bodyQ (3 / 4) (-1000) (1 / 10) 0]
    [bodyQ (3 / 10) 1000 (1 / 10) 0, bodyQ (7 / 10) (-1000) (1 / 10) 0]
    (9997 / 10000) (by norm_num) (by decide!)]
  rw [forward_loop_step lineQ (1 * (1 / 1000)) (1 / 20) 0 (9997 / 10000) _
    [bodyQ (3 / 10) 1000 (1 / 10) 0, bodyQ (7 / 10) (-1000) (1 / 10) 0]
    [bodyQ (7 / 20) 1000 (1 / 10) 0, bodyQ (13 / 20) (-1000) (1 / 10) 0]
    (19993 / 20000) (by norm_num) (by decide!)]
  rw [forward_loop_step lineQ (1 * (1 / 1000)) (1 / 20) 0 (19993 / 20000) _
    [bodyQ (7 / 20) 1000 (1 / 10) 0, bodyQ (13 / 20) (-1000) (1 / 10) 0]
    [bodyQ (2 / 5) 1000 (1 / 10) 0, bodyQ (3 / 5) (-1000) (1 / 10) 0]
    (2499 / 2500) (by norm_num) (by decide!)]
  rw [forward_loop_step lineQ (1 * (1 / 1000)) (1 / 20) 0 (2499 / 2500) _
    [bodyQ (2 / 5) 1000 (1 / 10) 0, bodyQ (3 / 5) (-1000) (1 / 10) 0]
    [bodyQ (9 / 20) 1000 (1 / 10) 0, bodyQ (11 / 20) (-1000) (1 / 10) 0]
    (19991 / 20000) (by norm_num) (by decide!)]
  rw [forward_loop_step lineQ (1 * (1 / 1000)) (1 / 20) 0 (19991 / 20000) _
    [bodyQ (9 / 20) 1000 (1 / 10) 0, bodyQ (11 / 20) (-1000) (1 / 10) 0]
    [bodyQ (1 / 2) 1000 (1 / 10) 0, bodyQ (1 / 2) (-1000) (1 / 10) 0]
    (1999 / 2000) (by norm_num) (by decide!)]


theorem tunnel_solver_exact :
    ExactRoots (lineQ.solve_quadric_equation 4000000 (-4000) (24 / 25))
      4000000 (-4000) (24 / 25) := by
  have hs : lineQ.solve_quadric_equation 4000000 (-4000) (24 / 25) =
      (some (1 / 2500), some (3 / 5000)) := by decide!
  rw [hs]
  exact exactRoots_pair 4000000 (-4000) (24 / 25) (1 / 2500) (3 / 5000) (by norm_num)
    (by norm_num) (by norm_num)

/-- After the centers have met, the massless bodies fly apart freely for the remaining
1999/2000 time units. -/
theorem massless_flight : forward_loop lineQ (1 * (1 / 1000)) (1 / 20) 0 19990 (1999 / 2000)
      [bodyQ (1 / 2) 1000 (1 / 10) 0, bodyQ (1 / 2) (-1000) (1 / 10) 0] =
    some [bodyQ 1000 1000 (1 / 10) 0, bodyQ (-999) (-1000) (1 / 10) 0] := by
  have hfly := free_flight lineQ (1 * (1 / 1000)) (1 / 20) 1000 (by norm_num) (by norm_num)
    19990 (1999 / 2000) (bodyQ (1 / 2) 1000 (1 / 10) 0) (bodyQ (1 / 2) (-1000) (1 / 10) 0)
    (by norm_num) (by norm_num) (by decide!) (by decide!) rfl rfl (by decide!)
  have e1 : ({ bodyQ (1 / 2) 1000 (1 / 10) 0 with
      p := (bodyQ (1 / 2) 1000 (1 / 10) 0).p +
        scale (bodyQ (1 / 2) 1000 (1 / 10) 0).v (1999 / 2000) } : particle ℚ 1) =
      bodyQ 1000 1000 (1 / 10) 0 := by decide!
  have e2 : ({ bodyQ (1 / 2) (-1000) (1 / 10) 0 with
      p := (bodyQ (1 / 2) (-1000) (1 / 10) 0).p +
        scale (bodyQ (1 / 2) (-1000) (1 / 10) 0).v (1999 / 2000) } : particle ℚ 1) =
      bodyQ (-999) (-1000) (1 / 10) 0 := by decide!
  rw [hfly, e1, e2]

theorem massless_forward : space.forward lineQ 20000
        [tunnel_fst (fun _ => 0) (fun _ => 1) 0, tunnel_snd (fun _ => 0) (fun _ => 1) 0]
        1 (1 / 20) 0 =
      some [bodyQ 1000 1000 (1 / 10) 0, bodyQ (-999) (-1000) (1 / 10) 0] := by
  have ha : (tunnel_fst (fun _ => 0) (fun _ => 1) 0 : particle ℚ 1) =
      bodyQ 0 1000 (1 / 10) 0 := by decide!
  have hb : (tunnel_snd (fun _ => 0) (fun _ => 1) 0 : particle ℚ 1) =
      bodyQ 1 (-1000) (1 / 10) 0 := by decide!
  have hfuel : (20000 : Nat) = 19990 + 1 + 1 + 1 + 1 + 1 + 1 + 1 + 1 + 1 + 1 := by norm_num
  rw [ha, hb, space.forward, hfuel, massless_approach 19990]
  exact massless_flight

/-- C8 (counterexample): the scenario of the claim on the rational line with both masses
zero.  `forward(1.0, 0.05, 0)` returns after 20000 substeps; `collide` is skipped in every
substep because the combined mass is zero, so the first body keeps its velocity 1000 (it does
not take over -1000) and ends at 1000, beyond the second body, which ends at -999. -/
theorem tunneling_massless_pass_through :
    IsNorm lineQ ∧ sqr (fun _ => 1 : Vec ℚ 1) = 1 ∧
    ExactRoots (lineQ.solve_quadric_equation 4000000 (-4000) (24 / 25))
      4000000 (-4000) (24 / 25) ∧
    (tunnel_fst (fun _ => 0) (fun _ => 1) 0 : particle ℚ 1).m =
      (tunnel_snd (fun _ => 0) (fun _ => 1) 0 : particle ℚ 1).m ∧
    space.forward lineQ 20000
        [tunnel_fst (fun _ => 0) (fun _ => 1) 0, tunnel_snd (fun _ => 0) (fun _ => 1) 0]
        1 (1 / 20) 0 =
      some [bodyQ 1000 1000 (1 / 10) 0, bodyQ (-999) (-1000) (1 / 10) 0] ∧
    (bodyQ 1000 1000 (1 / 10) 0).v ≠ (tunnel_snd (fun _ => 0) (fun _ => 1) 0 : particle ℚ 1).v ∧
    0 < dot ((tunnel_snd (fun _ => 0) (fun _ => 1) 0 : particle ℚ 1).p -
      (tunnel_fst (fun _ => 0) (fun _ => 1) 0 : particle ℚ 1).p) (fun _ => 1) ∧
    dot ((bodyQ (-999) (-1000) (1 / 10) 0).p - (bodyQ 1000 1000 (1 / 10) 0).p)
      (fun _ => 1) < 0 :=
  ⟨lineQ_isNorm, by decide!, tunnel_solver_exact, by decide!, massless_forward, by decide!,
    by decide!, by decide!⟩

/-- C8 (witness): the scenario on the rational line with masses 1, `p0 = 0` and `u = 1`. -/
theorem tunneling_prevented_witness :
    IsNorm lineQ ∧ sqr (fun _ => 1 : Vec ℚ 1) = 1 ∧ (1 : ℚ) ≠ 0 ∧
    ExactRoots (lineQ.solve_quadric_equation 4000000 (-4000) (24 / 25))
      4000000 (-4000) (24 / 25) ∧ 20000 ≤ 20000 ∧
    ∃ a1 b1, space.forward lineQ 20000
        [tunnel_fst (fun _ => 0) (fun _ => 1) 1, tunnel_snd (fun _ => 0) (fun _ => 1) 1]
        1 (1 / 20) 0 = some [a1, b1] ∧
      a1.v = (tunnel_snd (fun _ => 0) (fun _ => 1) 1 : particle ℚ 1).v ∧
      b1.v = (tunnel_fst (fun _ => 0) (fun _ => 1) 1 : particle ℚ 1).v ∧
      0 < dot ((tunnel_snd (fun _ => 0) (fun _ => 1) 1 : particle ℚ 1).p -
        (tunnel_fst (fun _ => 0) (fun _ => 1) 1 : particle ℚ 1).p) (fun _ => 1) ∧
      0 < dot (b1.p - a1.p) (fun _ => 1) :=
  ⟨lineQ_isNorm, by decide!, one_ne_zero, tunnel_solver_exact, le_refl _,
    tunneling_prevented lineQ lineQ_isNorm (fun _ => 0) (fun _ => 1) (by decide!) 1 one_ne_zero
      tunnel_solver_exact 20000 (le_refl _)⟩


/-! ## Gravity and the degenerate cases -/

theorem sqr_normalize (L : Lib K D) (hL : IsNorm L) (d : Vec K D) (hd : d ≠ 0) :
    sqr (normalize L d) = 1 := by
  have hn := mod_ne_zero L hL d hd
  have h1 : sqr (normalize L d) = sqr d / (L.mod d * L.mod d) := by
    simp only [sqr, dot, normalize, Finset.sum_div]
    exact Finset.sum_congr rfl (fun i _ => by field_simp)
  rw [h1, (hL d).2]
  exact div_self (by rw [← (hL d).2]; exact mul_ne_zero hn hn)

theorem dot_add_left (x y w : Vec K D) : dot (x + y) w = dot x w + dot y w := by
  simp only [dot, Pi.add_apply, ← Finset.sum_add_distrib]
  exact Finset.sum_congr rfl (fun i _ => by ring)

theorem dot_sub_left (x y w : Vec K D) : dot (x - y) w = dot x w - dot y w := by
  simp only [dot, Pi.sub_apply, ← Finset.sum_sub_distrib]
  exact Finset.sum_congr rfl (fun i _ => by ring)

/-- C12: for two bodies with distinct centers at distance `d = |p_other - p_self|`,
`gravity` adds `G·time·m_other·(p_other - p_self)/d³` to the pending delta of `self` and
`G·time·m_self·(p_self - p_other)/d³` to that of `other`, changes nothing else, and the two
staged impulses cancel: `m_self·Δdv_self + m_other·Δdv_other = 0`. -/
theorem gravity_inverse_square (L : Lib K D) (hL : IsNorm L) (self o : particle K D)
    (time G : K) (hp : self.p ≠ o.p) :
    (self.gravity L o time G).1 = { self with dv := (self.dv + scale (o.p - self.p)
      (G * time * o.m / (L.mod (o.p - self.p) * L.mod (o.p - self.p) * L.mod (o.p - self.p)))) } ∧
    (self.gravity L o time G).2 = { o with dv := (o.dv + scale (self.p - o.p)
      (G * time * self.m / (L.mod (o.p - self.p) * L.mod (o.p - self.p) * L.mod (o.p - self.p)))) } ∧
    L.mod (o.p - self.p) * L.mod (o.p - self.p) = sqr (o.p - self.p) ∧
    0 < L.mod (o.p - self.p) ∧
    scale ((self.gravity L o time G).1.dv - self.dv) self.m +
      scale ((self.gravity L o time G).2.dv - o.dv) o.m = 0 := by
  have hd : o.p - self.p ≠ 0 := fun h => hp (sub_eq_zero.mp h).symm
  have hn := mod_ne_zero L hL _ hd
  have hpos : 0 < L.mod (o.p - self.p) := lt_of_le_of_ne (hL _).1 (Ne.symm hn)
  refine ⟨?_, ?_, (hL _).2, hpos, ?_⟩
  · simp only [particle.gravity, if_neg hn]
    congr 2
    funext i
    simp only [scale]
    ring
  · simp only [particle.gravity, if_neg hn]
    congr 2
    funext i
    simp only [scale, Pi.sub_apply]
    ring
  · have h := gravity_staged_momentum L self o time G
    funext i
    have hi := congrFun h i
    simp only [scale, Pi.add_apply, Pi.sub_apply, Pi.zero_apply] at hi ⊢
    linarith

/-- C12 (witness): on the rational line, bodies of masses 1 and 3 at 0 and 4 (distance 4),
`time = 1`, `G = 1`: the pending deltas become 3/16 and -1/16. -/
theorem gravity_inverse_square_witness :
    IsNorm lineQ ∧ (bodyQ 0 0 1 1).p ≠ (bodyQ 4 0 1 3).p ∧
    ((bodyQ 0 0 1 1).gravity lineQ (bodyQ 4 0 1 3) 1 1).1.dv = (fun _ => 3 / 16) ∧
    ((bodyQ 0 0 1 1).gravity lineQ (bodyQ 4 0 1 3) 1 1).2.dv = (fun _ => -1 / 16) ∧
    scale (((bodyQ 0 0 1 1).gravity lineQ (bodyQ 4 0 1 3) 1 1).1.dv - (bodyQ 0 0 1 1).dv)
        (bodyQ 0 0 1 1).m +
      scale (((bodyQ 0 0 1 1).gravity lineQ (bodyQ 4 0 1 3) 1 1).2.dv - (bodyQ 4 0 1 3).dv)
        (bodyQ 4 0 1 3).m = 0 :=
  have hp : (bodyQ 0 0 1 1).p ≠ (bodyQ 4 0 1 3).p := by decide!
  ⟨lineQ_isNorm, hp, by decide!, by decide!,
    (gravity_inverse_square lineQ lineQ_isNorm (bodyQ 0 0 1 1) (bodyQ 4 0 1 3) 1 1 hp).2.2.2.2⟩

/-- Where the tested `gravity` returns a result, it is the result of `gravity`. -/
theorem gravity_checked_eq (L : Lib K D) (self o : particle K D) (time G : K)
    (r : particle K D × particle K D) (h : self.gravity_checked L o time G = some r) :
    r = self.gravity L o time G := by
  simp only [particle.gravity_checked, particle.gravity, checked_div] at h ⊢
  by_cases h0 : L.mod (o.p - self.p) = 0
  · simp only [h0, if_true, Option.some.injEq] at h ⊢
    exact h.symm
  · have h3 : L.mod (o.p - self.p) * L.mod (o.p - self.p) * L.mod (o.p - self.p) ≠ 0 :=
      mul_ne_zero (mul_ne_zero h0 h0) h0
    simp only [h0, h3, if_false, Option.map_some', Option.some.injEq] at h ⊢
    exact h.symm

/-- Where the tested `collide` returns a result, it is the result of `collide`. -/
theorem collide_checked_eq (L : Lib K D) (self o : particle K D)
    (r : particle K D × particle K D) (h : self.collide_checked L o = some r) :
    r = self.collide L o := by
  simp only [particle.collide_checked, particle.collide, checked_div] at h ⊢
  by_cases h0 : o.m + self.m = 0
  · simp only [h0, if_true, Option.some.injEq] at h ⊢
    exact h.symm
  · simp only [h0, if_false, Option.some_bind, Option.map_some', Option.some.injEq] at h ⊢
    exact h.symm

theorem dot_add_scale_unit (x n : Vec K D) (c : K) (hn : sqr n = 1) :
    dot (x + scale n c) n = dot x n + c := by
  have h : dot (x + scale n c) n = dot x n + c * sqr n := by
    simp only [sqr, dot, scale, Pi.add_apply, Finset.mul_sum, ← Finset.sum_add_distrib]
    exact Finset.sum_congr rfl (fun i _ => by ring)
  rw [h, hn, mul_one]

theorem sqr_add_scale_unit (x n : Vec K D) (c : K) (hn : sqr n = 1) :
    sqr (x + scale n c) = sqr x + 2 * c * dot x n + c * c := by
  rw [sqr_add_scale, hn]
  ring

/-- C19: for two bodies with distinct centers, zero pending delta and non-zero combined
mass, `collide` followed by `apply` on both leaves the velocity components perpendicular to
the unit vector `n` between the centers unchanged, reverses the relative velocity along `n`,
and conserves the total momentum and the total kinetic energy of the pair. -/
theorem collide_elastic (L : Lib K D) (hL : IsNorm L) (self o : particle K D)
    (hp : self.p ≠ o.p) (hda : self.dv = 0) (hdb : o.dv = 0) (hsm : self.m + o.m ≠ 0) :
    (self.collide L o).1.apply.v -
        scale (normalize L (o.p - self.p))
          (dot (self.collide L o).1.apply.v (normalize L (o.p - self.p))) =
      self.v - scale (normalize L (o.p - self.p)) (dot self.v (normalize L (o.p - self.p))) ∧
    (self.collide L o).2.apply.v -
        scale (normalize L (o.p - self.p))
          (dot (self.collide L o).2.apply.v (normalize L (o.p - self.p))) =
      o.v - scale (normalize L (o.p - self.p)) (dot o.v (normalize L (o.p - self.p))) ∧
    dot ((self.collide L o).1.apply.v - (self.collide L o).2.apply.v)
        (normalize L (o.p - self.p)) =
      -dot (self.v - o.v) (normalize L (o.p - self.p)) ∧
    (self.collide L o).1.apply.m = self.m ∧ (self.collide L o).2.apply.m = o.m ∧
    scale (self.collide L o).1.apply.v self.m + scale (self.collide L o).2.apply.v o.m =
      scale self.v self.m + scale o.v o.m ∧
    self.m * sqr (self.collide L o).1.apply.v + o.m * sqr (self.collide L o).2.apply.v =
      self.m * sqr self.v + o.m * sqr o.v := by
  have hd : o.p - self.p ≠ 0 := fun h => hp (sub_eq_zero.mp h).symm
  have hn : sqr (normalize L (o.p - self.p)) = 1 := sqr_normalize L hL _ hd
  have hsm2 : ¬ (o.m + self.m = 0) := by rw [add_comm]; exact hsm
  have hsm3 : o.m + self.m ≠ 0 := hsm2
  have hva : (self.collide L o).1.apply.v = self.v + scale (normalize L (o.p - self.p))
      ((o.m * dot o.v (normalize L (o.p - self.p)) * 2 -
        (o.m - self.m) * dot self.v (normalize L (o.p - self.p))) / (o.m + self.m) -
        dot self.v (normalize L (o.p - self.p))) := by
    simp [particle.collide, hsm2, particle.apply, hda]
  have hvb : (self.collide L o).2.apply.v = o.v + scale (normalize L (o.p - self.p))
      ((self.m * dot self.v (normalize L (o.p - self.p)) * 2 +
        (o.m - self.m) * dot o.v (normalize L (o.p - self.p))) / (o.m + self.m) -
        dot o.v (normalize L (o.p - self.p))) := by
    simp [particle.collide, hsm2, particle.apply, hdb]
  have hma : (self.collide L o).1.apply.m = self.m := by
    simp [particle.collide, hsm2, particle.apply]
  have hmb : (self.collide L o).2.apply.m = o.m := by
    simp [particle.collide, hsm2, particle.apply]
  rw [hva, hvb]
  generalize normalize L (o.p - self.p) = n at hn
  simp only [dot_sub_left, dot_add_scale_unit _ n _ hn, sqr_add_scale_unit _ n _ hn]
  generalize dot self.v n = va
  generalize dot o.v n = vb
  refine ⟨?_, ?_, ?_, hma, hmb, ?_, ?_⟩
  · funext i
    simp only [scale, Pi.add_apply, Pi.sub_apply]
    ring
  · funext i
    simp only [scale, Pi.add_apply, Pi.sub_apply]
    ring
  · field_simp
    ring
  · funext i
    simp only [scale, Pi.add_apply]
    field_simp
    ring
  · field_simp
    ring

/-- C19 (witness): on the rational line, bodies of masses 2 and 6 at 0 and 5 with velocities
3 and -1 leave the collision with velocities -3 and 1: the relative velocity 4 becomes -4,
the momentum stays 0 and the kinetic energy stays 24. -/
theorem collide_elastic_witness :
    IsNorm lineQ ∧ (bodyQ 0 3 1 2).p ≠ (bodyQ 5 (-1) 1 6).p ∧
    (bodyQ 0 3 1 2).dv = 0 ∧ (bodyQ 5 (-1) 1 6).dv = 0 ∧
    (bodyQ 0 3 1 2).m + (bodyQ 5 (-1) 1 6).m ≠ 0 ∧
    ((bodyQ 0 3 1 2).collide lineQ (bodyQ 5 (-1) 1 6)).1.apply = bodyQ 0 (-3) 1 2 ∧
    ((bodyQ 0 3 1 2).collide lineQ (bodyQ 5 (-1) 1 6)).2.apply = bodyQ 5 1 1 6 ∧
    scale ((bodyQ 0 3 1 2).collide lineQ (bodyQ 5 (-1) 1 6)).1.apply.v (bodyQ 0 3 1 2).m +
        scale ((bodyQ 0 3 1 2).collide lineQ (bodyQ 5 (-1) 1 6)).2.apply.v (bodyQ 5 (-1) 1 6).m =
      scale (bodyQ 0 3 1 2).v (bodyQ 0 3 1 2).m +
        scale (bodyQ 5 (-1) 1 6).v (bodyQ 5 (-1) 1 6).m ∧
    (bodyQ 0 3 1 2).m * sqr ((bodyQ 0 3 1 2).collide lineQ (bodyQ 5 (-1) 1 6)).1.apply.v +
        (bodyQ 5 (-1) 1 6).m *
          sqr ((bodyQ 0 3 1 2).collide lineQ (bodyQ 5 (-1) 1 6)).2.apply.v =
      (bodyQ 0 3 1 2).m * sqr (bodyQ 0 3 1 2).v +
        (bodyQ 5 (-1) 1 6).m * sqr (bodyQ 5 (-1) 1 6).v :=
  have hp : (bodyQ 0 3 1 2).p ≠ (bodyQ 5 (-1) 1 6).p := by decide!
  have hsm : (bodyQ 0 3 1 2).m + (bodyQ 5 (-1) 1 6).m ≠ 0 := by decide!
  have H := collide_elastic lineQ lineQ_isNorm (bodyQ 0 3 1 2) (bodyQ 5 (-1) 1 6) hp rfl rfl hsm
  ⟨lineQ_isNorm, hp, rfl, rfl, hsm, by decide!, by decide!, H.2.2.2.2.2.1, H.2.2.2.2.2.2⟩

/-! ## Insertion keeps the members apart -/

theorem sqr_sub_comm (a b : Vec K D) : sqr (a - b) = sqr (b - a) := by
  simp only [sqr, dot, Pi.sub_apply]
  exact Finset.sum_congr rfl (fun i _ => by ring)

theorem intersects_symm (a b : particle K D) : a.intersects b = b.intersects a := by
  simp only [particle.intersects, sqr_sub_comm b.p a.p, add_comm a.r b.r]

theorem add_particle_pairwise (ps : space K D) (par : particle K D)
    (h : ps.Pairwise (fun a b => a.intersects b = false)) :
    (space.add_particle ps par).2.Pairwise (fun a b => a.intersects b = false) := by
  simp only [space.add_particle]
  split_ifs with hany
  · exact h
  · refine List.pairwise_append.mpr ⟨h, List.pairwise_singleton _ _, ?_⟩
    intro a ha b hb
    rw [List.mem_singleton] at hb
    subst hb
    by_contra hc
    exact hany (List.any_eq_true.mpr ⟨a, ha, by simpa using hc⟩)

theorem insert_all_pairwise (pars : List (particle K D)) :
    ∀ ps : space K D, ps.Pairwise (fun a b => a.intersects b = false) →
      (insert_all ps pars).Pairwise (fun a b => a.intersects b = false) := by
  induction pars with
  | nil => intro ps h; exact h
  | cons par rest ih =>
    intro ps h
    exact ih _ (add_particle_pairwise ps par h)

/-- C20: after any sequence of `add_particle` calls on an empty space, every two distinct
members are at squared center distance at least the square of the sum of their radii:
neither intersects the other. -/
theorem insert_all_no_overlap (pars : List (particle K D)) (i j : Nat) (a b : particle K D)
    (hij : i ≠ j) (ha : (insert_all [] pars)[i]? = some a)
    (hb : (insert_all [] pars)[j]? = some b) :
    (a.r + b.r) * (a.r + b.r) ≤ sqr (a.p - b.p) ∧
    a.intersects b = false ∧ b.intersects a = false := by
  have hpw := insert_all_pairwise pars ([] : space K D) List.Pairwise.nil
  rw [List.pairwise_iff_getElem] at hpw
  have key : a.intersects b = false := by
    obtain ⟨hi, hai⟩ := List.getElem?_eq_some.mp ha
    obtain ⟨hj, hbj⟩ := List.getElem?_eq_some.mp hb
    rcases Nat.lt_or_gt_of_ne hij with hlt | hgt
    · have := hpw i j hi hj hlt
      rw [hai, hbj] at this
      exact this
    · have := hpw j i hj hi hgt
      rw [hai, hbj] at this
      rw [intersects_symm]
      exact this
  refine ⟨?_, key, by rw [intersects_symm]; exact key⟩
  have h2 := key
  simp only [particle.intersects, decide_eq_false_iff_not, not_lt] at h2
  rw [sqr_sub_comm]
  exact h2

/-- C20 (witness): three `add_particle` calls on the rational line, the second of which is
rejected; the two members are unit spheres at 0 and 5. -/
theorem insert_all_no_overlap_witness :
    insert_all [] [bodyQ 0 1 1 1, bodyQ 1 0 1 1, bodyQ 5 0 1 1] =
      [bodyQ 0 1 1 1, bodyQ 5 0 1 1] ∧
    (0 : Nat) ≠ 1 ∧
    ((bodyQ 0 1 1 1).r + (bodyQ 5 0 1 1).r) * ((bodyQ 0 1 1 1).r + (bodyQ 5 0 1 1).r) ≤
      sqr ((bodyQ 0 1 1 1).p - (bodyQ 5 0 1 1).p) ∧
    (bodyQ 0 1 1 1).intersects (bodyQ 5 0 1 1) = false ∧
    (bodyQ 5 0 1 1).intersects (bodyQ 0 1 1 1) = false :=
  have h : insert_all [] [bodyQ 0 1 1 1, bodyQ 1 0 1 1, bodyQ 5 0 1 1] =
      [bodyQ 0 1 1 1, bodyQ 5 0 1 1] := by decide!
  ⟨h, by decide,
    insert_all_no_overlap [bodyQ 0 1 1 1, bodyQ 1 0 1 1, bodyQ 5 0 1 1] 0 1 (bodyQ 0 1 1 1)
      (bodyQ 5 0 1 1) (by decide) (by rw [h]; rfl) (by rw [h]; rfl)⟩


/-! ## Progress of the loop and the free body -/

theorem cap_scan_cons (L : Lib K D) (mdps R : K) (q : particle K D)
    (rest : List (particle K D)) (ft : K) :
    cap_scan L mdps R (q :: rest) ft = cap_scan L mdps R rest (cap_scan L mdps R [q] ft) := by
  simp only [cap_scan]
  cases step_time mdps (L.mod q.v) with
  | none => rfl
  | some s =>
    simp only
    split_ifs <;> rfl

/-- C17: in an iteration entered with remaining time `R > 0`, whatever `mdps` and the bodies
are, the chosen substep length `f` satisfies `0 < f ≤ R`, so the remaining time strictly
decreases and stays non-negative; one iteration of the cap loop or of the pair scan changes
the running substep length only to a candidate `s` with `R - s < R`; the next iteration
runs with the remaining time `R - f`. -/
theorem strict_progress (L : Lib K D) (min_time mdps R : K) (ps : space K D) (hR : 0 < R) :
    0 < (choose L min_time mdps R ps).forward_time ∧
    (choose L min_time mdps R ps).forward_time ≤ R ∧
    R - (choose L min_time mdps R ps).forward_time < R ∧
    0 ≤ R - (choose L min_time mdps R ps).forward_time ∧
    (∀ (q : particle K D) (rest : List (particle K D)) (ft : K),
      cap_scan L mdps R (q :: rest) ft = cap_scan L mdps R rest (cap_scan L mdps R [q] ft) ∧
      (cap_scan L mdps R [q] ft ≠ ft →
        step_time mdps (L.mod q.v) = some (cap_scan L mdps R [q] ft) ∧
        R - cap_scan L mdps R [q] ft < R)) ∧
    (∀ (i j : Nat) (ct : Option K) (st : ScanState K),
      (scan_step min_time R i j ct st).forward_time ≠ st.forward_time →
        ct = some (scan_step min_time R i j ct st).forward_time ∧
        R - (scan_step min_time R i j ct st).forward_time < R) ∧
    (∀ (G : K) (fuel : Nat), forward_loop L min_time mdps G (fuel + 1) R ps =
      forward_loop L min_time mdps G fuel (R - (choose L min_time mdps R ps).forward_time)
        (substep L min_time mdps G R ps)) := by
  have hpos := choose_pos L min_time mdps R ps hR
  have hle : (choose L min_time mdps R ps).forward_time ≤ R :=
    le_trans (scan_outer_le L min_time R ps 0 _) (cap_scan_le_init L mdps R ps R)
  refine ⟨hpos, hle, by linarith, by linarith, ?_, ?_, ?_⟩
  rotate_left 2
  · intro G fuel
    simp only [forward_loop, if_pos hR]
  · intro q rest ft
    refine ⟨cap_scan_cons L mdps R q rest ft, ?_⟩
    simp only [cap_scan]
    cases step_time mdps (L.mod q.v) with
    | none => intro h; exact absurd rfl h
    | some s =>
      simp only
      split_ifs with h
      · intro _; exact ⟨rfl, h.2⟩
      · intro h2; exact absurd rfl h2
  · intro i j ct st
    rw [scan_step_forward_time]
    cases ct with
    | none => intro h; exact absurd rfl h
    | some t =>
      simp only
      split_ifs with h
      · intro _; exact ⟨rfl, h.2⟩
      · intro h2; exact absurd rfl h2

/-- C17 (witness): on the rational line with `mdps = -1` and remaining time 10, a unit sphere
at 0 with velocity 1 and a unit sphere at rest at 5: the negative cap is ignored and the
substep length is the contact time 3. -/
theorem strict_progress_witness :
    (0 : ℚ) < 10 ∧
    (choose lineQ (1 / 100) (-1) 10 [bodyQ 0 1 1 1, bodyQ 5 0 1 1]).forward_time = 3 ∧
    0 < (choose lineQ (1 / 100) (-1) 10 [bodyQ 0 1 1 1, bodyQ 5 0 1 1]).forward_time ∧
    (choose lineQ (1 / 100) (-1) 10 [bodyQ 0 1 1 1, bodyQ 5 0 1 1]).forward_time ≤ 10 :=
  have H := strict_progress lineQ (1 / 100) (-1) 10 [bodyQ 0 1 1 1, bodyQ 5 0 1 1]
    (by norm_num)
  ⟨by norm_num, by decide!, H.1, H.2.1⟩

theorem choose_one (L : Lib K D) (min_time mdps R : K) (q : particle K D) :
    choose L min_time mdps R [q] =
      { forward_time := cap_scan L mdps R [q] R, collisions := [] } := rfl

theorem substep_one (L : Lib K D) (min_time mdps G R : K) (q : particle K D) (hd : q.dv = 0) :
    substep L min_time mdps G R [q] =
      [{ q with p := q.p + scale q.v (cap_scan L mdps R [q] R) }] := by
  have hg : ∀ (t : K) (x : particle K D), gravity_all L t G [x] = [x] := by
    intro t x
    simp [gravity_all, index_pairs, List.range_succ]
  simp only [substep, choose_one, resolve_nil, hg, List.map_cons, List.map_nil,
    particle.apply, particle.forward, hd, add_zero]

/-- A single body whose cap loop yields `min c R` for a fixed `c > 0` reaches the end of the
remaining time `R ≤ n·c` within `n` substeps of positive lengths that sum to `R`. -/
theorem one_body_flight (L : Lib K D) (min_time mdps G c T : K) (v : Vec K D) (hc : 0 < c)
    (hstep : ∀ (q : particle K D) (R : K), q.v = v → 0 < R → R ≤ T →
      cap_scan L mdps R [q] R = if c < R then c else R) :
    ∀ (n : Nat) (R : K) (q : particle K D), q.v = v → q.dv = 0 → 0 ≤ R → R ≤ T →
      R ≤ n * c →
      forward_loop L min_time mdps G n R [q] = some [{ q with p := q.p + scale q.v R }] ∧
      ∃ lens, forward_lengths L min_time mdps G n R [q] = some lens ∧ lens.sum = R ∧
        ∀ l ∈ lens, 0 < l := by
  have hstay : ∀ q : particle K D, ({ q with p := q.p + scale q.v 0 } : particle K D) = q := by
    intro q
    have h0 : q.p + scale q.v 0 = q.p := by
      funext i; simp [scale]
    rw [h0]
  intro n
  induction n with
  | zero =>
    intro R q _ _ hR _ hle
    have hR0 : R = 0 := le_antisymm (by simpa using hle) hR
    subst hR0
    simp [forward_loop, forward_lengths, hstay]
  | succ n ih =>
    intro R q hv hd hR hT hle
    rcases eq_or_lt_of_le hR with hR0 | hRpos
    · subst hR0
      simp [forward_loop, forward_lengths, hstay]
    · have hf := hstep q R hv hRpos hT
      simp only [forward_loop, forward_lengths, if_pos hRpos, choose_one,
        substep_one L min_time mdps G R q hd, hf]
      generalize hfdef : (if c < R then c else R) = f
      have hfpos : 0 < f := by
        rw [← hfdef]; split_ifs <;> assumption
      have hfle : f ≤ R := by
        rw [← hfdef]; split_ifs with h
        · exact le_of_lt h
        · exact le_refl _
      have hrem : R - f ≤ n * c := by
        rw [← hfdef]
        split_ifs with h
        · push_cast at hle
          linarith
        · have : 0 ≤ (n : K) * c := mul_nonneg (Nat.cast_nonneg n) (le_of_lt hc)
          linarith
      obtain ⟨h1, lens, h2, h3, h4⟩ := ih (R - f) { q with p := q.p + scale q.v f } hv hd
        (by linarith) (by linarith) hrem
      have e1 : q.p + scale q.v f + scale q.v (R - f) = q.p + scale q.v R := by
        funext i; simp [scale]; ring
      refine ⟨?_, f :: lens, ?_, ?_, ?_⟩
      · rw [h1]
        simp [e1]
      · rw [h2]; rfl
      · rw [List.sum_cons, h3]; ring
      · intro l hl
        rcases List.mem_cons.mp hl with h | h
        · rw [h]; exact hfpos
        · exact h4 l h

/-- C11: a single body with zero pending delta and any `time > 0`, `mdps`, `G`.  There is a
number `n` of loop iterations within which `forward(time, mdps, G)` returns: the substep
lengths are positive and sum to exactly `time`, and the body is left at `p + v·time` with its
velocity (and everything else) unchanged. -/
theorem free_body_exact_time [Archimedean K] (L : Lib K D) (q : particle K D)
    (time mdps G : K) (hd : q.dv = 0) (ht : 0 < time) :
    ∃ n : Nat, ∀ fuel : Nat, n ≤ fuel →
      space.forward L fuel [q] time mdps G = some [{ q with p := q.p + scale q.v time }] ∧
      ∃ lens, forward_lengths L (time * (1 / 1000)) mdps G fuel time [q] = some lens ∧
        lens.sum = time ∧ ∀ l ∈ lens, 0 < l := by
  have hcast : ∀ (n fuel : Nat) (c : K), 0 < c → n ≤ fuel → time ≤ n * c → time ≤ fuel * c := by
    intro n fuel c hc hnf hle
    have : (n : K) ≤ (fuel : K) := by exact_mod_cast hnf
    exact le_trans hle (mul_le_mul_of_nonneg_right this (le_of_lt hc))
  by_cases hcap : L.mod q.v ≠ 0 ∧ 0 < mdps / L.mod q.v
  · obtain ⟨hm, hc⟩ := hcap
    obtain ⟨n, hn⟩ := exists_nat_ge (time / (mdps / L.mod q.v))
    have hn2 : time ≤ n * (mdps / L.mod q.v) := (div_le_iff₀ hc).mp hn
    refine ⟨n, fun fuel hfuel => ?_⟩
    exact one_body_flight L _ mdps G (mdps / L.mod q.v) time q.v hc
      (by
        intro x R hx _ _
        have hg : R - mdps / L.mod q.v < R := by linarith
        simp only [cap_scan, step_time, hx, if_neg hm]
        by_cases h : mdps / L.mod q.v < R
        · simp [h, hg]
        · simp [h])
      fuel time q rfl hd (le_of_lt ht) (le_refl _) (hcast n fuel _ hc hfuel hn2)
  · refine ⟨1, fun fuel hfuel => ?_⟩
    exact one_body_flight L _ mdps G time time q.v ht
      (by
        intro x R hx hR hRT
        have hnot : ¬ (time < R) := not_lt.mpr hRT
        rw [if_neg hnot]
        by_cases h0 : L.mod q.v = 0
        · simp [cap_scan, step_time, hx, h0]
        · have hneg : ¬ (0 < mdps / L.mod q.v) := fun h => hcap ⟨h0, h⟩
          have hg : ¬ (R - mdps / L.mod q.v < R) := fun h => hneg (by linarith)
          simp [cap_scan, step_time, hx, h0, hg])
      fuel time q rfl hd (le_of_lt ht) (le_refl _) (hcast 1 fuel _ ht hfuel (by simp))

/-- C11 (witness): a body on the rational line at 2 with velocity 3; `forward(1, 1, 5)` takes
three substeps of length 1/3 and leaves the body at 5. -/
theorem free_body_exact_time_witness :
    (bodyQ 2 3 1 1).dv = 0 ∧ (0 : ℚ) < 1 ∧
    space.forward lineQ 3 [bodyQ 2 3 1 1] 1 1 5 = some [bodyQ 5 3 1 1] ∧
    forward_lengths lineQ (1 * (1 / 1000)) 1 5 3 1 [bodyQ 2 3 1 1] = some [1 / 3, 1 / 3, 1 / 3] ∧
    ∃ n : Nat, ∀ fuel : Nat, n ≤ fuel →
      space.forward lineQ fuel [bodyQ 2 3 1 1] 1 1 5 =
        some [{ bodyQ 2 3 1 1 with p := (bodyQ 2 3 1 1).p + scale (bodyQ 2 3 1 1).v 1 }] ∧
      ∃ lens, forward_lengths lineQ (1 * (1 / 1000)) 1 5 fuel 1 [bodyQ 2 3 1 1] = some lens ∧
        lens.sum = 1 ∧ ∀ l ∈ lens, 0 < l :=
  ⟨rfl, by norm_num, by decide!, by decide!,
    free_body_exact_time lineQ (bodyQ 2 3 1 1) 1 1 5 rfl (by norm_num)⟩


/-! ## The collision group -/

theorem pairs_nil : CollisionMap.pairs [] = [] := rfl

theorem pairs_cons (k : Nat) (js : List Nat) (rest : CollisionMap) :
    CollisionMap.pairs ((k, js) :: rest) =
      js.map (fun j => (k, j)) ++ CollisionMap.pairs rest := by
  simp [CollisionMap.pairs]

theorem mem_pairs_push (c : CollisionMap) (i j : Nat) (p : Nat × Nat) :
    p ∈ (CollisionMap.push c i j).pairs ↔ p ∈ c.pairs ∨ p = (i, j) := by
  induction c with
  | nil => simp [CollisionMap.push, CollisionMap.pairs]
  | cons e rest ih =>
    obtain ⟨k, js⟩ := e
    simp only [CollisionMap.push]
    split_ifs with h1 h2
    · rw [pairs_cons, pairs_cons]
      simp only [List.map_cons, List.map_nil, List.mem_append, List.mem_cons,
        List.not_mem_nil, or_false, pairs_cons]
      tauto
    · subst h2
      rw [pairs_cons, pairs_cons]
      simp only [List.map_append, List.map_cons, List.map_nil, List.mem_append, List.mem_cons,
        List.not_mem_nil, or_false]
      tauto
    · rw [pairs_cons, pairs_cons]
      simp only [List.mem_append, ih]
      tauto

/-- One iteration of the pair scan keeps the scan invariant. -/
theorem scan_step_inv (T : Nat → Nat → Option K) (eps R : K) (S : Nat → Nat → Prop)
    (st : ScanState K) (i j : Nat) (ct : Option K) (hT : T i j = ct)
    (hguard : ∀ t, ct = some t → R - t < R) (h : scan_inv T eps S st) :
    scan_inv T eps (fun x y => S x y ∨ (x = i ∧ y = j)) (scan_step eps R i j ct st) := by
  obtain ⟨h1, h2⟩ := h
  cases ct with
  | none =>
    refine ⟨fun p hp => ?_, fun x y t hS hTx hle => ?_⟩
    · obtain ⟨hs, ht⟩ := h1 p hp
      exact ⟨Or.inl hs, ht⟩
    · rcases hS with hS | ⟨rfl, rfl⟩
      · exact h2 x y t hS hTx hle
      · rw [hT] at hTx; cases hTx
  | some t0 =>
    have hg := hguard t0 rfl
    simp only [scan_step]
    by_cases hlt : t0 < st.forward_time
    · rw [if_pos ⟨hlt, hg⟩]
      by_cases hclear : st.forward_time > t0 + eps
      · rw [if_pos hclear]
        refine ⟨fun p hp => ?_, fun x y t hS hTx hle => ?_⟩
        · have hp2 : p = (i, j) := by
            simpa [CollisionMap.push, CollisionMap.pairs] using hp
          subst hp2
          exact ⟨Or.inr ⟨rfl, rfl⟩, t0, hT, le_refl _⟩
        · simp only at hle
          rcases hS with hS | ⟨rfl, rfl⟩
          · exfalso
            have hmem := h2 x y t hS hTx (by linarith)
            obtain ⟨-, t1, ht1, hle1⟩ := h1 (x, y) hmem
            simp only at ht1
            rw [hTx] at ht1
            cases ht1
            linarith
          · simp [CollisionMap.push, CollisionMap.pairs]
      · rw [if_neg hclear]
        refine ⟨fun p hp => ?_, fun x y t hS hTx hle => ?_⟩
        · rcases (mem_pairs_push _ _ _ _).mp hp with hp | hp
          · obtain ⟨hs, t1, ht1, hle1⟩ := h1 p hp
            exact ⟨Or.inl hs, t1, ht1, by simp only; linarith⟩
          · subst hp
            exact ⟨Or.inr ⟨rfl, rfl⟩, t0, hT, le_refl _⟩
        · simp only at hle
          rcases hS with hS | ⟨rfl, rfl⟩
          · exact (mem_pairs_push _ _ _ _).mpr (Or.inl (h2 x y t hS hTx (by linarith)))
          · exact (mem_pairs_push _ _ _ _).mpr (Or.inr rfl)
    · have hn : ¬ (t0 < st.forward_time ∧ R - t0 < R) := fun hc => hlt hc.1
      rw [if_neg hn]
      by_cases hwin : t0 ≥ st.forward_time ∧ t0 ≤ st.forward_time + eps
      · rw [if_pos hwin]
        refine ⟨fun p hp => ?_, fun x y t hS hTx hle => ?_⟩
        · rcases (mem_pairs_push _ _ _ _).mp hp with hp | hp
          · obtain ⟨hs, ht⟩ := h1 p hp
            exact ⟨Or.inl hs, ht⟩
          · subst hp
            exact ⟨Or.inr ⟨rfl, rfl⟩, t0, hT, hwin.1⟩
        · rcases hS with hS | ⟨rfl, rfl⟩
          · exact (mem_pairs_push _ _ _ _).mpr (Or.inl (h2 x y t hS hTx hle))
          · exact (mem_pairs_push _ _ _ _).mpr (Or.inr rfl)
      · rw [if_neg hwin]
        refine ⟨fun p hp => ?_, fun x y t hS hTx hle => ?_⟩
        · obtain ⟨hs, ht⟩ := h1 p hp
          exact ⟨Or.inl hs, ht⟩
        · rcases hS with hS | ⟨rfl, rfl⟩
          · exact h2 x y t hS hTx hle
          · exfalso
            rw [hT] at hTx
            cases hTx
            exact hwin ⟨not_lt.mp hlt, hle⟩

theorem scan_inv_congr (T : Nat → Nat → Option K) (eps : K) (S S1 : Nat → Nat → Prop)
    (st : ScanState K) (hS : ∀ x y, S x y ↔ S1 x y) (h : scan_inv T eps S st) :
    scan_inv T eps S1 st := by
  obtain ⟨h1, h2⟩ := h
  refine ⟨fun p hp => ?_, fun x y t hx hTx hle => h2 x y t ((hS x y).mpr hx) hTx hle⟩
  obtain ⟨hs, ht⟩ := h1 p hp
  exact ⟨(hS _ _).mp hs, ht⟩

theorem scan_inner_inv (L : Lib K D) (T : Nat → Nat → Option K) (eps R : K)
    (a : particle K D) (i : Nat) (rest : List (particle K D)) :
    ∀ (j0 : Nat) (S : Nat → Nat → Prop) (st : ScanState K),
      (∀ (k : Nat) (b : particle K D), rest[k]? = some b →
        T i (j0 + k) = a.collision_time_with L b) →
      scan_inv T eps S st →
      scan_inv T eps (fun x y => S x y ∨ (x = i ∧ j0 ≤ y ∧ y < j0 + rest.length))
        (scan_inner L eps R a i j0 rest st) := by
  induction rest with
  | nil =>
    intro j0 S st _ h
    refine scan_inv_congr T eps S _ st (fun x y => ?_) h
    simp only [List.length_nil, add_zero]
    constructor
    · intro hs; exact Or.inl hs
    · rintro (hs | ⟨-, h1, h2⟩)
      · exact hs
      · omega
  | cons b rest ih =>
    intro j0 S st hT h
    simp only [scan_inner]
    have hstep := scan_step_inv T eps R S st i j0 (a.collision_time_with L b)
      (by simpa using hT 0 b (by simp))
      (fun t ht => by
        have := collision_time_with_pos L a b t ht
        linarith) h
    have hrest := ih (j0 + 1) _ _
      (fun k c hc => by
        have := hT (k + 1) c (by simpa using hc)
        rw [← this]
        congr 1
        omega) hstep
    refine scan_inv_congr T eps _ _ _ (fun x y => ?_) hrest
    simp only [List.length_cons]
    constructor
    · rintro ((hs | ⟨h1, h2⟩) | ⟨h1, h2, h3⟩)
      · exact Or.inl hs
      · exact Or.inr ⟨h1, by omega, by omega⟩
      · exact Or.inr ⟨h1, by omega, by omega⟩
    · rintro (hs | ⟨h1, h2, h3⟩)
      · exact Or.inl (Or.inl hs)
      · by_cases hy : y = j0
        · exact Or.inl (Or.inr ⟨h1, hy⟩)
        · exact Or.inr ⟨h1, by omega, by omega⟩

theorem scan_outer_inv (L : Lib K D) (T : Nat → Nat → Option K) (eps R : K)
    (l : List (particle K D)) :
    ∀ (i0 : Nat) (S : Nat → Nat → Prop) (st : ScanState K),
      (∀ (m k : Nat) (a b : particle K D), l[m]? = some a → l[m + 1 + k]? = some b →
        T (i0 + m) (i0 + m + 1 + k) = a.collision_time_with L b) →
      scan_inv T eps S st →
      scan_inv T eps (fun x y => S x y ∨ (i0 ≤ x ∧ x < y ∧ y < i0 + l.length))
        (scan_outer L eps R i0 l st) := by
  induction l with
  | nil =>
    intro i0 S st _ h
    refine scan_inv_congr T eps S _ st (fun x y => ?_) h
    simp only [List.length_nil, add_zero]
    constructor
    · intro hs; exact Or.inl hs
    · rintro (hs | ⟨h1, h2, h3⟩)
      · exact hs
      · omega
  | cons a rest ih =>
    intro i0 S st hT h
    simp only [scan_outer]
    have hin := scan_inner_inv L T eps R a i0 rest (i0 + 1) S st
      (fun k b hb => by
        have := hT 0 k a b (by simp) (by simpa [Nat.add_comm] using hb)
        rw [← this]
        congr 1)
      h
    have hout := ih (i0 + 1) _ _
      (fun m k x y hx hy => by
        have := hT (m + 1) k x y (by simpa using hx)
          (by
            have e : m + 1 + 1 + k = (m + 1 + k) + 1 := by omega
            rw [e]
            simpa using hy)
        rw [← this]
        congr 1 <;> omega)
      hin
    refine scan_inv_congr T eps _ _ _ (fun x y => ?_) hout
    simp only [List.length_cons]
    constructor
    · rintro ((hs | ⟨h1, h2, h3⟩) | ⟨h1, h2, h3⟩)
      · exact Or.inl hs
      · exact Or.inr ⟨by omega, by omega, by omega⟩
      · exact Or.inr ⟨by omega, by omega, by omega⟩
    · rintro (hs | ⟨h1, h2, h3⟩)
      · exact Or.inl (Or.inl hs)
      · by_cases hx : x = i0
        · exact Or.inl (Or.inr ⟨hx, by omega, by omega⟩)
        · exact Or.inr ⟨by omega, by omega, by omega⟩

/-- At the end of the pair scan the scan invariant holds for all pairs `i < j < len`. -/
theorem choose_inv (L : Lib K D) (eps mdps R : K) (ps : space K D) :
    scan_inv (pair_time L ps) eps (fun x y => x < y ∧ y < ps.length)
      (choose L eps mdps R ps) := by
  have h0 : scan_inv (pair_time L ps) eps (fun _ _ => False)
      { forward_time := cap_scan L mdps R ps R, collisions := [] } :=
    ⟨fun p hp => by simp [CollisionMap.pairs] at hp, fun _ _ _ hS _ _ => hS.elim⟩
  have h := scan_outer_inv L (pair_time L ps) eps R ps 0 _ _
    (fun m k a b ha hb => by
      simp only [pair_time, Nat.zero_add, ha, hb]) h0
  refine scan_inv_congr _ eps _ _ _ (fun x y => ?_) h
  simp


theorem resolve_split (L : Lib K D) (c : CollisionMap) (ps : space K D) (i j : Nat)
    (h : (i, j) ∈ c.pairs) :
    ∃ l1 l2, c.pairs = l1 ++ (i, j) :: l2 ∧
      resolve L c ps =
        l2.foldl (fun acc ij => update_pair (fun a b => a.collide L b) ij.1 ij.2 acc)
          (update_pair (fun a b => a.collide L b) i j
            (l1.foldl (fun acc ij => update_pair (fun a b => a.collide L b) ij.1 ij.2 acc) ps)) := by
  obtain ⟨l1, l2, h12⟩ := List.append_of_mem h
  refine ⟨l1, l2, h12, ?_⟩
  simp only [resolve, h12, List.foldl_append, List.foldl_cons]

/-- C15: at the end of the pair scan of a substep, with `f` the chosen substep length, every
pair `i < j` whose predicted contact time `t` satisfies `t ≤ f + eps` (`f ≤ t` holds for every
pair) is in the collision group, and the collision loop therefore runs `collide` on it: the
loop is the fold over the grouped pairs, and `(i, j)` is one of them. -/
theorem group_complete (L : Lib K D) (eps mdps R : K) (ps : space K D) (i j : Nat)
    (a b : particle K D) (t : K) (hij : i < j) (ha : ps[i]? = some a) (hb : ps[j]? = some b)
    (ht : a.collision_time_with L b = some t)
    (hhi : t ≤ (choose L eps mdps R ps).forward_time + eps) :
    (i, j) ∈ (choose L eps mdps R ps).collisions.pairs ∧
    ∀ moved : space K D, ∃ l1 l2,
      (choose L eps mdps R ps).collisions.pairs = l1 ++ (i, j) :: l2 ∧
      resolve L (choose L eps mdps R ps).collisions moved =
        l2.foldl (fun acc ij => update_pair (fun a b => a.collide L b) ij.1 ij.2 acc)
          (update_pair (fun a b => a.collide L b) i j
            (l1.foldl (fun acc ij => update_pair (fun a b => a.collide L b) ij.1 ij.2 acc)
              moved)) := by
  have hmem : (i, j) ∈ (choose L eps mdps R ps).collisions.pairs := by
    have hj : j < ps.length := (List.getElem?_eq_some.mp hb).1
    exact (choose_inv L eps mdps R ps).2 i j t ⟨hij, hj⟩ (by simp [pair_time, ha, hb, ht]) hhi
  exact ⟨hmem, fun moved => resolve_split L _ moved i j hmem⟩

/-- C15 (witness): unit spheres on the rational line at 0, 5, 10 with velocities 1, 0, -1,
remaining time 10 and `eps = 1/100`: the chosen length is 3 and the pair `(1, 2)`, whose
contact time is 3, is in the group. -/
theorem group_complete_witness :
    (choose lineQ (1 / 100) 5 10
      [bodyQ 0 1 1 1, bodyQ 5 0 1 1, bodyQ 10 (-1) 1 1]).forward_time = 3 ∧
    (bodyQ 5 0 1 1).collision_time_with lineQ (bodyQ 10 (-1) 1 1) = some 3 ∧
    (1, 2) ∈ (choose lineQ (1 / 100) 5 10
      [bodyQ 0 1 1 1, bodyQ 5 0 1 1, bodyQ 10 (-1) 1 1]).collisions.pairs :=
  have hf : (choose lineQ (1 / 100) 5 10
      [bodyQ 0 1 1 1, bodyQ 5 0 1 1, bodyQ 10 (-1) 1 1]).forward_time = 3 := by decide!
  have ht : (bodyQ 5 0 1 1).collision_time_with lineQ (bodyQ 10 (-1) 1 1) = some 3 := by
    decide!
  ⟨hf, ht,
    (group_complete lineQ (1 / 100) 5 10 [bodyQ 0 1 1 1, bodyQ 5 0 1 1, bodyQ 10 (-1) 1 1] 1 2
      (bodyQ 5 0 1 1) (bodyQ 10 (-1) 1 1) 3 (by decide) rfl rfl ht
      (by rw [hf]; norm_num)).1⟩

/-- C16 (failing input): unit spheres of mass 1 on the rational line at 0, 22 and 45/4 with
velocities 1, -1 and 0, and `forward(1000, 1000, 0)`, so epsilon is 1.  The pairs `(0, 1)`,
`(0, 2)`, `(1, 2)` have the contact times 10, 37/4 and 35/4; each lowers the running length
by less than epsilon, so the group is never cleared.  The substep has length 35/4 and
`collide` runs on the pair `(0, 1)`, whose contact time is 5/4 > epsilon later: the first two
bodies leave the substep with velocities -2 and 2 while their centers are 9/2 apart. -/
theorem group_chain_exceeds_epsilon :
    (choose lineQ (1000 * (1 / 1000)) 1000 1000
      [bodyQ 0 1 1 1, bodyQ 22 (-1) 1 1, bodyQ (45 / 4) 0 1 1]).forward_time = 35 / 4 ∧
    (choose lineQ (1000 * (1 / 1000)) 1000 1000
      [bodyQ 0 1 1 1, bodyQ 22 (-1) 1 1, bodyQ (45 / 4) 0 1 1]).collisions.pairs =
      [(0, 1), (0, 2), (1, 2)] ∧
    (bodyQ 0 1 1 1).collision_time_with lineQ (bodyQ 22 (-1) 1 1) = some 10 ∧
    (bodyQ 0 1 1 1).collision_time_with lineQ (bodyQ (45 / 4) 0 1 1) = some (37 / 4) ∧
    (bodyQ 22 (-1) 1 1).collision_time_with lineQ (bodyQ (45 / 4) 0 1 1) = some (35 / 4) ∧
    (1000 : ℚ) * (1 / 1000) < |10 - 35 / 4| ∧
    substep lineQ (1000 * (1 / 1000)) 1000 0 1000
        [bodyQ 0 1 1 1, bodyQ 22 (-1) 1 1, bodyQ (45 / 4) 0 1 1] =
      [bodyQ (35 / 4) (-2) 1 1, bodyQ (53 / 4) 2 1 1, bodyQ (45 / 4) 0 1 1] := by
  refine ⟨by decide!, by decide!, by decide!, by decide!, by decide!, ?_, by decide!⟩
  rw [abs_of_pos (by norm_num)]
  norm_num

/-- C14 (counterexample): unit spheres on the rational line at 0, 22 and 45/4 with
velocities 1, -1 and 0, remaining time 1000 and epsilon 1.  After the pair `(0, 1)` the
running substep length is 10; the contact time 37/4 of the pair `(0, 2)` lies within epsilon
below it.  The pair is added to the group, but the substep length does not stay 10: it
becomes 37/4. -/
theorem epsilon_below_lowers_length :
    (scan_step (1000 * (1 / 1000)) 1000 0 1
      ((bodyQ 0 1 1 1).collision_time_with lineQ (bodyQ 22 (-1) 1 1))
      { forward_time := cap_scan lineQ 1000 1000
          [bodyQ 0 1 1 1, bodyQ 22 (-1) 1 1, bodyQ (45 / 4) 0 1 1] 1000,
        collisions := [] }).forward_time = 10 ∧
    (scan_step (1000 * (1 / 1000)) 1000 0 1
      ((bodyQ 0 1 1 1).collision_time_with lineQ (bodyQ 22 (-1) 1 1))
      { forward_time := cap_scan lineQ 1000 1000
          [bodyQ 0 1 1 1, bodyQ 22 (-1) 1 1, bodyQ (45 / 4) 0 1 1] 1000,
        collisions := [] }).collisions = [(0, [1])] ∧
    (bodyQ 0 1 1 1).collision_time_with lineQ (bodyQ (45 / 4) 0 1 1) = some (37 / 4) ∧
    |(37 / 4 : ℚ) - 10| ≤ 1000 * (1 / 1000) ∧
    (scan_step (1000 * (1 / 1000)) 1000 0 2
      ((bodyQ 0 1 1 1).collision_time_with lineQ (bodyQ (45 / 4) 0 1 1))
      { forward_time := 10, collisions := [(0, [1])] }).collisions = [(0, [1, 2])] ∧
    (scan_step (1000 * (1 / 1000)) 1000 0 2
      ((bodyQ 0 1 1 1).collision_time_with lineQ (bodyQ (45 / 4) 0 1 1))
      { forward_time := 10, collisions := [(0, [1])] }).forward_time = 37 / 4 ∧
    (scan_step (1000 * (1 / 1000)) 1000 0 2
      ((bodyQ 0 1 1 1).collision_time_with lineQ (bodyQ (45 / 4) 0 1 1))
      { forward_time := 10, collisions := [(0, [1])] }).forward_time ≠ 10 := by
  refine ⟨by decide!, by decide!, by decide!, ?_, by decide!, by decide!, by decide!⟩
  rw [abs_of_neg (by norm_num)]
  norm_num

/-- C14 (amended): in the pair scan, for a pair with a finite contact time `t` that passes
the precision guard.  If `t` lies within `eps` above the running substep length
(`ft ≤ t ≤ ft + eps`), the pair is added to the group and the length is left unchanged.  If
`t` lies within `eps` below it (`t < ft ≤ t + eps`), the pair is added to the group, which is
kept, and the length is lowered to `t`. -/
theorem epsilon_grouping (eps R : K) (i j : Nat) (t : K) (st : ScanState K) :
    (st.forward_time ≤ t → t ≤ st.forward_time + eps →
      scan_step eps R i j (some t) st =
        { forward_time := st.forward_time,
          collisions := CollisionMap.push st.collisions i j }) ∧
    (R - t < R → t < st.forward_time → st.forward_time ≤ t + eps →
      scan_step eps R i j (some t) st =
        { forward_time := t, collisions := CollisionMap.push st.collisions i j }) ∧
    (∀ p, p ∈ (CollisionMap.push st.collisions i j).pairs ↔
      p ∈ st.collisions.pairs ∨ p = (i, j)) := by
  refine ⟨fun h1 h2 => ?_, fun hguard h1 h2 => ?_, fun p => mem_pairs_push _ _ _ _⟩
  · have hn : ¬ (t < st.forward_time ∧ R - t < R) := fun hc => absurd hc.1 (not_lt.mpr h1)
    simp only [scan_step, if_neg hn]
    rw [if_pos ⟨h1, h2⟩]
  · have hc : ¬ (st.forward_time > t + eps) := not_lt.mpr h2
    simp only [scan_step, if_pos (And.intro h1 hguard), if_neg hc]

/-- C14 (witness): running length 10, group `(0, 1)`, epsilon 1, remaining time 1000: a pair
`(0, 2)` with contact time 21/2 is added and the length stays 10; with contact time 37/4 it
is added and the length becomes 37/4. -/
theorem epsilon_grouping_witness :
    (1000 : ℚ) - 21 / 2 < 1000 ∧ (1000 : ℚ) - 37 / 4 < 1000 ∧
    scan_step (1 : ℚ) 1000 0 2 (some (21 / 2)) { forward_time := 10, collisions := [(0, [1])] } =
      { forward_time := 10, collisions := CollisionMap.push [(0, [1])] 0 2 } ∧
    scan_step (1 : ℚ) 1000 0 2 (some (37 / 4)) { forward_time := 10, collisions := [(0, [1])] } =
      { forward_time := 37 / 4, collisions := CollisionMap.push [(0, [1])] 0 2 } ∧
    CollisionMap.pairs (CollisionMap.push [(0, [1])] 0 2) = [(0, 1), (0, 2)] :=
  ⟨by norm_num, by norm_num,
    (epsilon_grouping (1 : ℚ) 1000 0 2 (21 / 2)
      { forward_time := 10, collisions := [(0, [1])] }).1 (by norm_num) (by norm_num),
    (epsilon_grouping (1 : ℚ) 1000 0 2 (37 / 4)
      { forward_time := 10, collisions := [(0, [1])] }).2.1 (by norm_num) (by norm_num)
      (by norm_num),
    by decide⟩


/-! ## Order independence of the staged interactions -/

theorem stage_fn_shift (L : Lib K D) (ft G : K) (s : Stage) (a b : particle K D)
    (ea eb : Vec K D) :
    stage_fn L ft G s { a with dv := a.dv + ea } { b with dv := b.dv + eb } =
      ({ a with dv := a.dv + ea + ((stage_fn L ft G s a b).1.dv - a.dv) },
       { b with dv := b.dv + eb + ((stage_fn L ft G s a b).2.dv - b.dv) }) := by
  have e : ∀ x y z : Vec K D, x + y + (x + z - x) = x + y + z := by
    intro x y z; funext i; simp only [Pi.add_apply, Pi.sub_apply]; ring
  simp only [stage_fn]
  cases s.gravity
  · simp only [particle.collide, Bool.false_eq_true, if_false]
    split_ifs <;> simp [e]
  · simp only [particle.gravity, if_true]
    split_ifs <;> simp [e]

theorem run_stage_shifted (L : Lib K D) (ft G : K) (ps0 cur : space K D) (acc : Nat → Vec K D)
    (s : Stage) (hs : s.i ≠ s.j)
    (h : ∀ n : Nat, cur[n]? =
      (ps0[n]?).map (fun q : particle K D => { q with dv := q.dv + acc n })) :
    ∀ n : Nat, (run_stage L ft G cur s)[n]? =
      (ps0[n]?).map (fun q : particle K D =>
        { q with dv := q.dv + (acc n + stage_delta L ft G ps0 s n) }) := by
  intro n
  have hz : ∀ x : Vec K D, x + 0 = x := fun x => add_zero x
  have hi := h s.i
  have hj := h s.j
  cases hai : ps0[s.i]? with
  | none =>
    rw [hai] at hi
    simp only [Option.map_none'] at hi
    simp only [run_stage, update_pair, hi, stage_delta, hai, hz]
    exact h n
  | some a0 =>
    cases hbj : ps0[s.j]? with
    | none =>
      rw [hbj] at hj
      simp only [Option.map_none'] at hj
      simp only [run_stage, update_pair, hj, stage_delta, hai, hbj, hz]
      cases cur[s.i]? <;> exact h n
    | some b0 =>
      rw [hai] at hi
      rw [hbj] at hj
      simp only [Option.map_some'] at hi hj
      have hilt : s.i < cur.length := (List.getElem?_eq_some.mp hi).1
      have hjlt : s.j < cur.length := (List.getElem?_eq_some.mp hj).1
      simp only [run_stage, update_pair, hi, hj, stage_fn_shift, stage_delta, hai, hbj]
      rw [List.getElem?_set]
      by_cases hnj : s.j = n
      · subst hnj
        rw [if_pos rfl, if_pos (by simpa using hjlt), hbj, if_neg (Ne.symm hs), if_pos rfl]
        simp only [Option.map_some', add_assoc]
      · rw [if_neg hnj, List.getElem?_set]
        by_cases hni : s.i = n
        · subst hni
          rw [if_pos rfl, if_pos hilt, hai, if_pos rfl]
          simp only [Option.map_some', add_assoc]
        · rw [if_neg hni, if_neg (Ne.symm hni), if_neg (Ne.symm hnj), hz]
          exact h n

/-- Folding any list of stages (each on a pair of two different indices) over a member list
adds to the pending delta of every body the sum of the contributions of the stages, each
computed from the positions, velocities and masses of the initial list. -/
theorem foldl_stage_sum (L : Lib K D) (ft G : K) (ps0 : space K D) (l : List Stage) :
    ∀ (cur : space K D) (acc : Nat → Vec K D), (∀ s ∈ l, s.i ≠ s.j) →
      (∀ n : Nat, cur[n]? =
        (ps0[n]?).map (fun q : particle K D => { q with dv := q.dv + acc n })) →
      ∀ n : Nat, (l.foldl (run_stage L ft G) cur)[n]? =
        (ps0[n]?).map (fun q : particle K D => { q with dv := q.dv +
          (acc n + (l.map (fun s => stage_delta L ft G ps0 s n)).sum) }) := by
  induction l with
  | nil =>
    intro cur acc _ h n
    simp only [List.foldl_nil, List.map_nil, List.sum_nil, add_zero]
    exact h n
  | cons s rest ih =>
    intro cur acc hne h n
    simp only [List.foldl_cons, List.map_cons, List.sum_cons]
    have h1 := run_stage_shifted L ft G ps0 cur acc s (hne s (List.mem_cons_self _ _)) h
    have h2 := ih (run_stage L ft G cur s) _ (fun x hx => hne x (List.mem_cons_of_mem _ hx)) h1 n
    rw [h2]
    simp only [add_assoc]

theorem mem_index_pairs (len i j : Nat) (h : (i, j) ∈ index_pairs len) : i < j ∧ j < len := by
  simp only [index_pairs, List.mem_flatMap, List.mem_range, List.mem_map, List.mem_range',
    Prod.mk.injEq] at h
  obtain ⟨a, ha, b, ⟨k, hk, rfl⟩, rfl, rfl⟩ := h
  omega

theorem resolve_eq_stages (L : Lib K D) (ft G : K) (c : CollisionMap) (ps : space K D) :
    resolve L c ps =
      (c.pairs.map (fun ij => ({ gravity := false, i := ij.1, j := ij.2 } : Stage))).foldl
        (run_stage L ft G) ps := by
  have hfn : ∀ ij : Nat × Nat,
      stage_fn L ft G ({ gravity := false, i := ij.1, j := ij.2 } : Stage) =
        fun a b => a.collide L b := by
    intro ij; funext a b; simp [stage_fn]
  simp only [resolve, List.foldl_map, run_stage, hfn]

theorem gravity_all_eq_stages (L : Lib K D) (ft G : K) (ps : space K D) :
    gravity_all L ft G ps =
      ((index_pairs ps.length).map
        (fun ij => ({ gravity := true, i := ij.1, j := ij.2 } : Stage))).foldl
        (run_stage L ft G) ps := by
  have hfn : ∀ ij : Nat × Nat,
      stage_fn L ft G ({ gravity := true, i := ij.1, j := ij.2 } : Stage) =
        fun a b => a.gravity L b ft G := by
    intro ij; funext a b; simp [stage_fn]
  simp only [gravity_all, List.foldl_map, run_stage, hfn]

theorem resolve_length (L : Lib K D) (c : CollisionMap) (ps : space K D) :
    (resolve L c ps).length = ps.length := by
  have h := congrArg List.length
    (resolve_map L (fun _ : particle K D => ()) (fun _ _ => ⟨rfl, rfl⟩) c ps)
  simpa using h

/-- The stages of a substep act on pairs of two different indices. -/
theorem substep_stages_ne (L : Lib K D) (eps mdps R : K) (ps : space K D) :
    ∀ s ∈ substep_stages (choose L eps mdps R ps).collisions ps.length, s.i ≠ s.j := by
  intro s hs
  simp only [substep_stages, List.mem_append, List.mem_map] at hs
  rcases hs with ⟨ij, hij, rfl⟩ | ⟨ij, hij, rfl⟩
  · have := ((choose_inv L eps mdps R ps).1 ij hij).1
    exact Nat.ne_of_lt this.1
  · exact Nat.ne_of_lt (mem_index_pairs _ _ _ hij).1

/-- C18: the stages of a substep (the grouped collisions and the gravity pairs) may be
processed in any order `l`.  After all of them the pending delta of every body is its
pending delta after the move plus the sum of the contributions of the stages, each computed
from the post-move positions and the pre-substep velocities; the member list is the one the
source order produces, and so is the list after `apply`. -/
theorem staging_order_independent (L : Lib K D) (eps mdps G R : K) (ps : space K D)
    (l : List Stage)
    (hl : l.Perm (substep_stages (choose L eps mdps R ps).collisions ps.length)) :
    (∀ n : Nat,
      (l.foldl (run_stage L (choose L eps mdps R ps).forward_time G)
        (ps.map (fun q => q.forward (choose L eps mdps R ps).forward_time)))[n]? =
      ((ps.map (fun q => q.forward (choose L eps mdps R ps).forward_time))[n]?).map
        (fun q : particle K D => { q with dv := q.dv +
          (l.map (fun s => stage_delta L (choose L eps mdps R ps).forward_time G
            (ps.map (fun q => q.forward (choose L eps mdps R ps).forward_time)) s n)).sum })) ∧
    l.foldl (run_stage L (choose L eps mdps R ps).forward_time G)
        (ps.map (fun q => q.forward (choose L eps mdps R ps).forward_time)) =
      gravity_all L (choose L eps mdps R ps).forward_time G
        (resolve L (choose L eps mdps R ps).collisions
          (ps.map (fun q => q.forward (choose L eps mdps R ps).forward_time))) ∧
    (l.foldl (run_stage L (choose L eps mdps R ps).forward_time G)
        (ps.map (fun q => q.forward (choose L eps mdps R ps).forward_time))).map
        (fun q => q.apply) =
      substep L eps mdps G R ps := by
  generalize hf : (choose L eps mdps R ps).forward_time = f
  generalize hm : ps.map (fun q => q.forward f) = moved
  have hlen : moved.length = ps.length := by rw [← hm, List.length_map]
  have hne := substep_stages_ne L eps mdps R ps
  have hbase : ∀ n : Nat, moved[n]? =
      (moved[n]?).map (fun q : particle K D => { q with dv := q.dv + (fun _ => 0) n }) := by
    intro n
    cases moved[n]? with
    | none => rfl
    | some q => simp
  have hsum : ∀ (l1 : List Stage), (∀ s ∈ l1, s.i ≠ s.j) → ∀ n : Nat,
      (l1.foldl (run_stage L f G) moved)[n]? =
        (moved[n]?).map (fun q : particle K D => { q with dv := q.dv +
          (l1.map (fun s => stage_delta L f G moved s n)).sum }) := by
    intro l1 h1 n
    have := foldl_stage_sum L f G moved l1 moved (fun _ => 0) h1 hbase n
    simpa using this
  have hl_ne : ∀ s ∈ l, s.i ≠ s.j := fun s hs => hne s (hl.mem_iff.mp hs)
  have horder : l.foldl (run_stage L f G) moved =
      (substep_stages (choose L eps mdps R ps).collisions ps.length).foldl
        (run_stage L f G) moved := by
    apply List.ext_getElem?
    intro n
    rw [hsum l hl_ne n, hsum _ hne n]
    have hp : (l.map (fun s => stage_delta L f G moved s n)).sum =
        ((substep_stages (choose L eps mdps R ps).collisions ps.length).map
          (fun s => stage_delta L f G moved s n)).sum := (hl.map _).sum_eq
    rw [hp]
  have hsrc : (substep_stages (choose L eps mdps R ps).collisions ps.length).foldl
      (run_stage L f G) moved =
      gravity_all L f G (resolve L (choose L eps mdps R ps).collisions moved) := by
    rw [gravity_all_eq_stages, resolve_length, hlen, resolve_eq_stages L f G]
    simp only [substep_stages, List.foldl_append]
  refine ⟨hsum l hl_ne, horder.trans hsrc, ?_⟩
  rw [horder, hsrc]
  simp only [substep, hf, hm]

/-- C18 (witness): unit spheres on the rational line at 0, 5, 10 with velocities 1, 0, -1,
remaining time 10, `G = 1`: the two grouped collisions and the three gravity pairs processed
in the reverse of the source order give the same substep result. -/
theorem staging_order_independent_witness :
    (substep_stages
      (choose lineQ (1 / 100) 5 10
        [bodyQ 0 1 1 1, bodyQ 5 0 1 1, bodyQ 10 (-1) 1 1]).collisions 3).length = 5 ∧
    ((substep_stages
        (choose lineQ (1 / 100) 5 10
          [bodyQ 0 1 1 1, bodyQ 5 0 1 1, bodyQ 10 (-1) 1 1]).collisions
        [bodyQ 0 1 1 1, bodyQ 5 0 1 1, bodyQ 10 (-1) 1 1].length).reverse.foldl
      (run_stage lineQ
        (choose lineQ (1 / 100) 5 10
          [bodyQ 0 1 1 1, bodyQ 5 0 1 1, bodyQ 10 (-1) 1 1]).forward_time 1)
      ([bodyQ 0 1 1 1, bodyQ 5 0 1 1, bodyQ 10 (-1) 1 1].map
        (fun q => q.forward
          (choose lineQ (1 / 100) 5 10
            [bodyQ 0 1 1 1, bodyQ 5 0 1 1, bodyQ 10 (-1) 1 1]).forward_time))).map
      (fun q => q.apply) =
    substep lineQ (1 / 100) 5 1 10 [bodyQ 0 1 1 1, bodyQ 5 0 1 1, bodyQ 10 (-1) 1 1] :=
  ⟨by decide!,
    (staging_order_independent lineQ (1 / 100) 5 1 10
      [bodyQ 0 1 1 1, bodyQ 5 0 1 1, bodyQ 10 (-1) 1 1] _ (List.reverse_perm _)).2.2⟩

end Gravity
